import Mathlib

/-!
# SSD bounding-box post-processing (`src/util/ssd_bbox.cc`)

A shallow embedding of `mace_kit::util::SSDBbox` and a verification of the
statements made about it.

Modelling conventions.

* A C++ `float` is an element of a linear ordered field `α` (exact arithmetic:
  rounding, infinities and NaN are outside this model; `x / 0` follows the
  field convention `x / 0 = 0`).  The definitions are generic in `α`, so they
  can be evaluated at `ℚ` and reasoned about at `ℝ`.  The library functions
  `exp` and `sqrt` are parameters of the definitions that call them.
* The statements that do depend on rounding, underflow, overflow or NaN (the
  value of `CalJaccard`, the order of the corners `Decode` writes, the round
  trip through the encoding) are made about a second embedding of the same
  lines in IEEE 754 binary32, `Binary32` below.
* A `const float *` is the list of floats that starts at the pointer; `p + k`
  is `p.drop k` and `p[i]` is `p[i]?`.  A `std::vector` is a list and `v[i]`
  is `v[i]?`.  A read outside the storage is undefined behaviour in C++; the
  model then yields `none`.
* `int64_t` arguments are `Int`.  Loop counters and stored indices of C type
  `int` are natural numbers (the model covers buffers of fewer than `2^31`
  entries, where no `int` overflows).
-/

namespace mace_kit
namespace util
namespace SSDBbox

variable {α : Type} [LinearOrderedField α]

/-! ## `Decode` -/

/-- A counted loop `for (i = 0; i < n; i++) body`, threading the state the body
updates; an undefined step makes the whole loop undefined. -/
def forLoop {σ : Type} (body : Nat → σ → Option σ) : Nat → σ → Option σ
  | 0, s => some s
  | n + 1, s => (forLoop body n s).bind (body n)

/-- Lines 60-61 of `Decode`: `dh = anchor_shapes[anchor_idx][0]` and
`dw = anchor_shapes[anchor_idx][1]`. -/
def anchorDims {γ : Type} (anchor_shapes : List (List γ)) (anchor_idx : Nat) :
    Option (γ × γ) := do
  let shape ← anchor_shapes[anchor_idx]?
  let dh ← shape[0]?
  let dw ← shape[1]?
  pure (dh, dw)

/-- Lines 62-63 of `Decode`: the prior centre `(dcy, dcx)` of cell `(h, w)`. -/
def priorCentre (img_shape : List Int) (step_scale offset : α) (h w : Nat) :
    Option (α × α) := do
  let is0 : Int ← img_shape[0]?
  let is1 : Int ← img_shape[1]?
  let dcy : α := ((h : α) + offset) * step_scale / (is0 : α)
  let dcx : α := ((w : α) + offset) * step_scale / (is1 : α)
  pure (dcy, dcx)

/-- Lines 65-73 of `Decode`: the four values stored to `feature_data[0..3]`,
from the four values `f0 .. f3` read there. -/
def decodeBox (exp : α → α) (prior_scaling : List α) (dh dw dcy dcx f0 f1 f2 f3 : α) :
    Option (α × α × α × α) := do
  let ps0 ← prior_scaling[0]?
  let ps1 ← prior_scaling[1]?
  let ps2 ← prior_scaling[2]?
  let ps3 ← prior_scaling[3]?
  let gcy : α := dcy + f0 * dh * ps0
  let gcx : α := dcx + f1 * dw * ps1
  let gh : α := exp (f2 * dh * ps2)
  let gw : α := exp (f3 * dw * ps3)
  pure (max 0 (gcy - gh / 2), max 0 (gcx - gw / 2),
        min 1 (gcy + gh / 2), min 1 (gcx + gw / 2))

/-- Lines 60-75 of `Decode`: the body of the loop over `anchor_idx`.  The state
is the buffer behind `feature_localization` together with the position of the
pointer `feature_data` in it. -/
def decodeAnchor (exp : α → α) (img_shape : List Int) (step_scale : α)
    (anchor_shapes : List (List α)) (prior_scaling : List α) (offset : α)
    (h w anchor_idx : Nat) (st : List α × Nat) : Option (List α × Nat) := do
  let buf := st.1
  let feature_data := st.2
  let d ← anchorDims anchor_shapes anchor_idx
  let c ← priorCentre img_shape step_scale offset h w
  let f0 ← buf[feature_data]?
  let f1 ← buf[feature_data + 1]?
  let f2 ← buf[feature_data + 2]?
  let f3 ← buf[feature_data + 3]?
  let box ← decodeBox exp prior_scaling d.1 d.2 c.1 c.2 f0 f1 f2 f3
  let buf0 := buf.set feature_data box.1
  let buf1 := buf0.set (feature_data + 1) box.2.1
  let buf2 := buf1.set (feature_data + 2) box.2.2.1
  let buf3 := buf2.set (feature_data + 3) box.2.2.2
  pure (buf3, feature_data + 4)

/-- Lines 56-76 of `Decode`: the body of the loop over `w`. -/
def decodeCell (exp : α → α) (feature_shape img_shape : List Int) (step_scale : α)
    (anchor_shapes : List (List α)) (prior_scaling : List α) (offset : α)
    (h w : Nat) (buf : List α) : Option (List α) := do
  let anchor_count := anchor_shapes.length
  let fs1 : Int ← feature_shape[1]?
  let feature_data := (h * fs1.toNat + w) * anchor_count * 4
  let st ← forLoop
    (decodeAnchor exp img_shape step_scale anchor_shapes prior_scaling offset h w)
    anchor_count (buf, feature_data)
  pure st.1

/-- Lines 55-77 of `Decode`: the body of the loop over `h`. -/
def decodeRow (exp : α → α) (feature_shape img_shape : List Int) (step_scale : α)
    (anchor_shapes : List (List α)) (prior_scaling : List α) (offset : α)
    (h : Nat) (buf : List α) : Option (List α) := do
  let fs1 : Int ← feature_shape[1]?
  forLoop
    (decodeCell exp feature_shape img_shape step_scale anchor_shapes prior_scaling offset h)
    fs1.toNat buf

/-- `SSDBbox::Decode`.  The buffer behind `feature_localization` is passed in
and the rewritten buffer is returned; `exp` is the library exponential. -/
def Decode (exp : α → α) (feature_localization : List α)
    (feature_shape img_shape : List Int) (step : Int)
    (anchor_shapes : List (List α)) (prior_scaling : List α) (offset : α) :
    Option (List α) := do
  let step_scale : α ←
    if step = 0 then do
      let is0 : Int ← img_shape[0]?
      let fs0 : Int ← feature_shape[0]?
      pure (1 * (is0 : α) / (fs0 : α))
    else pure (step : α)
  let fs0 : Int ← feature_shape[0]?
  forLoop
    (decodeRow exp feature_shape img_shape step_scale anchor_shapes prior_scaling offset)
    fs0.toNat feature_localization

/-! ## `GetAnchorsShape` -/

/-- `SSDBbox::GetAnchorsShape`.  The vector behind `anchor_shapes` is passed in
and returned; `sqrt` is the library square root. -/
def GetAnchorsShape (sqrt : α → α) (img_height img_width min_size max_size : Int)
    (anchor_ratios : List α) (anchor_shapes : List (List α)) : List (List α) :=
  let shapes1 := anchor_shapes ++
    [[1 * (min_size : α) / (img_height : α), 1 * (min_size : α) / (img_width : α)]]
  let shapes2 :=
    if max_size > min_size then
      shapes1 ++ [[sqrt (1 * (min_size : α) * (max_size : α)) / (img_height : α),
                   sqrt (1 * (min_size : α) * (max_size : α)) / (img_width : α)]]
    else shapes1
  anchor_ratios.foldl
    (fun shapes ratio =>
      let sqrt_ratio := sqrt ratio
      shapes ++ [[1 * (min_size : α) / (img_height : α) / sqrt_ratio,
                  1 * (min_size : α) / (img_width : α) * sqrt_ratio]])
    shapes2

/-! ## `CalJaccard` -/

/-- `SSDBbox::CalJaccard(const float *lhs, const float *rhs)`. -/
def CalJaccard (lhs rhs : List α) : Option α := do
  let l0 ← lhs[0]?
  let l1 ← lhs[1]?
  let l2 ← lhs[2]?
  let l3 ← lhs[3]?
  let r0 ← rhs[0]?
  let r1 ← rhs[1]?
  let r2 ← rhs[2]?
  let r3 ← rhs[3]?
  let intersection : α :=
    max 0 (min l2 r2 - max l0 r0) * max 0 (min l3 r3 - max l1 r1)
  let unionarea : α :=
    (l2 - l0) * (l3 - l1) + (r2 - r0) * (r3 - r1) - intersection
  pure (intersection / unionarea)

/-! ## `SelectTopAndNMS` -/

/-- The comparator lambda handed to `std::sort`:
`lhs.first > rhs.first || (lhs.first == rhs.first && lhs.second < rhs.second)`. -/
def scoreCmp (lhs rhs : α × Nat) : Bool :=
  decide (lhs.1 > rhs.1) || (decide (lhs.1 = rhs.1) && decide (lhs.2 < rhs.2))

/-- Insertion of one element in front of the first element it precedes. -/
def sortInsert {β : Type} (cmp : β → β → Bool) (a : β) : List β → List β
  | [] => [a]
  | b :: l => if cmp a b then a :: b :: l else b :: sortInsert cmp a l

/-- The call `std::sort(first, last, cmp)`, modelled as an insertion sort by
`cmp`.  Where `cmp` is a strict total order on the elements sorted (as it is
for pairs with distinct indices) every sorting algorithm returns this list. -/
def std_sort {β : Type} (cmp : β → β → Bool) : List β → List β
  | [] => []
  | b :: l => sortInsert cmp b (std_sort cmp l)

/-- Lines 112-115: `scores_with_indices[i] = {scores[i], i}` for
`i = 0 .. count-1`; the argument is the number of iterations run. -/
def pairScores (scores : List α) : Nat → Option (List (α × Nat))
  | 0 => some []
  | i + 1 => do
    let acc ← pairScores scores i
    let s ← scores[i]?
    pure (acc ++ [(s, i)])

/-- Lines 123-126: `indices[i] = scores_with_indices[i].second` for
`i = 0 .. count-1`; the argument is the number of iterations run. -/
def fillIndices {γ : Type} (scores_with_indices : List (γ × Nat)) :
    Nat → Option (List Nat)
  | 0 => some []
  | i + 1 => do
    let acc ← fillIndices scores_with_indices i
    let p ← scores_with_indices[i]?
    pure (acc ++ [p.2])

/-- Lines 112-126 of `SelectTopAndNMS`: the ranked candidate list `indices`.
A negative size makes the `std::vector` constructor throw. -/
def rankedIndices (scores : List α) (anchor_count top_k : Int) : Option (List Nat) := do
  if anchor_count < 0 then none
  let scores_with_indices ← pairScores scores anchor_count.toNat
  let sorted := std_sort scoreCmp scores_with_indices
  if top_k < 0 then none
  fillIndices sorted top_k.toNat

/-- Lines 134-143: the inner loop over `j`, run over the remaining values of
`j`; the result is the final value of `retain`.  The constant `0.45` is the
fraction `45 / 100`. -/
def retainLoop (localization : List α) (indices : List Nat) (i : Nat) :
    List Nat → Option Bool
  | [] => some true
  | j :: js => do
    let ii ← indices[i]?
    let ij ← indices[j]?
    let iou ← CalJaccard (localization.drop (ii * 4)) (localization.drop (ij * 4))
    if iou > 45 / 100 then some false else retainLoop localization indices i js

/-- The range `first, first + 4` of a `float` pointer, as copied by
`vector::insert`. -/
def copy4 {γ : Type} (first : List γ) : Option (List γ) :=
  if 4 ≤ first.length then some (first.take 4) else none

/-- Lines 133-151: the outer loop over `i`, run over the remaining values of
`i`, threading the two output vectors. -/
def nmsLoop (scores localization : List α) (indices : List Nat) :
    List Nat → List α × List α → Option (List α × List α)
  | [], out => some out
  | i :: is, out => do
    let retain ← retainLoop localization indices i (List.range i)
    if retain then
      let ii ← indices[i]?
      let s ← scores[ii]?
      let box ← copy4 (localization.drop (ii * 4))
      nmsLoop scores localization indices is (out.1 ++ [s], out.2 ++ box)
    else
      nmsLoop scores localization indices is out

/-- `SSDBbox::SelectTopAndNMS`.  The two output vectors are passed in and
returned; the last argument is `nms_threshold`, which the body never reads. -/
def SelectTopAndNMS (scores localization : List α) (anchor_count : Int)
    (output_scores output_localization : List α) (top_k : Int)
    (_nms_threshold : α) : Option (List α × List α) := do
  let indices ← rankedIndices scores anchor_count top_k
  let i0 ← indices[0]?
  let s0 ← scores[i0]?
  let box0 ← copy4 localization
  nmsLoop scores localization indices (List.range' 1 (top_k.toNat - 1))
    (output_scores ++ [s0], output_localization ++ box0)

/-! ## How a call of `SelectTopAndNMS` ends -/

/-- The ways a call can end: it returns a value, it throws a C++ exception, or
its behaviour is undefined. -/
inductive Outcome (β : Type) : Type
  | returned (value : β)
  | thrown
  | undefined

/-- The end of a call of `SelectTopAndNMS`.  The body holds no check, `assert`
or `throw`; the only statements that can fail are the two `std::vector`
constructors of lines 112 and 123, which throw (`std::length_error` or
`std::bad_alloc`) on a size they do not grant: a negative size, a size above
`max_size()`, or a size the allocator refuses.  `pair_limit` and `int_limit`
are the largest sizes the constructors of line 112 (pairs) and of line 123
(ints) grant; they are at most `max_size()`, which is `2^60 - 1` and
`2^61 - 1` for libstdc++ on a 64-bit target.  The growth of the two output
vectors, by at most `top_k` scores and `4 * top_k` floats, is taken to succeed.
Every other way in which `SelectTopAndNMS` has no value is a read outside a
buffer or a vector through an unchecked `operator[]` or pointer, which is
undefined behaviour. -/
def SelectTopAndNMS_outcome (pair_limit int_limit : Nat)
    (scores localization : List α) (anchor_count : Int)
    (output_scores output_localization : List α) (top_k : Int)
    (nms_threshold : α) : Outcome (List α × List α) :=
  if anchor_count < 0 ∨ (pair_limit : Int) < anchor_count then Outcome.thrown
  else
    match pairScores scores anchor_count.toNat with
    | none => Outcome.undefined
    | some _ =>
      if top_k < 0 ∨ (int_limit : Int) < top_k then Outcome.thrown
      else
        match SelectTopAndNMS scores localization anchor_count output_scores
            output_localization top_k nms_threshold with
        | some out => Outcome.returned out
        | none => Outcome.undefined

/-! ## Canonical greedy NMS, for comparison -/

/-- Canonical greedy NMS in the words of section 9 of the specification
("canonical greedy NMS compares a candidate only against already-kept boxes").
It is the reference `SelectTopAndNMS` is compared with, not a translation of
the source.  The result is the list of the ranks among `0 .. count-1` that are
kept, in ranked order: a rank `i` is kept when no already kept rank `j` has
`CalJaccard(box_i, box_j) > 0.45`. -/
def canonicalKept (localization : List α) (indices : List Nat) : Nat → List Nat
  | 0 => []
  | i + 1 =>
    let kept := canonicalKept localization indices i
    if kept.all (fun j => decide
        (¬ ∃ iou ∈ CalJaccard (localization.drop (indices.getD i 0 * (4 : Nat)))
          (localization.drop (indices.getD j 0 * (4 : Nat))), iou > 45 / 100))
    then kept ++ [i] else kept

/-- The score list canonical greedy NMS returns for the ranked list `indices`
and its first `top_k` ranks (see `canonicalKept`). -/
def canonicalGreedyNMS (scores localization : List α) (indices : List Nat)
    (top_k : Nat) : List α :=
  (canonicalKept localization indices top_k).map
    (fun i => scores.getD (indices.getD i 0) 0)

/-! ## Vocabulary of the proofs -/

/-- Rank `i` of the ranked list passes the test of lines 134-143: no earlier
rank `j < i` has a box whose `CalJaccard` overlap with the box of rank `i` is
above 0.45. -/
def retained (localization : List α) (indices : List Nat) (i : Nat) : Bool :=
  decide (∀ j ∈ List.range i,
    ¬ ∃ iou ∈ CalJaccard (localization.drop (indices.getD i 0 * (4 : Nat)))
      (localization.drop (indices.getD j 0 * (4 : Nat))), iou > 45 / 100)

/-- The score `scores[indices[i]]` of rank `i`. -/
def rankScore (scores : List α) (indices : List Nat) (i : Nat) : α :=
  scores.getD (indices.getD i 0) 0

/-- The four floats `localization + indices[i] * 4 .. + 4` of rank `i`. -/
def rankBox (localization : List α) (indices : List Nat) (i : Nat) : List α :=
  (localization.drop (indices.getD i 0 * 4)).take 4

/-- The slot of four floats at position `o` has been decoded: with `f0 .. f3`
the values of the buffer `b` before, the buffer `b1` after holds there the
values lines 65-73 store for the prior centre `(dcy, dcx)`, the anchor shape
`(dh, dw)` and the scaling `s0 .. s3`. -/
def slotDecoded (exp : α → α) (dcy dcx dh dw s0 s1 s2 s3 : α) (o : Nat)
    (b b1 : List α) : Prop :=
  ∃ f0 f1 f2 f3 : α,
    b[o]? = some f0 ∧ b[o + 1]? = some f1 ∧ b[o + 2]? = some f2 ∧ b[o + 3]? = some f3 ∧
    b1[o]? = some (max 0 (dcy + f0 * dh * s0 - exp (f2 * dh * s2) / 2)) ∧
    b1[o + 1]? = some (max 0 (dcx + f1 * dw * s1 - exp (f3 * dw * s3) / 2)) ∧
    b1[o + 2]? = some (min 1 (dcy + f0 * dh * s0 + exp (f2 * dh * s2) / 2)) ∧
    b1[o + 3]? = some (min 1 (dcx + f1 * dw * s1 + exp (f3 * dw * s3) / 2))

/-! ## Binary32 arithmetic

Where a statement depends on rounding, underflow, overflow or NaN, the `float`
operations of the source are taken in IEEE 754 binary32, the format of a C++
`float`: every operation rounds its exact result once, to nearest with ties to
even (no fused multiply-add and no wider intermediate precision).  A finite
value is the rational number it stands for; `+0` and `-0`, which compare
equal, are the one value `0`. -/

/-- `log2Fuel fuel n` is the position of the leading bit of `n`, for
`0 < n ≤ fuel`. -/
def log2Fuel : Nat → Nat → Nat
  | 0, _ => 0
  | fuel + 1, n => if n < 2 then 0 else log2Fuel fuel (n / 2) + 1

/-- The position of the leading bit of `n`:
`2 ^ natLog2 n ≤ n < 2 ^ (natLog2 n + 1)` for `n ≠ 0`. -/
def natLog2 (n : Nat) : Nat := log2Fuel n n

/-- The binary exponent of a rational `q ≠ 0`:
`2 ^ ilog2 q ≤ |q| < 2 ^ (ilog2 q + 1)`. -/
def ilog2 (q : ℚ) : Int :=
  if (2 : ℚ) ^ ((natLog2 q.num.natAbs : Int) - (natLog2 q.den : Int)) ≤ |q| then
    (natLog2 q.num.natAbs : Int) - (natLog2 q.den : Int)
  else (natLog2 q.num.natAbs : Int) - (natLog2 q.den : Int) - 1

/-- The exponent of the binade of `q`, not below the exponent `-126` of the
subnormal numbers. -/
def binade (q : ℚ) : Int := max (ilog2 q) (-126)

/-- The spacing of the binary32 numbers around `q`: 24 significant bits, and
the spacing `2 ^ (-149)` of the subnormal numbers below `2 ^ (-126)`. -/
def ulp (q : ℚ) : ℚ := (2 : ℚ) ^ (binade q - 23)

/-- Rounding to the nearest integer, a tie going to the even one. -/
def roundEven (x : ℚ) : Int :=
  if x - ⌊x⌋ < 1 / 2 then ⌊x⌋
  else if 1 / 2 < x - ⌊x⌋ then ⌊x⌋ + 1
  else if ⌊x⌋ % 2 = 0 then ⌊x⌋ else ⌊x⌋ + 1

/-- Rounding to the nearest multiple of the spacing, ties to even: the binary32
rounding of an exact result, before the range check. -/
def rnd (q : ℚ) : ℚ := roundEven (q / ulp q) * ulp q

/-- A binary32 value: a finite number, an infinity or a NaN. -/
inductive Binary32 : Type
  | fin (q : ℚ)
  | pinf
  | ninf
  | nan
  deriving DecidableEq

/-- The binary32 result of an operation whose exact result is `q`: an infinity
when the rounded value is beyond the largest finite number. -/
def round32 (q : ℚ) : Binary32 :=
  if (2 : ℚ) ^ 128 ≤ rnd q then Binary32.pinf
  else if rnd q ≤ -(2 : ℚ) ^ 128 then Binary32.ninf
  else Binary32.fin (rnd q)

namespace Binary32

/-- Unary minus. -/
def neg : Binary32 → Binary32
  | fin a => fin (-a)
  | pinf => ninf
  | ninf => pinf
  | nan => nan

/-- The sum `x + y` of two floats. -/
def add : Binary32 → Binary32 → Binary32
  | fin a, fin b => round32 (a + b)
  | fin _, pinf => pinf
  | fin _, ninf => ninf
  | pinf, fin _ => pinf
  | pinf, pinf => pinf
  | ninf, fin _ => ninf
  | ninf, ninf => ninf
  | _, _ => nan

/-- The difference `x - y` of two floats. -/
def sub (x y : Binary32) : Binary32 := add x (neg y)

/-- The product `x * y` of two floats. -/
def mul : Binary32 → Binary32 → Binary32
  | fin a, fin b => round32 (a * b)
  | fin a, pinf => if 0 < a then pinf else if a < 0 then ninf else nan
  | fin a, ninf => if 0 < a then ninf else if a < 0 then pinf else nan
  | pinf, fin b => if 0 < b then pinf else if b < 0 then ninf else nan
  | ninf, fin b => if 0 < b then ninf else if b < 0 then pinf else nan
  | pinf, pinf => pinf
  | ninf, ninf => pinf
  | pinf, ninf => ninf
  | ninf, pinf => ninf
  | _, _ => nan

/-- The quotient `x / y` of two floats.  A zero divisor is taken as `+0`: the
divisors of the source are a converted integer, the constant `2`, and the
`unionarea` of `CalJaccard`, which can be `-0` only where the dividend is `0`
and the quotient a NaN for either sign. -/
def div : Binary32 → Binary32 → Binary32
  | fin a, fin b =>
    if b = 0 then (if 0 < a then pinf else if a < 0 then ninf else nan)
    else round32 (a / b)
  | fin _, pinf => fin 0
  | fin _, ninf => fin 0
  | pinf, fin b => if 0 ≤ b then pinf else ninf
  | ninf, fin b => if 0 ≤ b then ninf else pinf
  | _, _ => nan

/-- The comparison `x < y` of two floats; false when either is a NaN. -/
def lt : Binary32 → Binary32 → Bool
  | fin a, fin b => decide (a < b)
  | fin _, pinf => true
  | ninf, fin _ => true
  | ninf, pinf => true
  | _, _ => false

/-- The comparison `x <= y` of two floats; false when either is a NaN. -/
def le : Binary32 → Binary32 → Bool
  | fin a, fin b => decide (a ≤ b)
  | fin _, pinf => true
  | ninf, fin _ => true
  | ninf, pinf => true
  | pinf, pinf => true
  | ninf, ninf => true
  | _, _ => false

/-- The call `std::max(a, b)`, which is `(a < b) ? b : a`. -/
def std_max (a b : Binary32) : Binary32 := if lt a b then b else a

/-- The call `std::min(a, b)`, which is `(b < a) ? b : a`. -/
def std_min (a b : Binary32) : Binary32 := if lt b a then b else a

/-- The conversion of an integer to `float`. -/
def ofInt (z : Int) : Binary32 := round32 z

end Binary32

/-- The term `(b[2] - b[0]) * (b[3] - b[1])` of line 159 or 160 of `CalJaccard`,
in binary32. -/
def area_binary32 (b0 b1 b2 b3 : Binary32) : Binary32 :=
  Binary32.mul (Binary32.sub b2 b0) (Binary32.sub b3 b1)

/-- Lines 156-158 of `CalJaccard`: the local `intersection`, in binary32. -/
def intersection_binary32 (l0 l1 l2 l3 r0 r1 r2 r3 : Binary32) : Binary32 :=
  Binary32.mul
    (Binary32.std_max (Binary32.fin 0)
      (Binary32.sub (Binary32.std_min l2 r2) (Binary32.std_max l0 r0)))
    (Binary32.std_max (Binary32.fin 0)
      (Binary32.sub (Binary32.std_min l3 r3) (Binary32.std_max l1 r1)))

/-- Lines 159-160 of `CalJaccard`: the local `unionarea`, in binary32. -/
def unionarea_binary32 (l0 l1 l2 l3 r0 r1 r2 r3 : Binary32) : Binary32 :=
  Binary32.sub
    (Binary32.add (area_binary32 l0 l1 l2 l3) (area_binary32 r0 r1 r2 r3))
    (intersection_binary32 l0 l1 l2 l3 r0 r1 r2 r3)

/-- `SSDBbox::CalJaccard(const float *lhs, const float *rhs)` in binary32. -/
def CalJaccard_binary32 (lhs rhs : List Binary32) : Option Binary32 := do
  let l0 ← lhs[0]?
  let l1 ← lhs[1]?
  let l2 ← lhs[2]?
  let l3 ← lhs[3]?
  let r0 ← rhs[0]?
  let r1 ← rhs[1]?
  let r2 ← rhs[2]?
  let r3 ← rhs[3]?
  pure (Binary32.div (intersection_binary32 l0 l1 l2 l3 r0 r1 r2 r3)
    (unionarea_binary32 l0 l1 l2 l3 r0 r1 r2 r3))

/-- Lines 62-63 of `Decode` in binary32: the prior centre `(dcy, dcx)` of cell
`(h, w)`. -/
def priorCentre_binary32 (img_shape : List Int) (step_scale offset : Binary32)
    (h w : Nat) : Option (Binary32 × Binary32) := do
  let is0 : Int ← img_shape[0]?
  let is1 : Int ← img_shape[1]?
  let dcy := Binary32.div
    (Binary32.mul (Binary32.add (Binary32.ofInt h) offset) step_scale) (Binary32.ofInt is0)
  let dcx := Binary32.div
    (Binary32.mul (Binary32.add (Binary32.ofInt w) offset) step_scale) (Binary32.ofInt is1)
  pure (dcy, dcx)

/-- Lines 65-73 of `Decode` in binary32: the four values stored to
`feature_data[0..3]`, from the four values `f0 .. f3` read there.  `exp` is the
value line 67 or 68 stores for an argument: the library exponential, as a
`float`. -/
def decodeBox_binary32 (exp : Binary32 → Binary32) (prior_scaling : List Binary32)
    (dh dw dcy dcx f0 f1 f2 f3 : Binary32) :
    Option (Binary32 × Binary32 × Binary32 × Binary32) := do
  let ps0 ← prior_scaling[0]?
  let ps1 ← prior_scaling[1]?
  let ps2 ← prior_scaling[2]?
  let ps3 ← prior_scaling[3]?
  let gcy := Binary32.add dcy (Binary32.mul (Binary32.mul f0 dh) ps0)
  let gcx := Binary32.add dcx (Binary32.mul (Binary32.mul f1 dw) ps1)
  let gh := exp (Binary32.mul (Binary32.mul f2 dh) ps2)
  let gw := exp (Binary32.mul (Binary32.mul f3 dw) ps3)
  pure (Binary32.std_max (Binary32.fin 0) (Binary32.sub gcy (Binary32.div gh (Binary32.fin 2))),
        Binary32.std_max (Binary32.fin 0) (Binary32.sub gcx (Binary32.div gw (Binary32.fin 2))),
        Binary32.std_min (Binary32.fin 1) (Binary32.add gcy (Binary32.div gh (Binary32.fin 2))),
        Binary32.std_min (Binary32.fin 1) (Binary32.add gcx (Binary32.div gw (Binary32.fin 2))))

/-! ## The ranked candidate list -/

theorem pairScores_eq (scores : List α) (n : Nat) (hn : n ≤ scores.length) :
    pairScores scores n = some ((List.range n).map (fun i => (scores.getD i 0, i))) := by
  induction n with
  | zero => rfl
  | succ m ih =>
    have hm : m < scores.length := hn
    simp [pairScores, ih (Nat.le_of_lt hm), List.getElem?_eq_getElem hm, List.range_succ,
      List.getD_eq_getElem _ _ hm]

theorem fillIndices_eq {γ : Type} (l : List (γ × Nat)) (k : Nat) (hk : k ≤ l.length) :
    fillIndices l k = some ((l.take k).map Prod.snd) := by
  induction k with
  | zero => rfl
  | succ m ih =>
    have hm : m < l.length := hk
    have ht : List.take (m + 1) l = List.take m l ++ [l[m]] := by
      rw [List.take_succ, List.getElem?_eq_getElem hm]; rfl
    rw [ht]
    simp only [fillIndices, ih (Nat.le_of_lt hm), List.getElem?_eq_getElem hm,
      List.map_append, List.map_cons, List.map_nil]
    rfl

theorem sortInsert_perm {β : Type} (cmp : β → β → Bool) (a : β) (l : List β) :
    (sortInsert cmp a l).Perm (a :: l) := by
  induction l with
  | nil => exact List.Perm.refl _
  | cons b l ih =>
    unfold sortInsert
    split
    · exact List.Perm.refl _
    · exact (List.Perm.cons b ih).trans (List.Perm.swap a b l)

theorem std_sort_perm {β : Type} (cmp : β → β → Bool) (l : List β) :
    (std_sort cmp l).Perm l := by
  induction l with
  | nil => exact List.Perm.refl _
  | cons b l ih =>
    exact (sortInsert_perm cmp b (std_sort cmp l)).trans (List.Perm.cons b ih)

theorem sortInsert_pairwise {β : Type} (cmp : β → β → Bool)
    (htrans : ∀ a b c, cmp a b = true → cmp b c = true → cmp a c = true)
    (a : β) (l : List β) (hl : l.Pairwise (fun x y => cmp x y = true))
    (ha : ∀ b ∈ l, cmp a b = true ∨ cmp b a = true) :
    (sortInsert cmp a l).Pairwise (fun x y => cmp x y = true) := by
  induction l with
  | nil => simp [sortInsert]
  | cons b l ih =>
    rw [List.pairwise_cons] at hl
    unfold sortInsert
    split
    · rename_i hab
      refine List.pairwise_cons.2 ⟨?_, List.pairwise_cons.2 hl⟩
      intro c hc
      rcases List.mem_cons.1 hc with rfl | hc
      · exact hab
      · exact htrans _ _ _ hab (hl.1 c hc)
    · rename_i hab
      have hba : cmp b a = true := by
        rcases ha b (List.mem_cons_self _ _) with h | h
        · exact absurd h hab
        · exact h
      refine List.pairwise_cons.2 ⟨?_, ih hl.2 (fun c hc => ha c (List.mem_cons_of_mem _ hc))⟩
      intro c hc
      rcases List.mem_cons.1 ((sortInsert_perm cmp a l).subset hc) with rfl | hc
      · exact hba
      · exact hl.1 c hc

theorem std_sort_pairwise {β : Type} (cmp : β → β → Bool)
    (htrans : ∀ a b c, cmp a b = true → cmp b c = true → cmp a c = true)
    (l : List β) (hl : l.Pairwise (fun x y => cmp x y = true ∨ cmp y x = true)) :
    (std_sort cmp l).Pairwise (fun x y => cmp x y = true) := by
  induction l with
  | nil => simp [std_sort]
  | cons b l ih =>
    rw [List.pairwise_cons] at hl
    refine sortInsert_pairwise cmp htrans b _ (ih hl.2) ?_
    intro c hc
    exact hl.1 c ((std_sort_perm cmp l).subset hc)

theorem scoreCmp_iff (a b : α × Nat) :
    scoreCmp a b = true ↔ (b.1 < a.1 ∨ (a.1 = b.1 ∧ a.2 < b.2)) := by
  simp [scoreCmp]

theorem scoreCmp_trans (a b c : α × Nat) (hab : scoreCmp a b = true)
    (hbc : scoreCmp b c = true) : scoreCmp a c = true := by
  rw [scoreCmp_iff] at *
  rcases hab with h1 | ⟨h1, h2⟩ <;> rcases hbc with h3 | ⟨h3, h4⟩
  · exact Or.inl (lt_trans h3 h1)
  · exact Or.inl (h3 ▸ h1)
  · exact Or.inl (h1 ▸ h3)
  · exact Or.inr ⟨h1.trans h3, lt_trans h2 h4⟩

theorem scoreCmp_total (a b : α × Nat) (hne : a.2 ≠ b.2) :
    scoreCmp a b = true ∨ scoreCmp b a = true := by
  rw [scoreCmp_iff, scoreCmp_iff]
  rcases lt_trichotomy a.1 b.1 with h | h | h
  · exact Or.inr (Or.inl h)
  · rcases Nat.lt_or_gt_of_ne hne with h2 | h2
    · exact Or.inl (Or.inr ⟨h, h2⟩)
    · exact Or.inr (Or.inr ⟨h.symm, h2⟩)
  · exact Or.inl (Or.inl h)

theorem scoreCmp_asymm (a b : α × Nat) (hab : scoreCmp a b = true) :
    ¬ scoreCmp b a = true := by
  rw [scoreCmp_iff] at *
  rintro (h | ⟨h, h2⟩)
  · rcases hab with h1 | ⟨h1, _⟩
    · exact lt_asymm h h1
    · exact absurd h1 (ne_of_lt h)
  · rcases hab with h1 | ⟨_, h3⟩
    · exact absurd h (ne_of_lt h1)
    · exact Nat.lt_asymm h2 h3

/-- Every sorted rearrangement of the input is the list `std_sort` returns, when
the comparator is a strict order that compares any two entries of the input:
the result of `std::sort` does not depend on the sorting algorithm. -/
theorem std_sort_unique {β : Type} (cmp : β → β → Bool)
    (htrans : ∀ a b c, cmp a b = true → cmp b c = true → cmp a c = true)
    (hasymm : ∀ a b, cmp a b = true → ¬ cmp b a = true)
    (l sorted : List β) (hl : l.Pairwise (fun x y => cmp x y = true ∨ cmp y x = true))
    (hperm : sorted.Perm l) (hsorted : sorted.Pairwise (fun x y => cmp x y = true)) :
    sorted = std_sort cmp l := by
  haveI : IsAntisymm β (fun x y => cmp x y = true) :=
    ⟨fun a b h1 h2 => absurd h2 (hasymm a b h1)⟩
  exact List.eq_of_perm_of_sorted (hperm.trans (std_sort_perm cmp l).symm) hsorted
    (std_sort_pairwise cmp htrans l hl)

/-- The sorted vector `scores_with_indices` of `SelectTopAndNMS`. -/
theorem rankedIndices_eq (scores : List α) (n k : Nat) (hn : n ≤ scores.length)
    (hk : k ≤ n) :
    rankedIndices scores n k = some (((std_sort scoreCmp
      ((List.range n).map (fun i => (scores.getD i 0, i)))).take k).map Prod.snd) := by
  have hlen : (std_sort scoreCmp
      ((List.range n).map (fun i => (scores.getD i 0, i)))).length = n := by
    rw [(std_sort_perm _ _).length_eq]; simp
  have h1 : ¬ ((n : Int) < 0) := by omega
  have h2 : ¬ ((k : Int) < 0) := by omega
  unfold rankedIndices
  simp only [Int.toNat_ofNat, pairScores_eq scores n hn, h1, h2, if_false]
  exact fillIndices_eq _ k (by rw [hlen]; exact hk)

/-- Under the size preconditions the ranked list is an initial segment of a list that
is sorted by the comparator and is a permutation of the score-index pairs. -/
theorem rankedIndices_sorted (scores : List α) (n k : Nat) (hn : n ≤ scores.length)
    (hk : k ≤ n) :
    ∃ sorted : List (α × Nat),
      sorted.Perm ((List.range n).map (fun i => (scores.getD i 0, i))) ∧
      sorted.Pairwise (fun x y => scoreCmp x y = true) ∧
      rankedIndices scores n k = some ((sorted.take k).map Prod.snd) := by
  refine ⟨_, std_sort_perm scoreCmp _, ?_, rankedIndices_eq scores n k hn hk⟩
  apply std_sort_pairwise scoreCmp scoreCmp_trans
  rw [List.pairwise_map]
  refine List.Pairwise.imp ?_ (List.nodup_range n)
  intro i j hij
  exact scoreCmp_total _ _ hij

theorem mem_pairs_iff (scores : List α) (n : Nat) (e : α × Nat) :
    e ∈ (List.range n).map (fun i => (scores.getD i 0, i)) ↔
      e.2 < n ∧ e = (scores.getD e.2 0, e.2) := by
  constructor
  · intro h
    obtain ⟨i, hi, rfl⟩ := List.mem_map.1 h
    exact ⟨List.mem_range.1 hi, rfl⟩
  · rintro ⟨h1, h2⟩
    exact List.mem_map.2 ⟨e.2, List.mem_range.2 h1, h2.symm⟩

/-- The facts about the ranked list that the later proofs use. -/
theorem rankedIndices_props (scores : List α) (n k : Nat) (hn : n ≤ scores.length)
    (hk : k ≤ n) :
    ∃ idx : List Nat, rankedIndices scores n k = some idx ∧ idx.length = k ∧
      (∀ p ∈ idx, p < n) ∧ idx.Nodup ∧
      idx.Pairwise (fun p q =>
        scoreCmp (scores.getD p 0, p) (scores.getD q 0, q) = true) ∧
      (∀ p ∈ idx, ∀ q, q < n → q ∉ idx →
        scoreCmp (scores.getD p 0, p) (scores.getD q 0, q) = true) := by
  obtain ⟨sorted, hperm, hsorted, heq⟩ := rankedIndices_sorted scores n k hn hk
  have hmem : ∀ e ∈ sorted, e.2 < n ∧ e = (scores.getD e.2 0, e.2) := fun e he =>
    (mem_pairs_iff scores n e).1 (hperm.subset he)
  have hlen : sorted.length = n := by rw [hperm.length_eq]; simp
  have hsnd : (sorted.map Prod.snd).Perm (List.range n) := by
    have := hperm.map Prod.snd
    simpa [List.map_map, Function.comp_def] using this
  have hsplit : sorted = sorted.take k ++ sorted.drop k := (List.take_append_drop k sorted).symm
  refine ⟨_, heq, ?_, ?_, ?_, ?_, ?_⟩
  · simp [hlen, hk]
  · intro p hp
    obtain ⟨e, he, rfl⟩ := List.mem_map.1 hp
    exact (hmem e (List.mem_of_mem_take he)).1
  · have hnd : (sorted.map Prod.snd).Nodup := hsnd.nodup_iff.2 (List.nodup_range n)
    exact hnd.sublist ((List.take_sublist k sorted).map Prod.snd)
  · rw [List.pairwise_map]
    refine List.Pairwise.imp_of_mem ?_ (hsorted.sublist (List.take_sublist k sorted))
    intro a b ha hb hab
    rw [← (hmem a (List.mem_of_mem_take ha)).2, ← (hmem b (List.mem_of_mem_take hb)).2]
    exact hab
  · intro p hp q hq hnot
    obtain ⟨e, he, rfl⟩ := List.mem_map.1 hp
    have hq1 : (scores.getD q 0, q) ∈ sorted :=
      hperm.symm.subset ((mem_pairs_iff scores n _).2 ⟨hq, rfl⟩)
    rw [hsplit] at hq1 hsorted
    rcases List.mem_append.1 hq1 with h | h
    · exact absurd (List.mem_map.2 ⟨_, h, rfl⟩) hnot
    · rw [← (hmem e (List.mem_of_mem_take he)).2]
      exact (List.pairwise_append.1 hsorted).2.2 e he _ h

/-- Two lists of the same length that are sorted by the comparator and closed
under "ranks before everything outside" coincide. -/
theorem ranked_unique (scores : List α) (n : Nat) (L M : List Nat)
    (hlen : L.length = M.length)
    (hLn : ∀ p ∈ L, p < n) (hMn : ∀ p ∈ M, p < n)
    (hLnd : L.Nodup) (hMnd : M.Nodup)
    (hLs : L.Pairwise (fun p q =>
      scoreCmp (scores.getD p 0, p) (scores.getD q 0, q) = true))
    (hMs : M.Pairwise (fun p q =>
      scoreCmp (scores.getD p 0, p) (scores.getD q 0, q) = true))
    (hLout : ∀ p ∈ L, ∀ q, q < n → q ∉ L →
      scoreCmp (scores.getD p 0, p) (scores.getD q 0, q) = true)
    (hMout : ∀ p ∈ M, ∀ q, q < n → q ∉ M →
      scoreCmp (scores.getD p 0, p) (scores.getD q 0, q) = true) :
    L = M := by
  have hsub : L ⊆ M := by
    intro p hp
    by_contra hpM
    have hex : ∃ q ∈ M, q ∉ L := by
      by_contra hno
      have hML : M ⊆ L := by
        intro q hq
        by_contra hqL
        exact hno ⟨q, hq, hqL⟩
      have hperm : M.Perm L :=
        (List.subperm_of_subset hMnd hML).perm_of_length_le (le_of_eq hlen)
      exact hpM (hperm.symm.subset hp)
    obtain ⟨q, hqM, hqL⟩ := hex
    exact scoreCmp_asymm _ _ (hLout p hp q (hMn q hqM) hqL) (hMout q hqM p (hLn p hp) hpM)
  have hperm : L.Perm M :=
    (List.subperm_of_subset hLnd hsub).perm_of_length_le (le_of_eq hlen.symm)
  haveI : IsAntisymm Nat (fun p q =>
      scoreCmp (scores.getD p 0, p) (scores.getD q 0, q) = true) :=
    ⟨fun a b hab hba => absurd hba (scoreCmp_asymm _ _ hab)⟩
  exact List.eq_of_perm_of_sorted hperm hLs hMs

/-- A list whose consecutive entries are ordered by the comparator is pairwise
ordered by it. -/
theorem pairwise_of_consecutive (scores : List α) (L : List Nat)
    (h : ∀ i, i + 1 < L.length →
      scoreCmp (scores.getD (L.getD i 0) 0, L.getD i 0)
        (scores.getD (L.getD (i + 1) 0) 0, L.getD (i + 1) 0) = true) :
    L.Pairwise (fun p q =>
      scoreCmp (scores.getD p 0, p) (scores.getD q 0, q) = true) := by
  haveI : IsTrans Nat (fun p q =>
      scoreCmp (scores.getD p 0, p) (scores.getD q 0, q) = true) :=
    ⟨fun a b c hab hbc => scoreCmp_trans _ _ _ hab hbc⟩
  rw [← List.chain'_iff_pairwise, List.chain'_iff_get]
  intro i hi
  have h1 : i + 1 < L.length := by omega
  have h0 : i < L.length := by omega
  have := h i h1
  simpa [List.getElem?_eq_getElem h1, List.getElem?_eq_getElem h0] using this

/-! ## The suppression loops -/

theorem getElem?_of_mem_box {γ : Type} (loc : List γ) (p c : Nat) (hc : c < 4)
    (hp : p * 4 + 4 ≤ loc.length) :
    ∃ v, (loc.drop (p * 4))[c]? = some v := by
  have h : p * 4 + c < loc.length := by omega
  exact ⟨loc[p * 4 + c], by rw [List.getElem?_drop, List.getElem?_eq_getElem h]⟩

/-- Inside the buffer `CalJaccard` reads only defined floats. -/
theorem CalJaccard_isSome (loc : List α) (p q : Nat) (hp : p * 4 + 4 ≤ loc.length)
    (hq : q * 4 + 4 ≤ loc.length) :
    ∃ v, CalJaccard (loc.drop (p * 4)) (loc.drop (q * 4)) = some v := by
  obtain ⟨l0, h0⟩ := getElem?_of_mem_box loc p 0 (by omega) hp
  obtain ⟨l1, h1⟩ := getElem?_of_mem_box loc p 1 (by omega) hp
  obtain ⟨l2, h2⟩ := getElem?_of_mem_box loc p 2 (by omega) hp
  obtain ⟨l3, h3⟩ := getElem?_of_mem_box loc p 3 (by omega) hp
  obtain ⟨r0, k0⟩ := getElem?_of_mem_box loc q 0 (by omega) hq
  obtain ⟨r1, k1⟩ := getElem?_of_mem_box loc q 1 (by omega) hq
  obtain ⟨r2, k2⟩ := getElem?_of_mem_box loc q 2 (by omega) hq
  obtain ⟨r3, k3⟩ := getElem?_of_mem_box loc q 3 (by omega) hq
  simp only [CalJaccard, h0, h1, h2, h3, k0, k1, k2, k3, Option.bind_eq_bind,
    Option.some_bind, Option.pure_def]
  exact ⟨_, rfl⟩

theorem getElem?_eq_some_getD (l : List Nat) (i : Nat) (hi : i < l.length) :
    l[i]? = some (l.getD i 0) := by
  rw [List.getElem?_eq_getElem hi, List.getD_eq_getElem _ _ hi]

theorem getD_mem (l : List Nat) (i : Nat) (hi : i < l.length) : l.getD i 0 ∈ l := by
  rw [List.getD_eq_getElem _ _ hi]; exact List.getElem_mem hi

/-- The inner loop computes "no earlier-ranked box overlaps by more than 0.45". -/
theorem retainLoop_eq (loc : List α) (idx : List Nat) (i : Nat) (hi : i < idx.length)
    (hbox : ∀ p ∈ idx, p * 4 + 4 ≤ loc.length) (js : List Nat)
    (hjs : ∀ j ∈ js, j < idx.length) :
    retainLoop loc idx i js = some (decide (∀ j ∈ js,
      ¬ ∃ iou ∈ CalJaccard (loc.drop (idx.getD i 0 * (4 : Nat)))
        (loc.drop (idx.getD j 0 * (4 : Nat))), iou > 45 / 100)) := by
  induction js with
  | nil => simp [retainLoop]
  | cons j js ih =>
    have hj : j < idx.length := hjs j (List.mem_cons_self _ _)
    obtain ⟨v, hv⟩ := CalJaccard_isSome loc (idx.getD i 0) (idx.getD j 0)
      (hbox _ (getD_mem idx i hi)) (hbox _ (getD_mem idx j hj))
    have ih2 := ih (fun j2 hj2 => hjs j2 (List.mem_cons_of_mem _ hj2))
    simp only [retainLoop, getElem?_eq_some_getD idx i hi, getElem?_eq_some_getD idx j hj,
      Option.bind_eq_bind, Option.some_bind, hv, ih2]
    by_cases hgt : v > 45 / 100
    · rw [if_pos hgt]
      congr 1
      symm
      rw [decide_eq_false_iff_not]
      intro hall
      exact hall j (List.mem_cons_self _ _) ⟨v, hv, hgt⟩
    · rw [if_neg hgt]
      congr 1
      rw [decide_eq_decide]
      constructor
      · intro hall j2 hj2
        rcases List.mem_cons.1 hj2 with rfl | hj2
        · rintro ⟨v2, hv2, hgt2⟩
          rw [Option.mem_def, hv] at hv2
          exact hgt (Option.some.inj hv2 ▸ hgt2)
        · exact hall j2 hj2
      · intro hall j2 hj2
        exact hall j2 (List.mem_cons_of_mem _ hj2)

theorem copy4_box {γ : Type} (loc : List γ) (p : Nat) (hp : p * 4 + 4 ≤ loc.length) :
    copy4 (loc.drop (p * 4)) = some ((loc.drop (p * 4)).take 4) := by
  have h : 4 ≤ (loc.drop (p * 4)).length := by rw [List.length_drop]; omega
  rw [copy4, if_pos h]

/-- The outer loop appends the score and the box of every retained rank. -/
theorem nmsLoop_eq (scores loc : List α) (idx : List Nat)
    (hbox : ∀ p ∈ idx, p * 4 + 4 ≤ loc.length) (hsc : ∀ p ∈ idx, p < scores.length)
    (is : List Nat) (his : ∀ i ∈ is, i < idx.length) (out : List α × List α) :
    nmsLoop scores loc idx is out = some
      (out.1 ++ (is.filter (retained loc idx)).map (rankScore scores idx),
       out.2 ++ (is.filter (retained loc idx)).flatMap (rankBox loc idx)) := by
  induction is generalizing out with
  | nil => simp [nmsLoop]
  | cons i is ih =>
    have hi : i < idx.length := his i (List.mem_cons_self _ _)
    have ih2 := ih (fun i2 hi2 => his i2 (List.mem_cons_of_mem _ hi2))
    have hret : retainLoop loc idx i (List.range i) = some (retained loc idx i) :=
      retainLoop_eq loc idx i hi hbox (List.range i)
        (fun j hj => lt_trans (List.mem_range.1 hj) hi)
    have hmem := getD_mem idx i hi
    have hs : scores[idx.getD i 0]? = some (rankScore scores idx i) := by
      rw [List.getElem?_eq_getElem (hsc _ hmem), rankScore,
        List.getD_eq_getElem _ _ (hsc _ hmem)]
    cases hb : retained loc idx i with
    | true =>
      simp only [nmsLoop, hret, hb, getElem?_eq_some_getD idx i hi, hs,
        copy4_box loc _ (hbox _ hmem), Option.bind_eq_bind, Option.some_bind, if_true, ih2,
        List.filter_cons, List.map_cons, List.flatMap_cons]
      simp [rankBox, List.append_assoc]
    | false =>
      simp only [nmsLoop, hret, hb, Option.bind_eq_bind, Option.some_bind, ih2,
        List.filter_cons]
      simp

/-- The value of `SelectTopAndNMS` under its size preconditions. -/
theorem SelectTopAndNMS_eq (scores loc : List α) (n k : Nat) (os ol : List α) (thr : α)
    (hs : n ≤ scores.length) (hl : 4 * n ≤ loc.length) (h1 : 1 ≤ k) (hk : k ≤ n) :
    ∃ idx : List Nat, rankedIndices scores n k = some idx ∧
      SelectTopAndNMS scores loc n os ol k thr = some
        (os ++ rankScore scores idx 0 ::
          ((List.range' 1 (k - 1)).filter (retained loc idx)).map (rankScore scores idx),
         ol ++ (loc.take 4 ++
          ((List.range' 1 (k - 1)).filter (retained loc idx)).flatMap (rankBox loc idx))) := by
  obtain ⟨idx, hidx, hlen, hlt, -, -, -⟩ := rankedIndices_props scores n k hs hk
  refine ⟨idx, hidx, ?_⟩
  have h0 : 0 < idx.length := by omega
  have hbox : ∀ p ∈ idx, p * 4 + 4 ≤ loc.length := fun p hp => by
    have := hlt p hp; omega
  have hsc : ∀ p ∈ idx, p < scores.length := fun p hp => lt_of_lt_of_le (hlt p hp) hs
  have hmem := getD_mem idx 0 h0
  have hs0 : scores[idx.getD 0 0]? = some (rankScore scores idx 0) := by
    rw [List.getElem?_eq_getElem (hsc _ hmem), rankScore,
      List.getD_eq_getElem _ _ (hsc _ hmem)]
  have hc : copy4 loc = some (loc.take 4) := by
    have : 4 ≤ loc.length := by omega
    simp [copy4, this]
  have hloop := nmsLoop_eq scores loc idx hbox hsc (List.range' 1 (k - 1))
    (fun i hi => by have := List.mem_range'_1.1 hi; omega)
    (os ++ [rankScore scores idx 0], ol ++ loc.take 4)
  simp only [SelectTopAndNMS, hidx, getElem?_eq_some_getD idx 0 h0, hs0, hc,
    Option.bind_eq_bind, Option.some_bind, Int.toNat_ofNat, hloop]
  simp [List.append_assoc]

theorem retained_iff (loc : List α) (idx : List Nat) (i : Nat) :
    retained loc idx i = true ↔ ∀ j, j < i →
      ¬ ∃ iou ∈ CalJaccard (loc.drop (idx.getD i 0 * 4)) (loc.drop (idx.getD j 0 * 4)),
        iou > 45 / 100 := by
  unfold retained
  rw [decide_eq_true_iff]
  constructor
  · intro h j hj
    exact h j (List.mem_range.2 hj)
  · intro h j hj
    exact h j (List.mem_range.1 hj)

/-! ## Statements about `SelectTopAndNMS` -/

/-- C1. Under the size preconditions (`scores` of length `anchor_count`,
`localization` of length `4 * anchor_count`, `1 ≤ top_k ≤ anchor_count`) the
call returns, after what `output_scores` already held, exactly the scores of
the ranks `i` in `0 .. top_k-1`, in ranked order, for which `i = 0` or no
earlier rank `j < i` has `CalJaccard(box_i, box_j) > 0.45`; every such
`CalJaccard` is defined.  On the scores `[0.9, 0.8, 0.95]` with boxes
`[0,0,0.1,0.1]`, `[0,0,0.1,0.1]`, `[0.5,0.5,0.6,0.6]` and `top_k = 3` the
returned scores are `[0.95, 0.9]`. -/
theorem SelectTopAndNMS_scores_exact :
    (∀ (α : Type) [LinearOrderedField α] (scores localization : List α)
        (anchor_count top_k : Nat) (output_scores output_localization : List α)
        (nms_threshold : α),
        scores.length = anchor_count → localization.length = 4 * anchor_count →
        1 ≤ top_k → top_k ≤ anchor_count →
        ∃ (indices : List Nat) (boxes : List α),
          rankedIndices scores anchor_count top_k = some indices ∧
          indices.length = top_k ∧
          (∀ i, i < top_k → ∀ j, j < top_k →
            (CalJaccard (localization.drop (indices.getD i 0 * 4))
              (localization.drop (indices.getD j 0 * 4))).isSome = true) ∧
          SelectTopAndNMS scores localization anchor_count output_scores
              output_localization top_k nms_threshold =
            some (output_scores ++
              ((List.range top_k).filter (fun i => decide (i = 0 ∨ ∀ j, j < i →
                  ¬ ∃ iou ∈ CalJaccard (localization.drop (indices.getD i 0 * (4 : Nat)))
                      (localization.drop (indices.getD j 0 * (4 : Nat))),
                    iou > 45 / 100))).map
                (fun i => scores.getD (indices.getD i 0) 0), boxes)) ∧
    (SelectTopAndNMS (0.9 :: 0.8 :: 0.95 :: ([] : List ℚ))
        [0, 0, 0.1, 0.1, 0, 0, 0.1, 0.1, 0.5, 0.5, 0.6, 0.6] 3 [] [] 3 0.45).map Prod.fst
      = some [0.95, 0.9] := by
  refine ⟨?_, by decide!⟩
  intro α _ scores loc n k os ol thr hs hl h1 hk
  obtain ⟨idx, hidx, hlen, hlt, -, -, -⟩ :=
    rankedIndices_props scores n k (le_of_eq hs.symm) hk
  obtain ⟨idx2, hidx2, hval⟩ := SelectTopAndNMS_eq scores loc n k os ol thr
    (le_of_eq hs.symm) (le_of_eq hl.symm) h1 hk
  obtain rfl : idx = idx2 := Option.some.inj (hidx.symm.trans hidx2)
  refine ⟨idx, ol ++ (loc.take 4 ++
    ((List.range' 1 (k - 1)).filter (retained loc idx)).flatMap (rankBox loc idx)),
    hidx, hlen, ?_, ?_⟩
  · intro i hi j hj
    have hbi := hlt _ (getD_mem idx i (by omega))
    have hbj := hlt _ (getD_mem idx j (by omega))
    obtain ⟨v, hv⟩ := CalJaccard_isSome loc (idx.getD i 0) (idx.getD j 0)
      (by omega) (by omega)
    rw [hv]; rfl
  · rw [hval]
    obtain ⟨m, rfl⟩ : ∃ m, k = m + 1 := ⟨k - 1, by omega⟩
    have hr : List.range (m + 1) = 0 :: List.range' 1 m := by
      simp [List.range_eq_range', List.range'_succ]
    have hf : (List.range' 1 m).filter (retained loc idx) =
        (List.range' 1 m).filter (fun i => decide (i = 0 ∨ ∀ j, j < i →
          ¬ ∃ iou ∈ CalJaccard (loc.drop (idx.getD i 0 * (4 : Nat)))
              (loc.drop (idx.getD j 0 * (4 : Nat))), iou > 45 / 100)) := by
      apply List.filter_congr
      intro i hi
      have hi1 : i ≠ 0 := by have := (List.mem_range'_1.1 hi).1; omega
      rw [Bool.eq_iff_iff, retained_iff, decide_eq_true_iff]
      constructor
      · intro h; exact Or.inr h
      · rintro (h | h)
        · exact absurd h hi1
        · exact h
    rw [hr, List.filter_cons_of_pos (by simp), List.map_cons, Nat.add_sub_cancel, hf]
    rfl

/-- C1, at the scenario of the specification: the general statement applied to
the three scores `[0.9, 0.8, 0.95]` and `top_k = 3`. -/
theorem SelectTopAndNMS_scores_exact_witness :
    ∃ (indices : List Nat) (boxes : List ℚ),
      rankedIndices (0.9 :: 0.8 :: 0.95 :: ([] : List ℚ)) ((3 : Nat) : Int) ((3 : Nat) : Int)
        = some indices ∧
      indices.length = 3 ∧
      (∀ i, i < 3 → ∀ j, j < 3 →
        (CalJaccard (List.drop (indices.getD i 0 * 4)
            ([0, 0, 0.1, 0.1, 0, 0, 0.1, 0.1, 0.5, 0.5, 0.6, 0.6] : List ℚ))
          (List.drop (indices.getD j 0 * 4)
            [0, 0, 0.1, 0.1, 0, 0, 0.1, 0.1, 0.5, 0.5, 0.6, 0.6])).isSome = true) ∧
      SelectTopAndNMS (0.9 :: 0.8 :: 0.95 :: ([] : List ℚ))
          [0, 0, 0.1, 0.1, 0, 0, 0.1, 0.1, 0.5, 0.5, 0.6, 0.6] ((3 : Nat) : Int) [] []
          ((3 : Nat) : Int) 0.45 =
        some ([] ++
          ((List.range 3).filter (fun i => decide (i = 0 ∨ ∀ j, j < i →
              ¬ ∃ iou ∈ CalJaccard (List.drop (indices.getD i 0 * (4 : Nat))
                    ([0, 0, 0.1, 0.1, 0, 0, 0.1, 0.1, 0.5, 0.5, 0.6, 0.6] : List ℚ))
                  (List.drop (indices.getD j 0 * (4 : Nat))
                    [0, 0, 0.1, 0.1, 0, 0, 0.1, 0.1, 0.5, 0.5, 0.6, 0.6]),
                iou > 45 / 100))).map
            (fun i => (0.9 :: 0.8 :: 0.95 :: ([] : List ℚ)).getD (indices.getD i 0) 0),
          boxes) :=
  SelectTopAndNMS_scores_exact.1 ℚ (0.9 :: 0.8 :: 0.95 :: [])
    [0, 0, 0.1, 0.1, 0, 0, 0.1, 0.1, 0.5, 0.5, 0.6, 0.6] 3 3 [] [] 0.45
    rfl rfl (by decide) (by decide)

/-- C2 (defect of lines 129-131).  The first box appended is the range
`localization .. localization + 4`, not the box of the top-ranked candidate:
for the scores `[0.1, 0.9]` with boxes `[0,0,1,1]`, `[0,0,0.5,0.5]` and
`top_k = 1` the ranked list is `[1]` and the returned score is `scores[1] = 0.9`,
but the returned box is `[0,0,1,1]` (the box of index 0) while the box of the
candidate with the returned score is `[0,0,0.5,0.5]`. -/
theorem SelectTopAndNMS_first_box_is_not_top_ranked :
    rankedIndices (0.1 :: 0.9 :: ([] : List ℚ)) 2 1 = some [1] ∧
    SelectTopAndNMS (0.1 :: 0.9 :: ([] : List ℚ)) [0, 0, 1, 1, 0, 0, 0.5, 0.5] 2 [] [] 1 0.45
      = some ([0.9], [0, 0, 1, 1]) ∧
    (List.drop (1 * 4) ([0, 0, 1, 1, 0, 0, 0.5, 0.5] : List ℚ)).take 4 = [0, 0, 0.5, 0.5] ∧
    ([0, 0, 1, 1] : List ℚ) ≠ [0, 0, 0.5, 0.5] := by
  decide!

/-- C9. The ranked candidate list built by lines 112-126 is defined for
`top_k ≤ anchor_count`, has `top_k` pairwise distinct entries below
`anchor_count`, any two consecutive entries `p`, `q` satisfy
`score[p] > score[q]` or (`score[p] = score[q]` and `p < q`), every index below
`anchor_count` that is not in the list ranks after every index in it, and it is
the only list with these properties. -/
theorem rankedIndices_sorted_initial_segment (scores : List α) (anchor_count top_k : Nat)
    (hlen : scores.length = anchor_count) (hk : top_k ≤ anchor_count) :
    ∃ indices : List Nat,
      rankedIndices scores anchor_count top_k = some indices ∧
      indices.length = top_k ∧ (∀ p ∈ indices, p < anchor_count) ∧ indices.Nodup ∧
      (∀ i, i + 1 < top_k →
        (scores.getD (indices.getD (i + 1) 0) 0 < scores.getD (indices.getD i 0) 0 ∨
          (scores.getD (indices.getD i 0) 0 = scores.getD (indices.getD (i + 1) 0) 0 ∧
            indices.getD i 0 < indices.getD (i + 1) 0))) ∧
      (∀ p ∈ indices, ∀ q, q < anchor_count → q ∉ indices →
        (scores.getD q 0 < scores.getD p 0 ∨ (scores.getD p 0 = scores.getD q 0 ∧ p < q))) ∧
      (∀ L : List Nat, L.length = top_k → (∀ p ∈ L, p < anchor_count) → L.Nodup →
        (∀ i, i + 1 < top_k →
          (scores.getD (L.getD (i + 1) 0) 0 < scores.getD (L.getD i 0) 0 ∨
            (scores.getD (L.getD i 0) 0 = scores.getD (L.getD (i + 1) 0) 0 ∧
              L.getD i 0 < L.getD (i + 1) 0))) →
        (∀ p ∈ L, ∀ q, q < anchor_count → q ∉ L →
          (scores.getD q 0 < scores.getD p 0 ∨
            (scores.getD p 0 = scores.getD q 0 ∧ p < q))) →
        L = indices) := by
  obtain ⟨idx, hidx, hl, hlt, hnd, hpw, hout⟩ :=
    rankedIndices_props scores anchor_count top_k (le_of_eq hlen.symm) hk
  refine ⟨idx, hidx, hl, hlt, hnd, ?_, ?_, ?_⟩
  · intro i hi
    have h1 : i + 1 < idx.length := by omega
    have h0 : i < idx.length := by omega
    have := List.pairwise_iff_getElem.1 hpw i (i + 1) h0 h1 (Nat.lt_succ_self i)
    rw [scoreCmp_iff] at this
    rw [List.getD_eq_getElem _ _ h1, List.getD_eq_getElem _ _ h0]
    exact this
  · intro p hp q hq hnot
    exact (scoreCmp_iff _ _).1 (hout p hp q hq hnot)
  · intro L hLlen hLlt hLnd hLc hLout
    refine ranked_unique scores anchor_count L idx (hLlen.trans hl.symm) hLlt hlt hLnd hnd
      ?_ hpw ?_ hout
    · apply pairwise_of_consecutive
      intro i hi
      rw [scoreCmp_iff]
      exact hLc i (by omega)
    · intro p hp q hq hnot
      exact (scoreCmp_iff _ _).2 (hLout p hp q hq hnot)

/-- C9, at the three scores `[0.9, 0.8, 0.95]` with `top_k = 2`. -/
theorem rankedIndices_sorted_initial_segment_witness :
    ∃ indices : List Nat,
      rankedIndices (0.9 :: 0.8 :: 0.95 :: ([] : List ℚ)) ((3 : Nat) : Int) ((2 : Nat) : Int)
        = some indices ∧
      indices.length = 2 ∧ (∀ p ∈ indices, p < 3) ∧ indices.Nodup ∧
      (∀ i, i + 1 < 2 →
        ((0.9 :: 0.8 :: 0.95 :: ([] : List ℚ)).getD (indices.getD (i + 1) 0) 0
            < (0.9 :: 0.8 :: 0.95 :: ([] : List ℚ)).getD (indices.getD i 0) 0 ∨
          ((0.9 :: 0.8 :: 0.95 :: ([] : List ℚ)).getD (indices.getD i 0) 0
              = (0.9 :: 0.8 :: 0.95 :: ([] : List ℚ)).getD (indices.getD (i + 1) 0) 0 ∧
            indices.getD i 0 < indices.getD (i + 1) 0))) ∧
      (∀ p ∈ indices, ∀ q, q < 3 → q ∉ indices →
        ((0.9 :: 0.8 :: 0.95 :: ([] : List ℚ)).getD q 0
            < (0.9 :: 0.8 :: 0.95 :: ([] : List ℚ)).getD p 0 ∨
          ((0.9 :: 0.8 :: 0.95 :: ([] : List ℚ)).getD p 0
            = (0.9 :: 0.8 :: 0.95 :: ([] : List ℚ)).getD q 0 ∧ p < q))) ∧
      (∀ L : List Nat, L.length = 2 → (∀ p ∈ L, p < 3) → L.Nodup →
        (∀ i, i + 1 < 2 →
          ((0.9 :: 0.8 :: 0.95 :: ([] : List ℚ)).getD (L.getD (i + 1) 0) 0
              < (0.9 :: 0.8 :: 0.95 :: ([] : List ℚ)).getD (L.getD i 0) 0 ∨
            ((0.9 :: 0.8 :: 0.95 :: ([] : List ℚ)).getD (L.getD i 0) 0
                = (0.9 :: 0.8 :: 0.95 :: ([] : List ℚ)).getD (L.getD (i + 1) 0) 0 ∧
              L.getD i 0 < L.getD (i + 1) 0))) →
        (∀ p ∈ L, ∀ q, q < 3 → q ∉ L →
          ((0.9 :: 0.8 :: 0.95 :: ([] : List ℚ)).getD q 0
              < (0.9 :: 0.8 :: 0.95 :: ([] : List ℚ)).getD p 0 ∨
            ((0.9 :: 0.8 :: 0.95 :: ([] : List ℚ)).getD p 0
              = (0.9 :: 0.8 :: 0.95 :: ([] : List ℚ)).getD q 0 ∧ p < q))) →
        L = indices) :=
  rankedIndices_sorted_initial_segment (0.9 :: 0.8 :: 0.95 :: ([] : List ℚ)) 3 2 rfl (by decide)

/-- C10 (same defect as C2, lines 129-131).  On the scenario of the
specification (scores `[0.9, 0.8, 0.95]`, `top_k = 3`) the ranked list is
`[2, 0, 1]`; the first returned box is `localization[0..3]`, the box of index
0, and the second returned box is again the box of index 0, now as the kept
rank 1: the two returned boxes have `CalJaccard = 1 > 0.45`. -/
theorem SelectTopAndNMS_returned_boxes_overlap :
    rankedIndices (0.9 :: 0.8 :: 0.95 :: ([] : List ℚ)) 3 3 = some [2, 0, 1] ∧
    SelectTopAndNMS (0.9 :: 0.8 :: 0.95 :: ([] : List ℚ))
        [0, 0, 0.1, 0.1, 0, 0, 0.1, 0.1, 0.5, 0.5, 0.6, 0.6] 3 [] [] 3 0.45
      = some ([0.95, 0.9], [0, 0, 0.1, 0.1] ++ [0, 0, 0.1, 0.1]) ∧
    CalJaccard ([0, 0, 0.1, 0.1] : List ℚ) [0, 0, 0.1, 0.1] = some 1 ∧
    (1 : ℚ) > 0.45 := by
  decide!

/-! ## The loops of `Decode` -/

theorem lo_mono (lo : Nat → Nat) (hmono : ∀ i, lo i ≤ lo (i + 1)) (i j : Nat) (hij : i ≤ j) :
    lo i ≤ lo j := by
  induction j with
  | zero => rw [Nat.le_zero.1 hij]
  | succ j ih =>
    rcases Nat.le_succ_iff.1 hij with h | h
    · exact le_trans (ih h) (hmono j)
    · rw [h]

/-- A loop whose `i`-th step rewrites only the block `lo i .. lo (i+1) - 1` of
the buffer, establishing there a property `Q i` that depends on that block
only, rewrites the blocks `0 .. n-1` and leaves the rest of the buffer alone. -/
theorem forLoop_blocks {γ : Type} (body : Nat → List γ → Option (List γ)) (lo : Nat → Nat)
    (N : Nat) (Q : Nat → List γ → List γ → Prop) (hmono : ∀ i, lo i ≤ lo (i + 1))
    (hQ : ∀ i (b b1 d d1 : List γ),
      (∀ p, lo i ≤ p → p < lo (i + 1) → d[p]? = b[p]? ∧ d1[p]? = b1[p]?) →
      Q i b b1 → Q i d d1)
    (hbody : ∀ i, i < N → ∀ b : List γ, lo N ≤ b.length →
      ∃ b1, body i b = some b1 ∧ b1.length = b.length ∧
        (∀ p, (p < lo i ∨ lo (i + 1) ≤ p) → b1[p]? = b[p]?) ∧ Q i b b1)
    (n : Nat) (hn : n ≤ N) (b : List γ) (hb : lo N ≤ b.length) :
    ∃ out, forLoop body n b = some out ∧ out.length = b.length ∧
      (∀ p, (p < lo 0 ∨ lo n ≤ p) → out[p]? = b[p]?) ∧ ∀ i, i < n → Q i b out := by
  induction n with
  | zero =>
    exact ⟨b, rfl, rfl, fun _ _ => rfl, fun i hi => absurd hi (Nat.not_lt_zero i)⟩
  | succ n ih =>
    obtain ⟨mid, hmid, hlen, hframe, hQs⟩ := ih (Nat.le_of_succ_le hn)
    obtain ⟨b1, hb1, hlen1, hframe1, hQ1⟩ := hbody n hn mid (by rw [hlen]; exact hb)
    refine ⟨b1, ?_, hlen1.trans hlen, ?_, ?_⟩
    · simp only [forLoop, hmid, Option.some_bind, hb1]
    · intro p hp
      have h0n : lo 0 ≤ lo n := lo_mono lo hmono 0 n (Nat.zero_le n)
      have hn1 : lo n ≤ lo (n + 1) := hmono n
      rw [hframe1 p (by omega), hframe p (by omega)]
    · intro i hi
      rcases Nat.lt_succ_iff_lt_or_eq.1 hi with h | h
      · refine hQ i b mid b b1 ?_ (hQs i h)
        intro p _ hp2
        have : lo (i + 1) ≤ lo n := lo_mono lo hmono (i + 1) n h
        exact ⟨rfl, hframe1 p (by omega)⟩
      · subst h
        refine hQ i mid b1 b b1 ?_ hQ1
        intro p hp1 _
        exact ⟨(hframe p (Or.inr hp1)).symm, rfl⟩

/-- The property `slotDecoded` reads the two buffers only inside the slot. -/
theorem slotDecoded_local (exp : α → α) (dcy dcx dh dw s0 s1 s2 s3 : α) (o : Nat)
    (b b1 d d1 : List α)
    (h : ∀ p, o ≤ p → p < o + 4 → d[p]? = b[p]? ∧ d1[p]? = b1[p]?)
    (hd : slotDecoded exp dcy dcx dh dw s0 s1 s2 s3 o b b1) :
    slotDecoded exp dcy dcx dh dw s0 s1 s2 s3 o d d1 := by
  obtain ⟨f0, f1, f2, f3, h0, h1, h2, h3, k0, k1, k2, k3⟩ := hd
  refine ⟨f0, f1, f2, f3, ?_, ?_, ?_, ?_, ?_, ?_, ?_, ?_⟩
  · rw [(h o (by omega) (by omega)).1]; exact h0
  · rw [(h (o + 1) (by omega) (by omega)).1]; exact h1
  · rw [(h (o + 2) (by omega) (by omega)).1]; exact h2
  · rw [(h (o + 3) (by omega) (by omega)).1]; exact h3
  · rw [(h o (by omega) (by omega)).2]; exact k0
  · rw [(h (o + 1) (by omega) (by omega)).2]; exact k1
  · rw [(h (o + 2) (by omega) (by omega)).2]; exact k2
  · rw [(h (o + 3) (by omega) (by omega)).2]; exact k3

theorem anchorDims_map {γ : Type} (shapes : List (γ × γ)) (a : Nat) (ha : a < shapes.length) :
    anchorDims (shapes.map (fun d => [d.1, d.2])) a = some shapes[a] := by
  simp [anchorDims, List.getElem?_eq_getElem ha]

/-- One pass of the loop body over `anchor_idx` on a slot inside the buffer. -/
theorem decodeAnchor_step (exp : α → α) (ih iw : Int) (step_scale : α)
    (shapes : List (α × α)) (s0 s1 s2 s3 offset : α) (h w a pos : Nat) (buf : List α)
    (ha : a < shapes.length) (hpos : pos + 4 ≤ buf.length) :
    ∃ b1, decodeAnchor exp [ih, iw] step_scale (shapes.map (fun d => [d.1, d.2]))
        [s0, s1, s2, s3] offset h w a (buf, pos) = some (b1, pos + 4) ∧
      b1.length = buf.length ∧
      (∀ p, (p < pos ∨ pos + 4 ≤ p) → b1[p]? = buf[p]?) ∧
      ∀ dh dw, shapes[a]? = some (dh, dw) →
        slotDecoded exp (((h : α) + offset) * step_scale / (ih : α))
          (((w : α) + offset) * step_scale / (iw : α)) dh dw s0 s1 s2 s3 pos buf b1 := by
  have h0 : pos < buf.length := by omega
  have h1 : pos + 1 < buf.length := by omega
  have h2 : pos + 2 < buf.length := by omega
  have h3 : pos + 3 < buf.length := by omega
  have hc : priorCentre [ih, iw] step_scale offset h w =
      some (((h : α) + offset) * step_scale / (ih : α),
        ((w : α) + offset) * step_scale / (iw : α)) := rfl
  have hb : ∀ dh dw dcy dcx f0 f1 f2 f3 : α,
      decodeBox exp [s0, s1, s2, s3] dh dw dcy dcx f0 f1 f2 f3 =
        some (max 0 (dcy + f0 * dh * s0 - exp (f2 * dh * s2) / 2),
          max 0 (dcx + f1 * dw * s1 - exp (f3 * dw * s3) / 2),
          min 1 (dcy + f0 * dh * s0 + exp (f2 * dh * s2) / 2),
          min 1 (dcx + f1 * dw * s1 + exp (f3 * dw * s3) / 2)) := fun _ _ _ _ _ _ _ _ => rfl
  simp only [decodeAnchor, anchorDims_map shapes a ha, hc, hb, List.getElem?_eq_getElem h0,
    List.getElem?_eq_getElem h1, List.getElem?_eq_getElem h2, List.getElem?_eq_getElem h3,
    Option.bind_eq_bind, Option.some_bind, Option.pure_def]
  refine ⟨_, rfl, by simp, ?_, ?_⟩
  · intro p hp
    rw [List.getElem?_set_ne (by omega), List.getElem?_set_ne (by omega),
      List.getElem?_set_ne (by omega), List.getElem?_set_ne (by omega)]
  · intro dh dw hsh
    rw [List.getElem?_eq_getElem ha] at hsh
    have hd : shapes[a] = (dh, dw) := Option.some.inj hsh
    refine ⟨buf[pos], buf[pos + 1], buf[pos + 2], buf[pos + 3], List.getElem?_eq_getElem h0,
      List.getElem?_eq_getElem h1, List.getElem?_eq_getElem h2, List.getElem?_eq_getElem h3,
      ?_, ?_, ?_, ?_⟩
    · rw [List.getElem?_set_ne (by omega), List.getElem?_set_ne (by omega),
        List.getElem?_set_ne (by omega), List.getElem?_set_self (by simpa using h0), hd]
    · rw [List.getElem?_set_ne (by omega), List.getElem?_set_ne (by omega),
        List.getElem?_set_self (by simpa using h1), hd]
    · rw [List.getElem?_set_ne (by omega), List.getElem?_set_self (by simpa using h2), hd]
    · rw [List.getElem?_set_self (by simpa using h3), hd]

/-- The loop body over `anchor_idx` advances `feature_data` by four floats. -/
theorem decodeAnchor_snd (exp : α → α) (img_shape : List Int) (step_scale : α)
    (anchor_shapes : List (List α)) (prior_scaling : List α) (offset : α)
    (h w a : Nat) (st r : List α × Nat)
    (hr : decodeAnchor exp img_shape step_scale anchor_shapes prior_scaling offset h w a st
      = some r) : r.2 = st.2 + 4 := by
  simp only [decodeAnchor, Option.bind_eq_bind, Option.bind_eq_some, Option.pure_def,
    Option.some.injEq] at hr
  obtain ⟨_, _, _, _, _, _, _, _, _, _, _, _, _, _, rfl⟩ := hr
  rfl

/-- The loop over `anchor_idx`, seen as a loop on the buffer alone. -/
theorem forLoop_decodeAnchor (exp : α → α) (img_shape : List Int) (step_scale : α)
    (anchor_shapes : List (List α)) (prior_scaling : List α) (offset : α)
    (h w base : Nat) (buf : List α) (n : Nat) :
    forLoop (decodeAnchor exp img_shape step_scale anchor_shapes prior_scaling offset h w)
        n (buf, base) =
      (forLoop (fun a b => (decodeAnchor exp img_shape step_scale anchor_shapes prior_scaling
          offset h w a (b, base + a * 4)).map Prod.fst) n buf).map
        (fun b => (b, base + n * 4)) := by
  induction n with
  | zero => simp [forLoop]
  | succ n ih =>
    simp only [forLoop, ih]
    cases hloop : forLoop (fun a b => (decodeAnchor exp img_shape step_scale anchor_shapes
        prior_scaling offset h w a (b, base + a * 4)).map Prod.fst) n buf with
    | none => rfl
    | some mid =>
      simp only [Option.map_some', Option.some_bind]
      cases hstep : decodeAnchor exp img_shape step_scale anchor_shapes prior_scaling
          offset h w n (mid, base + n * 4) with
      | none => rfl
      | some r =>
        have := decodeAnchor_snd exp img_shape step_scale anchor_shapes prior_scaling
          offset h w n _ r hstep
        simp only [Option.map_some']
        congr 1
        apply Prod.ext
        · rfl
        · simp only [this]; ring

/-- The body of the loop over `w` decodes the slots of cell `(h, w)`. -/
theorem decodeCell_spec (exp : α → α) (H W : Nat) (ih iw : Int) (step_scale : α)
    (shapes : List (α × α)) (s0 s1 s2 s3 offset : α) (h w : Nat) (buf : List α)
    (hbuf : (h * W + w) * shapes.length * 4 + shapes.length * 4 ≤ buf.length) :
    ∃ b1, decodeCell exp [(H : Int), (W : Int)] [ih, iw] step_scale
        (shapes.map (fun d => [d.1, d.2])) [s0, s1, s2, s3] offset h w buf = some b1 ∧
      b1.length = buf.length ∧
      (∀ p, (p < (h * W + w) * shapes.length * 4 ∨
          (h * W + w) * shapes.length * 4 + shapes.length * 4 ≤ p) → b1[p]? = buf[p]?) ∧
      ∀ a, a < shapes.length → ∀ dh dw, shapes[a]? = some (dh, dw) →
        slotDecoded exp (((h : α) + offset) * step_scale / (ih : α))
          (((w : α) + offset) * step_scale / (iw : α)) dh dw s0 s1 s2 s3
          ((h * W + w) * shapes.length * 4 + a * 4) buf b1 := by
  obtain ⟨out, hout, hlen, hframe, hQ⟩ := forLoop_blocks
    (fun a b => (decodeAnchor exp [ih, iw] step_scale (shapes.map (fun d => [d.1, d.2]))
      [s0, s1, s2, s3] offset h w a (b, (h * W + w) * shapes.length * 4 + a * 4)).map Prod.fst)
    (fun a => (h * W + w) * shapes.length * 4 + a * 4) shapes.length
    (fun a b b1 => ∀ dh dw, shapes[a]? = some (dh, dw) →
      slotDecoded exp (((h : α) + offset) * step_scale / (ih : α))
        (((w : α) + offset) * step_scale / (iw : α)) dh dw s0 s1 s2 s3
        ((h * W + w) * shapes.length * 4 + a * 4) b b1)
    (fun a => by dsimp only; omega)
    (fun a b b1 d d1 hloc hq dh dw hsh =>
      slotDecoded_local exp _ _ dh dw s0 s1 s2 s3 _ b b1 d d1
        (fun p hp1 hp2 => hloc p hp1 (by dsimp only; omega)) (hq dh dw hsh))
    (fun a ha b hb => by
      dsimp only at hb ⊢
      obtain ⟨b1, hb1, hl1, hf1, hq1⟩ := decodeAnchor_step exp ih iw step_scale shapes
        s0 s1 s2 s3 offset h w a ((h * W + w) * shapes.length * 4 + a * 4) b ha (by omega)
      refine ⟨b1, by rw [hb1]; rfl, hl1, ?_, hq1⟩
      intro p hp
      exact hf1 p (by omega))
    shapes.length (le_refl _) buf hbuf
  refine ⟨out, ?_, hlen, ?_, hQ⟩
  · simp only [decodeCell, List.length_map, Option.bind_eq_bind, Option.pure_def]
    have hW : ([(H : Int), (W : Int)] : List Int)[1]? = some (W : Int) := rfl
    rw [hW, Option.some_bind, Int.toNat_ofNat, forLoop_decodeAnchor, hout]
    rfl
  · intro p hp
    exact hframe p (by omega)

/-- The body of the loop over `h` decodes the slots of row `h`. -/
theorem decodeRow_spec (exp : α → α) (H W : Nat) (ih iw : Int) (step_scale : α)
    (shapes : List (α × α)) (s0 s1 s2 s3 offset : α) (h : Nat) (buf : List α)
    (hbuf : (h * W + W) * shapes.length * 4 ≤ buf.length) :
    ∃ b1, decodeRow exp [(H : Int), (W : Int)] [ih, iw] step_scale
        (shapes.map (fun d => [d.1, d.2])) [s0, s1, s2, s3] offset h buf = some b1 ∧
      b1.length = buf.length ∧
      (∀ p, (p < h * W * shapes.length * 4 ∨ (h * W + W) * shapes.length * 4 ≤ p) →
        b1[p]? = buf[p]?) ∧
      ∀ w, w < W → ∀ a, a < shapes.length → ∀ dh dw, shapes[a]? = some (dh, dw) →
        slotDecoded exp (((h : α) + offset) * step_scale / (ih : α))
          (((w : α) + offset) * step_scale / (iw : α)) dh dw s0 s1 s2 s3
          ((h * W + w) * shapes.length * 4 + a * 4) buf b1 := by
  have hstep : ∀ w, (h * W + (w + 1)) * shapes.length * 4 =
      (h * W + w) * shapes.length * 4 + shapes.length * 4 := fun w => by ring
  obtain ⟨out, hout, hlen, hframe, hQ⟩ := forLoop_blocks
    (decodeCell exp [(H : Int), (W : Int)] [ih, iw] step_scale
      (shapes.map (fun d => [d.1, d.2])) [s0, s1, s2, s3] offset h)
    (fun w => (h * W + w) * shapes.length * 4) W
    (fun w b b1 => ∀ a, a < shapes.length → ∀ dh dw, shapes[a]? = some (dh, dw) →
      slotDecoded exp (((h : α) + offset) * step_scale / (ih : α))
        (((w : α) + offset) * step_scale / (iw : α)) dh dw s0 s1 s2 s3
        ((h * W + w) * shapes.length * 4 + a * 4) b b1)
    (fun w => by dsimp only; rw [hstep]; omega)
    (fun w b b1 d d1 hloc hq a ha dh dw hsh =>
      slotDecoded_local exp _ _ dh dw s0 s1 s2 s3 _ b b1 d d1
        (fun p hp1 hp2 => hloc p (by dsimp only; omega) (by dsimp only; rw [hstep]; omega))
        (hq a ha dh dw hsh))
    (fun w hw b hb => by
      dsimp only at hb ⊢
      have hle : (h * W + (w + 1)) * shapes.length * 4 ≤ (h * W + W) * shapes.length * 4 :=
        Nat.mul_le_mul_right 4 (Nat.mul_le_mul_right _ (by omega))
      rw [hstep] at hle
      obtain ⟨b1, hb1, hl1, hf1, hq1⟩ := decodeCell_spec exp H W ih iw step_scale shapes
        s0 s1 s2 s3 offset h w b (by omega)
      refine ⟨b1, hb1, hl1, ?_, hq1⟩
      intro p hp
      rw [hstep] at hp
      exact hf1 p hp)
    W (le_refl _) buf hbuf
  refine ⟨out, ?_, hlen, ?_, hQ⟩
  · simp only [decodeRow, Option.bind_eq_bind]
    have hW : ([(H : Int), (W : Int)] : List Int)[1]? = some (W : Int) := rfl
    rw [hW, Option.some_bind, Int.toNat_ofNat, hout]
  · intro p hp
    exact hframe p (by simpa using hp)

/-- The value of `Decode` on a buffer that holds the `H * W * A` slots: every
slot is decoded and the floats behind the last slot are left alone. -/
theorem Decode_spec (exp : α → α) (H W : Nat) (ih iw step : Int)
    (shapes : List (α × α)) (s0 s1 s2 s3 offset : α) (buf : List α)
    (hbuf : H * W * shapes.length * 4 ≤ buf.length) :
    ∃ out, Decode exp buf [(H : Int), (W : Int)] [ih, iw] step
        (shapes.map (fun d => [d.1, d.2])) [s0, s1, s2, s3] offset = some out ∧
      out.length = buf.length ∧
      (∀ p, H * W * shapes.length * 4 ≤ p → out[p]? = buf[p]?) ∧
      ∀ h, h < H → ∀ w, w < W → ∀ a, a < shapes.length →
        ∀ dh dw, shapes[a]? = some (dh, dw) →
        slotDecoded exp
          (((h : α) + offset) * (if step = 0 then (ih : α) / (H : α) else (step : α))
            / (ih : α))
          (((w : α) + offset) * (if step = 0 then (ih : α) / (H : α) else (step : α))
            / (iw : α))
          dh dw s0 s1 s2 s3 ((h * W + w) * shapes.length * 4 + a * 4) buf out := by
  have hstep : ∀ h, (h + 1) * W * shapes.length * 4 = (h * W + W) * shapes.length * 4 :=
    fun h => by ring
  obtain ⟨out, hout, hlen, hframe, hQ⟩ := forLoop_blocks
    (decodeRow exp [(H : Int), (W : Int)] [ih, iw]
      (if step = 0 then (ih : α) / (H : α) else (step : α))
      (shapes.map (fun d => [d.1, d.2])) [s0, s1, s2, s3] offset)
    (fun h => h * W * shapes.length * 4) H
    (fun h b b1 => ∀ w, w < W → ∀ a, a < shapes.length →
      ∀ dh dw, shapes[a]? = some (dh, dw) →
      slotDecoded exp
        (((h : α) + offset) * (if step = 0 then (ih : α) / (H : α) else (step : α))
          / (ih : α))
        (((w : α) + offset) * (if step = 0 then (ih : α) / (H : α) else (step : α))
          / (iw : α))
        dh dw s0 s1 s2 s3 ((h * W + w) * shapes.length * 4 + a * 4) b b1)
    (fun h => by
      dsimp only
      exact Nat.mul_le_mul_right 4 (Nat.mul_le_mul_right _ (Nat.mul_le_mul_right _ (by omega))))
    (fun h b b1 d d1 hloc hq w hw a ha dh dw hsh => by
      dsimp only at hloc
      have e1 : (h * W + w) * shapes.length * 4 =
          h * W * shapes.length * 4 + w * shapes.length * 4 := by ring
      have e2 : (w + 1) * shapes.length * 4 ≤ W * shapes.length * 4 :=
        Nat.mul_le_mul_right 4 (Nat.mul_le_mul_right _ (by omega))
      have e3 : (w + 1) * shapes.length * 4 = w * shapes.length * 4 + shapes.length * 4 := by
        ring
      have e4 : (h + 1) * W * shapes.length * 4 =
          h * W * shapes.length * 4 + W * shapes.length * 4 := by ring
      exact slotDecoded_local exp _ _ dh dw s0 s1 s2 s3 _ b b1 d d1
        (fun p hp1 hp2 => hloc p (by omega) (by omega)) (hq w hw a ha dh dw hsh))
    (fun h hh b hb => by
      dsimp only at hb ⊢
      have hle : (h + 1) * W * shapes.length * 4 ≤ H * W * shapes.length * 4 :=
        Nat.mul_le_mul_right 4 (Nat.mul_le_mul_right _ (Nat.mul_le_mul_right _ (by omega)))
      rw [hstep] at hle
      obtain ⟨b1, hb1, hl1, hf1, hq1⟩ := decodeRow_spec exp H W ih iw
        (if step = 0 then (ih : α) / (H : α) else (step : α)) shapes
        s0 s1 s2 s3 offset h b (by omega)
      refine ⟨b1, hb1, hl1, ?_, hq1⟩
      intro p hp
      rw [hstep] at hp
      exact hf1 p hp)
    H (le_refl _) buf hbuf
  refine ⟨out, ?_, hlen, ?_, hQ⟩
  · have h0 : ([(H : Int), (W : Int)] : List Int)[0]? = some (H : Int) := rfl
    have i0 : ([ih, iw] : List Int)[0]? = some ih := rfl
    simp only [Decode, h0, i0, Option.bind_eq_bind, Option.some_bind, Int.toNat_ofNat,
      Option.pure_def]
    by_cases hs : step = 0
    · simp only [hs, if_true, Option.some_bind, one_mul, Int.cast_natCast]
      simpa [hs] using hout
    · simp only [hs, if_false, Option.some_bind]
      simpa [hs] using hout
  · intro p hp
    exact hframe p (Or.inr hp)

/-- The value of `Decode`, slot by slot, at the offsets `((h*W + w)*A + a)*4`. -/
theorem Decode_slots (exp : α → α) (H W : Nat) (ih iw step : Int)
    (shapes : List (α × α)) (s0 s1 s2 s3 offset : α) (buf : List α)
    (hbuf : H * W * shapes.length * 4 ≤ buf.length) :
    ∃ out, Decode exp buf [(H : Int), (W : Int)] [ih, iw] step
        (shapes.map (fun d => [d.1, d.2])) [s0, s1, s2, s3] offset = some out ∧
      out.length = buf.length ∧
      (∀ p, H * W * shapes.length * 4 ≤ p → out[p]? = buf[p]?) ∧
      ∀ h w a, h < H → w < W → a < shapes.length →
        ∃ dh dw r0 r1 r2 r3 : α, shapes[a]? = some (dh, dw) ∧
          buf[((h * W + w) * shapes.length + a) * 4]? = some r0 ∧
          buf[((h * W + w) * shapes.length + a) * 4 + 1]? = some r1 ∧
          buf[((h * W + w) * shapes.length + a) * 4 + 2]? = some r2 ∧
          buf[((h * W + w) * shapes.length + a) * 4 + 3]? = some r3 ∧
          out[((h * W + w) * shapes.length + a) * 4]? = some (max 0
            (((h : α) + offset) * (if step = 0 then (ih : α) / (H : α) else (step : α))
              / (ih : α) + r0 * dh * s0 - exp (r2 * dh * s2) / 2)) ∧
          out[((h * W + w) * shapes.length + a) * 4 + 1]? = some (max 0
            (((w : α) + offset) * (if step = 0 then (ih : α) / (H : α) else (step : α))
              / (iw : α) + r1 * dw * s1 - exp (r3 * dw * s3) / 2)) ∧
          out[((h * W + w) * shapes.length + a) * 4 + 2]? = some (min 1
            (((h : α) + offset) * (if step = 0 then (ih : α) / (H : α) else (step : α))
              / (ih : α) + r0 * dh * s0 + exp (r2 * dh * s2) / 2)) ∧
          out[((h * W + w) * shapes.length + a) * 4 + 3]? = some (min 1
            (((w : α) + offset) * (if step = 0 then (ih : α) / (H : α) else (step : α))
              / (iw : α) + r1 * dw * s1 + exp (r3 * dw * s3) / 2)) := by
  obtain ⟨out, hout, hlen, hframe, hslot⟩ :=
    Decode_spec exp H W ih iw step shapes s0 s1 s2 s3 offset buf hbuf
  refine ⟨out, hout, hlen, hframe, ?_⟩
  intro h w a hh hw ha
  have ho : ((h * W + w) * shapes.length + a) * 4 =
      (h * W + w) * shapes.length * 4 + a * 4 := by ring
  obtain ⟨f0, f1, f2, f3, h0, h1, h2, h3, k0, k1, k2, k3⟩ :=
    hslot h hh w hw a ha shapes[a].1 shapes[a].2 (List.getElem?_eq_getElem ha)
  rw [ho]
  exact ⟨shapes[a].1, shapes[a].2, f0, f1, f2, f3, List.getElem?_eq_getElem ha,
    h0, h1, h2, h3, k0, k1, k2, k3⟩

/-! ## Statements about `Decode` -/

/-- C3. On a buffer that holds the `H * W * A` slots, `Decode` returns a buffer
of the same length in which, for every cell `(h, w)` and anchor `a`, the four
values at offset `((h*W + w)*A + a)*4` are
`(max 0 (g_cy - g_h/2), max 0 (g_cx - g_w/2), min 1 (g_cy + g_h/2), min 1 (g_cx + g_w/2))`
computed by the stated formulas from the four values `r0 .. r3` at the same
offset before the call and the anchor shape `(dh, dw)`; every float behind the
last slot is unchanged. -/
theorem Decode_rewrites_every_slot (exp : α → α) (H W : Nat)
    (image_height image_width step : Int) (shapes : List (α × α))
    (s0 s1 s2 s3 offset : α) (buf : List α)
    (hbuf : H * W * shapes.length * 4 ≤ buf.length) :
    ∃ out, Decode exp buf [(H : Int), (W : Int)] [image_height, image_width] step
        (shapes.map (fun d => [d.1, d.2])) [s0, s1, s2, s3] offset = some out ∧
      out.length = buf.length ∧
      (∀ p, H * W * shapes.length * 4 ≤ p → out[p]? = buf[p]?) ∧
      ∀ h w a, h < H → w < W → a < shapes.length →
        ∃ dh dw r0 r1 r2 r3 : α, shapes[a]? = some (dh, dw) ∧
          buf[((h * W + w) * shapes.length + a) * 4]? = some r0 ∧
          buf[((h * W + w) * shapes.length + a) * 4 + 1]? = some r1 ∧
          buf[((h * W + w) * shapes.length + a) * 4 + 2]? = some r2 ∧
          buf[((h * W + w) * shapes.length + a) * 4 + 3]? = some r3 ∧
          ∀ step_scale center_y_prior center_x_prior g_cy g_cx g_h g_w : α,
            step_scale = (if step = 0 then (image_height : α) / (H : α) else (step : α)) →
            center_y_prior = ((h : α) + offset) * step_scale / (image_height : α) →
            center_x_prior = ((w : α) + offset) * step_scale / (image_width : α) →
            g_cy = center_y_prior + r0 * dh * s0 →
            g_cx = center_x_prior + r1 * dw * s1 →
            g_h = exp (r2 * dh * s2) →
            g_w = exp (r3 * dw * s3) →
            out[((h * W + w) * shapes.length + a) * 4]? = some (max 0 (g_cy - g_h / 2)) ∧
            out[((h * W + w) * shapes.length + a) * 4 + 1]? = some (max 0 (g_cx - g_w / 2)) ∧
            out[((h * W + w) * shapes.length + a) * 4 + 2]? = some (min 1 (g_cy + g_h / 2)) ∧
            out[((h * W + w) * shapes.length + a) * 4 + 3]? = some (min 1 (g_cx + g_w / 2)) := by
  obtain ⟨out, hout, hlen, hframe, hslot⟩ :=
    Decode_slots exp H W image_height image_width step shapes s0 s1 s2 s3 offset buf hbuf
  refine ⟨out, hout, hlen, hframe, ?_⟩
  intro h w a hh hw ha
  obtain ⟨dh, dw, r0, r1, r2, r3, hsh, h0, h1, h2, h3, k0, k1, k2, k3⟩ := hslot h w a hh hw ha
  refine ⟨dh, dw, r0, r1, r2, r3, hsh, h0, h1, h2, h3, ?_⟩
  intro ss cyp cxp gcy gcx gh gw hss hcy hcx hgcy hgcx hgh hgw
  subst hss hcy hcx hgcy hgcx hgh hgw
  exact ⟨k0, k1, k2, k3⟩

/-- C3, at one cell with one anchor: the buffer `[10, 0, 0, 0]`, feature shape
`1 x 1`, image `1 x 1`, `step = 0`, anchor shape `(1, 1)`, scaling
`[1, 1, 1, 1]`, offset `1/2` and the real exponential. -/
theorem Decode_rewrites_every_slot_witness :
    ∃ out, Decode Real.exp ([10, 0, 0, 0] : List ℝ) [((1 : Nat) : Int), ((1 : Nat) : Int)]
        [1, 1] 0 (([(1, 1)] : List (ℝ × ℝ)).map (fun d => [d.1, d.2])) [1, 1, 1, 1] (1 / 2)
        = some out ∧
      out.length = ([10, 0, 0, 0] : List ℝ).length ∧
      (∀ p, 1 * 1 * ([(1, 1)] : List (ℝ × ℝ)).length * 4 ≤ p →
        out[p]? = ([10, 0, 0, 0] : List ℝ)[p]?) ∧
      ∀ h w a, h < 1 → w < 1 → a < ([(1, 1)] : List (ℝ × ℝ)).length →
        ∃ dh dw r0 r1 r2 r3 : ℝ, ([(1, 1)] : List (ℝ × ℝ))[a]? = some (dh, dw) ∧
          ([10, 0, 0, 0] : List ℝ)[((h * 1 + w) * ([(1, 1)] : List (ℝ × ℝ)).length + a) * 4]?
            = some r0 ∧
          ([10, 0, 0, 0] : List ℝ)[((h * 1 + w) * ([(1, 1)] : List (ℝ × ℝ)).length + a) * 4 + 1]?
            = some r1 ∧
          ([10, 0, 0, 0] : List ℝ)[((h * 1 + w) * ([(1, 1)] : List (ℝ × ℝ)).length + a) * 4 + 2]?
            = some r2 ∧
          ([10, 0, 0, 0] : List ℝ)[((h * 1 + w) * ([(1, 1)] : List (ℝ × ℝ)).length + a) * 4 + 3]?
            = some r3 ∧
          ∀ step_scale center_y_prior center_x_prior g_cy g_cx g_h g_w : ℝ,
            step_scale = (if (0 : Int) = 0 then ((1 : Int) : ℝ) / ((1 : Nat) : ℝ)
              else ((0 : Int) : ℝ)) →
            center_y_prior = ((h : ℝ) + 1 / 2) * step_scale / ((1 : Int) : ℝ) →
            center_x_prior = ((w : ℝ) + 1 / 2) * step_scale / ((1 : Int) : ℝ) →
            g_cy = center_y_prior + r0 * dh * 1 →
            g_cx = center_x_prior + r1 * dw * 1 →
            g_h = Real.exp (r2 * dh * 1) →
            g_w = Real.exp (r3 * dw * 1) →
            out[((h * 1 + w) * ([(1, 1)] : List (ℝ × ℝ)).length + a) * 4]?
              = some (max 0 (g_cy - g_h / 2)) ∧
            out[((h * 1 + w) * ([(1, 1)] : List (ℝ × ℝ)).length + a) * 4 + 1]?
              = some (max 0 (g_cx - g_w / 2)) ∧
            out[((h * 1 + w) * ([(1, 1)] : List (ℝ × ℝ)).length + a) * 4 + 2]?
              = some (min 1 (g_cy + g_h / 2)) ∧
            out[((h * 1 + w) * ([(1, 1)] : List (ℝ × ℝ)).length + a) * 4 + 3]?
              = some (min 1 (g_cx + g_w / 2)) :=
  Decode_rewrites_every_slot Real.exp 1 1 1 1 0 [(1, 1)] 1 1 1 1 (1 / 2) [10, 0, 0, 0]
    (by decide)

/-- C6, as amended.  Over the real numbers (exact arithmetic, the real
exponential and logarithm, non-zero image dimensions) `Decode` inverts the
encoding: if the slot of cell `(h, w)` and anchor `a` (shape `(dh, dw)`, with
`dh`, `dw` and the four scale factors non-zero) holds the encoding
`r0 = (cy - center_y_prior)/(dh*s0)`, `r1 = (cx - center_x_prior)/(dw*s1)`,
`r2 = ln(ymax - ymin)/(dh*s2)`, `r3 = ln(xmax - xmin)/(dw*s3)` of a box with
`0 ≤ ymin < ymax ≤ 1` and `0 ≤ xmin < xmax ≤ 1` (`cy`, `cx` its centre), then
`Decode` writes back exactly `(ymin, xmin, ymax, xmax)`, for every offset and
step.  In binary32 the values written are rounded and can differ from the
box. -/
theorem Decode_inverts_encoding (H W : Nat)
    (image_height image_width step : Int) (shapes : List (ℝ × ℝ))
    (s0 s1 s2 s3 offset : ℝ) (buf : List ℝ)
    (_himage_height : image_height ≠ 0) (_himage_width : image_width ≠ 0)
    (hbuf : H * W * shapes.length * 4 ≤ buf.length)
    (h w a : Nat) (hh : h < H) (hw : w < W) (ha : a < shapes.length)
    (dh dw : ℝ) (hsh : shapes[a]? = some (dh, dw))
    (hdh : dh ≠ 0) (hdw : dw ≠ 0)
    (hs0 : s0 ≠ 0) (hs1 : s1 ≠ 0) (hs2 : s2 ≠ 0) (hs3 : s3 ≠ 0)
    (ymin xmin ymax xmax : ℝ)
    (hy0 : 0 ≤ ymin) (hx0 : 0 ≤ xmin) (hy1 : ymax ≤ 1) (hx1 : xmax ≤ 1)
    (hy : ymin < ymax) (hx : xmin < xmax)
    (step_scale center_y_prior center_x_prior : ℝ)
    (hss : step_scale = (if step = 0 then (image_height : ℝ) / (H : ℝ) else (step : ℝ)))
    (hcy : center_y_prior = ((h : ℝ) + offset) * step_scale / (image_height : ℝ))
    (hcx : center_x_prior = ((w : ℝ) + offset) * step_scale / (image_width : ℝ))
    (hr0 : buf[((h * W + w) * shapes.length + a) * 4]? =
      some (((ymin + ymax) / 2 - center_y_prior) / (dh * s0)))
    (hr1 : buf[((h * W + w) * shapes.length + a) * 4 + 1]? =
      some (((xmin + xmax) / 2 - center_x_prior) / (dw * s1)))
    (hr2 : buf[((h * W + w) * shapes.length + a) * 4 + 2]? =
      some (Real.log (ymax - ymin) / (dh * s2)))
    (hr3 : buf[((h * W + w) * shapes.length + a) * 4 + 3]? =
      some (Real.log (xmax - xmin) / (dw * s3))) :
    ∃ out, Decode Real.exp buf [(H : Int), (W : Int)] [image_height, image_width] step
        (shapes.map (fun d => [d.1, d.2])) [s0, s1, s2, s3] offset = some out ∧
      out[((h * W + w) * shapes.length + a) * 4]? = some ymin ∧
      out[((h * W + w) * shapes.length + a) * 4 + 1]? = some xmin ∧
      out[((h * W + w) * shapes.length + a) * 4 + 2]? = some ymax ∧
      out[((h * W + w) * shapes.length + a) * 4 + 3]? = some xmax := by
  obtain ⟨out, hout, -, -, hslot⟩ :=
    Decode_slots Real.exp H W image_height image_width step shapes s0 s1 s2 s3 offset buf hbuf
  obtain ⟨dh2, dw2, r0, r1, r2, r3, hsh2, h0, h1, h2, h3, k0, k1, k2, k3⟩ :=
    hslot h w a hh hw ha
  obtain ⟨rfl, rfl⟩ : dh2 = dh ∧ dw2 = dw := by
    have := Option.some.inj (hsh2.symm.trans hsh)
    exact ⟨congrArg Prod.fst this, congrArg Prod.snd this⟩
  have e0 : r0 = ((ymin + ymax) / 2 - center_y_prior) / (dh2 * s0) :=
    Option.some.inj (h0.symm.trans hr0)
  have e1 : r1 = ((xmin + xmax) / 2 - center_x_prior) / (dw2 * s1) :=
    Option.some.inj (h1.symm.trans hr1)
  have e2 : r2 = Real.log (ymax - ymin) / (dh2 * s2) := Option.some.inj (h2.symm.trans hr2)
  have e3 : r3 = Real.log (xmax - xmin) / (dw2 * s3) := Option.some.inj (h3.symm.trans hr3)
  have c0 : r0 * dh2 * s0 = (ymin + ymax) / 2 - center_y_prior := by
    rw [e0]; field_simp; ring
  have c1 : r1 * dw2 * s1 = (xmin + xmax) / 2 - center_x_prior := by
    rw [e1]; field_simp; ring
  have c2 : Real.exp (r2 * dh2 * s2) = ymax - ymin := by
    have : r2 * dh2 * s2 = Real.log (ymax - ymin) := by rw [e2]; field_simp; ring
    rw [this, Real.exp_log (by linarith)]
  have c3 : Real.exp (r3 * dw2 * s3) = xmax - xmin := by
    have : r3 * dw2 * s3 = Real.log (xmax - xmin) := by rw [e3]; field_simp; ring
    rw [this, Real.exp_log (by linarith)]
  rw [← hss, ← hcy, c0, c2] at k0 k2
  rw [← hss, ← hcx, c1, c3] at k1 k3
  refine ⟨out, hout, ?_, ?_, ?_, ?_⟩
  · rw [k0, max_eq_right (by linarith)]; congr 1; ring
  · rw [k1, max_eq_right (by linarith)]; congr 1; ring
  · rw [k2, min_eq_right (by linarith)]; congr 1; ring
  · rw [k3, min_eq_right (by linarith)]; congr 1; ring

/-- C6 as amended, at the box `(1/4, 1/4, 3/4, 3/4)` encoded against the anchor `(1, 1)`
of the single cell of a `1 x 1` feature map (image `1 x 1`, scaling
`[1, 1, 1, 1]`, offset `1/2`, `step = 0`). -/
theorem Decode_inverts_encoding_witness :
    ∃ out, Decode Real.exp ([0, 0, Real.log (1 / 2), Real.log (1 / 2)] : List ℝ)
        [((1 : Nat) : Int), ((1 : Nat) : Int)] [1, 1] 0
        (([(1, 1)] : List (ℝ × ℝ)).map (fun d => [d.1, d.2])) [1, 1, 1, 1] (1 / 2)
        = some out ∧
      out[((0 * 1 + 0) * ([(1, 1)] : List (ℝ × ℝ)).length + 0) * 4]? = some (1 / 4) ∧
      out[((0 * 1 + 0) * ([(1, 1)] : List (ℝ × ℝ)).length + 0) * 4 + 1]? = some (1 / 4) ∧
      out[((0 * 1 + 0) * ([(1, 1)] : List (ℝ × ℝ)).length + 0) * 4 + 2]? = some (3 / 4) ∧
      out[((0 * 1 + 0) * ([(1, 1)] : List (ℝ × ℝ)).length + 0) * 4 + 3]? = some (3 / 4) :=
  Decode_inverts_encoding 1 1 1 1 0 [(1, 1)] 1 1 1 1 (1 / 2)
    [0, 0, Real.log (1 / 2), Real.log (1 / 2)] one_ne_zero one_ne_zero (by decide) 0 0 0 (by decide) (by decide)
    (by decide) 1 1 rfl one_ne_zero one_ne_zero one_ne_zero one_ne_zero one_ne_zero
    one_ne_zero (1 / 4) (1 / 4) (3 / 4) (3 / 4) (by norm_num) (by norm_num) (by norm_num)
    (by norm_num) (by norm_num) (by norm_num) 1 (1 / 2) (1 / 2) (by norm_num) (by norm_num)
    (by norm_num) (by norm_num) (by norm_num) (by norm_num) (by norm_num)

/-! ## Statements about `GetAnchorsShape` -/

theorem foldl_push {γ δ : Type} (f : δ → γ) (l : List δ) (init : List γ) :
    l.foldl (fun acc x => acc ++ [f x]) init = init ++ l.map f := by
  induction l generalizing init with
  | nil => simp
  | cons x l ih => simp [ih]

/-- The list `GetAnchorsShape` returns, entry by entry. -/
theorem GetAnchorsShape_eq (sqrt : α → α) (img_height img_width min_size max_size : Int)
    (anchor_ratios : List α) (anchor_shapes : List (List α)) :
    GetAnchorsShape sqrt img_height img_width min_size max_size anchor_ratios anchor_shapes =
      anchor_shapes ++
        ([[(min_size : α) / (img_height : α), (min_size : α) / (img_width : α)]] ++
          ((if max_size > min_size then
              [[sqrt ((min_size : α) * (max_size : α)) / (img_height : α),
                sqrt ((min_size : α) * (max_size : α)) / (img_width : α)]]
            else []) ++
            anchor_ratios.map (fun r =>
              [(min_size : α) / (img_height : α) / sqrt r,
               (min_size : α) / (img_width : α) * sqrt r]))) := by
  unfold GetAnchorsShape
  simp only [one_mul]
  rw [foldl_push (fun r => [(min_size : α) / (img_height : α) / sqrt r,
    (min_size : α) / (img_width : α) * sqrt r])]
  split <;> simp [List.append_assoc]

/-- C7. `GetAnchorsShape` appends, after what the output list already held and
in this order: `(min_size/image_height, min_size/image_width)`; then, if and
only if `max_size > min_size`, the shape
`(sqrt(min_size*max_size)/image_height, sqrt(min_size*max_size)/image_width)`;
then for each ratio `r` in input order
`(min_size/image_height/sqrt r, min_size/image_width*sqrt r)` and nothing else
(no entry for `1/r`).  With the real square root, for `min_size = 30`,
`max_size = 60`, image `300 x 300` and ratios `[2]` the result is
`[(0.1, 0.1), (sqrt 1800/300, sqrt 1800/300), (0.1/sqrt 2, 0.1*sqrt 2)]`, within
`1e-4` of `[(0.1, 0.1), (0.1414, 0.1414), (0.0707, 0.1414)]`. -/
theorem GetAnchorsShape_entries :
    (∀ (α : Type) [LinearOrderedField α] (sqrt : α → α)
        (image_height image_width min_size max_size : Int) (ratios : List α)
        (anchor_shapes : List (List α)),
        GetAnchorsShape sqrt image_height image_width min_size max_size ratios anchor_shapes =
          anchor_shapes ++
            ([[(min_size : α) / (image_height : α), (min_size : α) / (image_width : α)]] ++
              ((if max_size > min_size then
                  [[sqrt ((min_size : α) * (max_size : α)) / (image_height : α),
                    sqrt ((min_size : α) * (max_size : α)) / (image_width : α)]]
                else []) ++
                ratios.map (fun r =>
                  [(min_size : α) / (image_height : α) / sqrt r,
                   (min_size : α) / (image_width : α) * sqrt r])))) ∧
    GetAnchorsShape Real.sqrt 300 300 30 60 [2] [] =
      [[0.1, 0.1], [Real.sqrt 1800 / 300, Real.sqrt 1800 / 300],
       [0.1 / Real.sqrt 2, 0.1 * Real.sqrt 2]] ∧
    |Real.sqrt 1800 / 300 - 0.1414| < 0.0001 ∧
    |0.1 / Real.sqrt 2 - 0.0707| < 0.0001 ∧
    |0.1 * Real.sqrt 2 - 0.1414| < 0.0001 := by
  have h2lo : (1.4142 : ℝ) < Real.sqrt 2 := by
    rw [Real.lt_sqrt (by norm_num)]; norm_num
  have h2hi : Real.sqrt 2 < (1.4143 : ℝ) := by
    rw [Real.sqrt_lt' (by norm_num)]; norm_num
  have h18lo : (42.42 : ℝ) < Real.sqrt 1800 := by
    rw [Real.lt_sqrt (by norm_num)]; norm_num
  have h18hi : Real.sqrt 1800 < (42.43 : ℝ) := by
    rw [Real.sqrt_lt' (by norm_num)]; norm_num
  refine ⟨fun α _ sqrt ih iw mn mx ratios init =>
    GetAnchorsShape_eq sqrt ih iw mn mx ratios init, ?_, ?_, ?_, ?_⟩
  · rw [GetAnchorsShape_eq]
    norm_num
  · rw [abs_lt]; constructor <;> linarith
  · have hpos : (0 : ℝ) < Real.sqrt 2 := by linarith
    rw [abs_lt]
    constructor
    · rw [lt_sub_iff_add_lt, lt_div_iff₀ hpos]; linarith
    · rw [sub_lt_iff_lt_add, div_lt_iff₀ hpos]; linarith
  · rw [abs_lt]; constructor <;> linarith

/-- C8, counterexample.  For `min_size = max_size = 0`, image `300 x 300` and no
ratio the single entry produced is `(0, 0)`: its fractions are not strictly
positive. -/
theorem GetAnchorsShape_zero_size_entry :
    GetAnchorsShape Real.sqrt 300 300 0 0 [] [] = [[0, 0]] ∧ ¬ ((0 : ℝ) < 0) := by
  refine ⟨?_, lt_irrefl 0⟩
  rw [GetAnchorsShape_eq]
  norm_num

/-- C8, as amended.  For every configuration `GetAnchorsShape` appends exactly
`1 + (1 if max_size > min_size else 0) + len(ratios)` entries; when
`image_height`, `image_width` and `min_size` are strictly positive and every
ratio is `> 0`, every appended entry is a pair of a strictly positive height
fraction and a strictly positive width fraction (real square root). -/
theorem GetAnchorsShape_count_and_positive
    (image_height image_width min_size max_size : Int) (ratios : List ℝ)
    (anchor_shapes : List (List ℝ)) :
    ∃ produced : List (List ℝ),
      GetAnchorsShape Real.sqrt image_height image_width min_size max_size ratios
        anchor_shapes = anchor_shapes ++ produced ∧
      produced.length = 1 + (if max_size > min_size then 1 else 0) + ratios.length ∧
      (0 < image_height → 0 < image_width → 0 < min_size → (∀ r ∈ ratios, 0 < r) →
        ∀ s ∈ produced, ∃ hf wf : ℝ, s = [hf, wf] ∧ 0 < hf ∧ 0 < wf) := by
  refine ⟨_, GetAnchorsShape_eq Real.sqrt image_height image_width min_size max_size ratios
    anchor_shapes, ?_, ?_⟩
  · split <;> simp <;> omega
  · intro hih hiw hmn hr s hs
    have hih2 : (0 : ℝ) < (image_height : ℝ) := by exact_mod_cast hih
    have hiw2 : (0 : ℝ) < (image_width : ℝ) := by exact_mod_cast hiw
    have hmn2 : (0 : ℝ) < (min_size : ℝ) := by exact_mod_cast hmn
    rcases List.mem_append.1 hs with h1 | h1
    · rw [List.mem_singleton] at h1
      exact ⟨_, _, h1, div_pos hmn2 hih2, div_pos hmn2 hiw2⟩
    · rcases List.mem_append.1 h1 with h2 | h2
      · split at h2
        · rename_i hgt
          rw [List.mem_singleton] at h2
          have hmx2 : (0 : ℝ) < (max_size : ℝ) := by
            have : 0 < max_size := lt_trans hmn hgt
            exact_mod_cast this
          have hsq : 0 < Real.sqrt ((min_size : ℝ) * (max_size : ℝ)) :=
            Real.sqrt_pos.2 (mul_pos hmn2 hmx2)
          exact ⟨_, _, h2, div_pos hsq hih2, div_pos hsq hiw2⟩
        · exact absurd h2 (List.not_mem_nil _)
      · obtain ⟨r, hrm, rfl⟩ := List.mem_map.1 h2
        have hsq : 0 < Real.sqrt r := Real.sqrt_pos.2 (hr r hrm)
        exact ⟨_, _, rfl, div_pos (div_pos hmn2 hih2) hsq, mul_pos (div_pos hmn2 hiw2) hsq⟩

/-- C8 as amended, at `min_size = 30`, `max_size = 60`, image `300 x 300` and
ratios `[2]`. -/
theorem GetAnchorsShape_count_and_positive_witness :
    ∃ produced : List (List ℝ),
      GetAnchorsShape Real.sqrt 300 300 30 60 [2] [] = [] ++ produced ∧
      produced.length = 1 + (if (60 : Int) > 30 then 1 else 0) + ([2] : List ℝ).length ∧
      ∀ s ∈ produced, ∃ hf wf : ℝ, s = [hf, wf] ∧ 0 < hf ∧ 0 < wf := by
  obtain ⟨produced, h1, h2, h3⟩ :=
    GetAnchorsShape_count_and_positive 300 300 30 60 [2] []
  exact ⟨produced, h1, h2, h3 (by decide) (by decide) (by decide)
    (fun r hr => by rw [List.mem_singleton.1 hr]; norm_num)⟩

/-! ## Further statements about `SelectTopAndNMS` -/

theorem fillIndices_length {γ : Type} (l : List (γ × Nat)) (k : Nat) (idx : List Nat)
    (h : fillIndices l k = some idx) : idx.length = k ∧ k ≤ l.length := by
  induction k generalizing idx with
  | zero =>
    simp only [fillIndices, Option.some.injEq] at h
    subst h
    exact ⟨rfl, Nat.zero_le _⟩
  | succ m ih =>
    simp only [fillIndices, Option.bind_eq_bind, Option.bind_eq_some, Option.pure_def,
      Option.some.injEq] at h
    obtain ⟨acc, hacc, p, hp, rfl⟩ := h
    obtain ⟨h1, -⟩ := ih acc hacc
    have hm : m < l.length := by
      by_contra hcon
      rw [List.getElem?_eq_none (by omega)] at hp
      exact Option.noConfusion hp
    exact ⟨by simp [h1], hm⟩

omit [LinearOrderedField α] in
theorem pairScores_length (scores : List α) (n : Nat) (swi : List (α × Nat))
    (h : pairScores scores n = some swi) : swi.length = n := by
  induction n generalizing swi with
  | zero =>
    simp only [pairScores, Option.some.injEq] at h
    subst h
    rfl
  | succ m ih =>
    simp only [pairScores, Option.bind_eq_bind, Option.bind_eq_some, Option.pure_def,
      Option.some.injEq] at h
    obtain ⟨acc, hacc, p, -, rfl⟩ := h
    simp [ih acc hacc]

/-- A defined ranked list has `top_k` entries, and then
`0 ≤ top_k ≤ anchor_count`. -/
theorem rankedIndices_length (scores : List α) (anchor_count top_k : Int) (idx : List Nat)
    (h : rankedIndices scores anchor_count top_k = some idx) :
    0 ≤ anchor_count ∧ 0 ≤ top_k ∧ top_k ≤ anchor_count ∧ (idx.length : Int) = top_k := by
  unfold rankedIndices at h
  by_cases h1 : anchor_count < 0
  · simp [h1] at h
  · by_cases h2 : top_k < 0
    · simp [h1, h2] at h
    · simp only [h1, h2, if_false, Option.bind_eq_bind, Option.bind_eq_some,
        Option.pure_def] at h
      obtain ⟨_, _, swi, hswi, _, _, hfill⟩ := h
      obtain ⟨hl, hle⟩ := fillIndices_length _ _ _ hfill
      have hs := pairScores_length scores _ swi hswi
      rw [(std_sort_perm scoreCmp swi).length_eq, hs] at hle
      refine ⟨by omega, by omega, by omega, by omega⟩

theorem copy4_length {γ : Type} (l box : List γ) (h : copy4 l = some box) :
    box.length = 4 := by
  unfold copy4 at h
  split at h
  · rename_i hl
    rw [← Option.some.inj h, List.length_take]
    omega
  · exact Option.noConfusion h

/-- Whatever the input, the outer loop appends at most one score and four
floats for each rank it visits. -/
theorem nmsLoop_bound (scores loc : List α) (idx : List Nat) (is : List Nat)
    (out res : List α × List α) (h : nmsLoop scores loc idx is out = some res) :
    ∃ ns nl, res = (out.1 ++ ns, out.2 ++ nl) ∧ ns.length ≤ is.length ∧
      nl.length ≤ 4 * is.length := by
  induction is generalizing out with
  | nil =>
    simp only [nmsLoop, Option.some.injEq] at h
    subst h
    exact ⟨[], [], by simp, by simp, by simp⟩
  | cons i is ih =>
    simp only [nmsLoop, Option.bind_eq_bind, Option.bind_eq_some] at h
    obtain ⟨retain, -, h⟩ := h
    cases retain with
    | true =>
      simp only [if_true, Option.bind_eq_some] at h
      obtain ⟨ii, -, s, -, box, hbox, h⟩ := h
      obtain ⟨ns, nl, rfl, h1, h2⟩ := ih _ h
      have hb := copy4_length _ _ hbox
      refine ⟨s :: ns, box ++ nl, by simp, by simp; omega, ?_⟩
      simp only [List.length_append, List.length_cons, hb]
      omega
    | false =>
      simp only [Bool.false_eq_true, if_false] at h
      obtain ⟨ns, nl, rfl, h1, h2⟩ := ih _ h
      exact ⟨ns, nl, rfl, by simp; omega, by simp; omega⟩

/-- C11. `SelectTopAndNMS` never returns more than `top_k` entries: whatever
the input, a call that returns has appended at most `top_k` scores and at most
`4 * top_k` box floats to the output vectors; and for scores of length
`anchor_count`, boxes of length `4 * anchor_count` and
`1 ≤ top_k ≤ anchor_count` the call does return.  (For `top_k ≤ 0` the call
does not return: it reads `indices[0]` of an empty vector, or the vector
constructor throws.) -/
theorem SelectTopAndNMS_at_most_top_k :
    (∀ (α : Type) [LinearOrderedField α] (scores localization : List α)
        (anchor_count : Int) (output_scores output_localization : List α) (top_k : Int)
        (nms_threshold : α) (res : List α × List α),
        SelectTopAndNMS scores localization anchor_count output_scores
          output_localization top_k nms_threshold = some res →
        ∃ new_scores new_boxes : List α,
          res = (output_scores ++ new_scores, output_localization ++ new_boxes) ∧
          top_k ≤ anchor_count ∧
          (new_scores.length : Int) ≤ top_k ∧ (new_boxes.length : Int) ≤ 4 * top_k) ∧
    (∀ (α : Type) [LinearOrderedField α] (scores localization : List α)
        (anchor_count top_k : Nat) (output_scores output_localization : List α)
        (nms_threshold : α),
        scores.length = anchor_count → localization.length = 4 * anchor_count →
        1 ≤ top_k → top_k ≤ anchor_count →
        ∃ new_scores new_boxes : List α,
          SelectTopAndNMS scores localization anchor_count output_scores
              output_localization top_k nms_threshold =
            some (output_scores ++ new_scores, output_localization ++ new_boxes) ∧
          new_scores.length ≤ top_k ∧ new_boxes.length ≤ 4 * top_k) := by
  have general : ∀ (α : Type) [LinearOrderedField α] (scores localization : List α)
      (anchor_count : Int) (output_scores output_localization : List α) (top_k : Int)
      (nms_threshold : α) (res : List α × List α),
      SelectTopAndNMS scores localization anchor_count output_scores
        output_localization top_k nms_threshold = some res →
      ∃ new_scores new_boxes : List α,
        res = (output_scores ++ new_scores, output_localization ++ new_boxes) ∧
        top_k ≤ anchor_count ∧
        (new_scores.length : Int) ≤ top_k ∧ (new_boxes.length : Int) ≤ 4 * top_k := by
    intro α _ scores loc n os ol k thr res h
    simp only [SelectTopAndNMS, Option.bind_eq_bind, Option.bind_eq_some] at h
    obtain ⟨idx, hidx, i0, hi0, s0, -, box0, hbox0, hloop⟩ := h
    obtain ⟨-, hk0, hkn, hlen⟩ := rankedIndices_length scores n k idx hidx
    have hpos : 0 < idx.length := by
      by_contra hcon
      rw [List.getElem?_eq_none (by omega)] at hi0
      exact Option.noConfusion hi0
    obtain ⟨ns, nl, rfl, h1, h2⟩ := nmsLoop_bound scores loc idx _ _ res hloop
    have hb := copy4_length _ _ hbox0
    rw [List.length_range'] at h1 h2
    refine ⟨s0 :: ns, box0 ++ nl, by simp, hkn, ?_, ?_⟩
    · simp only [List.length_cons]
      omega
    · simp only [List.length_append, hb]
      omega
  refine ⟨general, ?_⟩
  intro α _ scores loc n k os ol thr hs hl h1 hk
  obtain ⟨idx, -, hval⟩ := SelectTopAndNMS_eq scores loc n k os ol thr
    (le_of_eq hs.symm) (le_of_eq hl.symm) h1 hk
  obtain ⟨ns, nl, hres, -, h2, h3⟩ := general α scores loc n os ol k thr _ hval
  refine ⟨ns, nl, hval.trans (congrArg some hres), by omega, by omega⟩

/-- C11, at the scenario of the specification (three candidates, `top_k = 3`). -/
theorem SelectTopAndNMS_at_most_top_k_witness :
    ∃ new_scores new_boxes : List ℚ,
      (([0.95, 0.9] : List ℚ), ([0, 0, 0.1, 0.1, 0, 0, 0.1, 0.1] : List ℚ)) =
        ([] ++ new_scores, [] ++ new_boxes) ∧
      (3 : Int) ≤ 3 ∧
      (new_scores.length : Int) ≤ 3 ∧ (new_boxes.length : Int) ≤ 4 * 3 :=
  SelectTopAndNMS_at_most_top_k.1 ℚ (0.9 :: 0.8 :: 0.95 :: [])
    [0, 0, 0.1, 0.1, 0, 0, 0.1, 0.1, 0.5, 0.5, 0.6, 0.6] 3 [] [] 3 0.45
    ([0.95, 0.9], [0, 0, 0.1, 0.1, 0, 0, 0.1, 0.1]) (by decide!)

/-- Along the ranked list the scores do not increase, and the score of rank 0
is the largest of the `n` input scores. -/
theorem rankScore_order (scores : List α) (n k : Nat) (hn : n ≤ scores.length)
    (h1 : 1 ≤ k) (hk : k ≤ n) (idx : List Nat)
    (hidx : rankedIndices scores n k = some idx) :
    (∀ i j, i < j → j < k → rankScore scores idx j ≤ rankScore scores idx i) ∧
    idx.getD 0 0 < n ∧
    (∀ q, q < n → scores.getD q 0 ≤ rankScore scores idx 0) := by
  obtain ⟨idx2, hidx2, hlen, hlt, -, hpw, hout⟩ := rankedIndices_props scores n k hn hk
  obtain rfl : idx2 = idx := Option.some.inj (hidx2.symm.trans hidx)
  have hle : ∀ p q, scoreCmp (scores.getD p 0, p) (scores.getD q 0, q) = true →
      scores.getD q 0 ≤ scores.getD p 0 := by
    intro p q hc
    rcases (scoreCmp_iff _ _).1 hc with h | ⟨h, -⟩
    · exact le_of_lt h
    · exact le_of_eq h.symm
  refine ⟨?_, hlt _ (getD_mem idx2 0 (by omega)), ?_⟩
  · intro i j hij hj
    have hi2 : i < idx2.length := by omega
    have hj2 : j < idx2.length := by omega
    have := List.pairwise_iff_getElem.1 hpw i j hi2 hj2 hij
    unfold rankScore
    rw [List.getD_eq_getElem _ _ hi2, List.getD_eq_getElem _ _ hj2]
    exact hle _ _ this
  · intro q hq
    have h0 : 0 < idx2.length := by omega
    unfold rankScore
    by_cases hmem : q ∈ idx2
    · obtain ⟨j, hj, rfl⟩ := List.getElem_of_mem hmem
      rcases Nat.eq_zero_or_pos j with rfl | hjpos
      · rw [List.getD_eq_getElem _ _ h0]
      · have := List.pairwise_iff_getElem.1 hpw 0 j h0 hj hjpos
        rw [List.getD_eq_getElem _ _ h0]
        exact hle _ _ this
    · exact hle _ _ (hout _ (getD_mem idx2 0 h0) q hq hmem)

/-- The ranks `SelectTopAndNMS` keeps are an increasing selection of
`0 .. k-1`. -/
theorem keptRanks_sublist (loc : List α) (idx : List Nat) (k : Nat) (h1 : 1 ≤ k) :
    (0 :: (List.range' 1 (k - 1)).filter (retained loc idx)).Sublist (List.range k) := by
  obtain ⟨m, rfl⟩ : ∃ m, k = m + 1 := ⟨k - 1, by omega⟩
  have hr : List.range (m + 1) = 0 :: List.range' 1 m := by
    simp [List.range_eq_range', List.range'_succ]
  rw [hr, Nat.add_sub_cancel]
  exact List.Sublist.cons₂ 0 (List.filter_sublist _)

/-- C12. For scores of length `anchor_count`, boxes of length
`4 * anchor_count` and `1 ≤ top_k ≤ anchor_count` the returned scores are in
non-increasing order (every returned score is `≥` every score returned after
it, in particular the next one), and the first returned score is the maximum
of the `anchor_count` input scores. -/
theorem SelectTopAndNMS_scores_non_increasing (scores localization : List α)
    (anchor_count top_k : Nat) (output_scores output_localization : List α)
    (nms_threshold : α)
    (hs : scores.length = anchor_count) (hl : localization.length = 4 * anchor_count)
    (h1 : 1 ≤ top_k) (hk : top_k ≤ anchor_count) :
    ∃ (first : α) (rest boxes : List α),
      SelectTopAndNMS scores localization anchor_count output_scores
          output_localization top_k nms_threshold =
        some (output_scores ++ first :: rest, boxes) ∧
      (first :: rest).Pairwise (fun earlier later => later ≤ earlier) ∧
      (∀ i, i + 1 < (first :: rest).length →
        (first :: rest).getD (i + 1) 0 ≤ (first :: rest).getD i 0) ∧
      first ∈ scores ∧ ∀ s ∈ scores, s ≤ first := by
  obtain ⟨idx, hidx, hval⟩ := SelectTopAndNMS_eq scores localization anchor_count top_k
    output_scores output_localization nms_threshold (le_of_eq hs.symm) (le_of_eq hl.symm)
    h1 hk
  obtain ⟨hanti, h0n, hmax⟩ :=
    rankScore_order scores anchor_count top_k (le_of_eq hs.symm) h1 hk idx hidx
  have hpw : (rankScore scores idx 0 ::
      ((List.range' 1 (top_k - 1)).filter (retained localization idx)).map
        (rankScore scores idx)).Pairwise (fun earlier later => later ≤ earlier) := by
    have hsub := keptRanks_sublist localization idx top_k h1
    have hlt : (0 :: (List.range' 1 (top_k - 1)).filter (retained localization idx)).Pairwise
        (fun a b => a < b) := (List.pairwise_lt_range top_k).sublist hsub
    have := List.Pairwise.imp_of_mem (S := fun a b => rankScore scores idx b ≤
      rankScore scores idx a) (fun {a b} _ hb hab =>
        hanti a b hab (List.mem_range.1 (hsub.subset hb))) hlt
    rw [← List.map_cons (rankScore scores idx)]
    exact List.pairwise_map.2 this
  refine ⟨_, _, _, hval, hpw, ?_, ?_, ?_⟩
  · intro i hi
    have hi0 : i < (rankScore scores idx 0 ::
      ((List.range' 1 (top_k - 1)).filter (retained localization idx)).map
        (rankScore scores idx)).length := by omega
    rw [List.getD_eq_getElem _ _ hi, List.getD_eq_getElem _ _ hi0]
    exact List.pairwise_iff_getElem.1 hpw i (i + 1) hi0 hi (Nat.lt_succ_self i)
  · unfold rankScore
    rw [List.getD_eq_getElem _ _ (by omega)]
    exact List.getElem_mem _
  · intro s hsm
    obtain ⟨q, hq, rfl⟩ := List.getElem_of_mem hsm
    have := hmax q (by omega)
    rwa [List.getD_eq_getElem _ _ hq] at this

/-- C12, at the scenario of the specification. -/
theorem SelectTopAndNMS_scores_non_increasing_witness :
    ∃ (first : ℚ) (rest boxes : List ℚ),
      SelectTopAndNMS (0.9 :: 0.8 :: 0.95 :: ([] : List ℚ))
          [0, 0, 0.1, 0.1, 0, 0, 0.1, 0.1, 0.5, 0.5, 0.6, 0.6] ((3 : Nat) : Int) [] []
          ((3 : Nat) : Int) 0.45 =
        some ([] ++ first :: rest, boxes) ∧
      (first :: rest).Pairwise (fun earlier later => later ≤ earlier) ∧
      (∀ i, i + 1 < (first :: rest).length →
        (first :: rest).getD (i + 1) 0 ≤ (first :: rest).getD i 0) ∧
      first ∈ (0.9 :: 0.8 :: 0.95 :: ([] : List ℚ)) ∧
      ∀ s ∈ (0.9 :: 0.8 :: 0.95 :: ([] : List ℚ)), s ≤ first :=
  SelectTopAndNMS_scores_non_increasing (0.9 :: 0.8 :: 0.95 :: [])
    [0, 0, 0.1, 0.1, 0, 0, 0.1, 0.1, 0.5, 0.5, 0.6, 0.6] 3 3 [] [] 0.45
    rfl rfl (by decide) (by decide)

/-- C16. For scores of length `anchor_count`, boxes of length
`4 * anchor_count` and `1 ≤ top_k ≤ anchor_count`, the first four floats
appended to the output box list are `localization[0..3]`, whichever index is
ranked first, while the first score appended is the score at the top-ranked
index `indices[0]`, a largest input score. -/
theorem SelectTopAndNMS_first_box_is_raw_first_entry (scores localization : List α)
    (anchor_count top_k : Nat) (output_scores output_localization : List α)
    (nms_threshold : α)
    (hs : scores.length = anchor_count) (hl : localization.length = 4 * anchor_count)
    (h1 : 1 ≤ top_k) (hk : top_k ≤ anchor_count) :
    ∃ (indices : List Nat) (rest_scores rest_boxes : List α),
      rankedIndices scores anchor_count top_k = some indices ∧
      SelectTopAndNMS scores localization anchor_count output_scores
          output_localization top_k nms_threshold =
        some (output_scores ++ scores.getD (indices.getD 0 0) 0 :: rest_scores,
          output_localization ++ (localization.take 4 ++ rest_boxes)) ∧
      (localization.take 4).length = 4 ∧
      indices.getD 0 0 < anchor_count ∧
      ∀ q, q < anchor_count → scores.getD q 0 ≤ scores.getD (indices.getD 0 0) 0 := by
  obtain ⟨idx, hidx, hval⟩ := SelectTopAndNMS_eq scores localization anchor_count top_k
    output_scores output_localization nms_threshold (le_of_eq hs.symm) (le_of_eq hl.symm)
    h1 hk
  obtain ⟨-, h0n, hmax⟩ :=
    rankScore_order scores anchor_count top_k (le_of_eq hs.symm) h1 hk idx hidx
  refine ⟨idx, _, _, hidx, hval, ?_, h0n, hmax⟩
  rw [List.length_take]
  omega

/-- C16, at two candidates of which the second ranks first: scores
`[0.1, 0.9]`, boxes `[0,0,1,1]` and `[0,0,0.5,0.5]`, `top_k = 1`. -/
theorem SelectTopAndNMS_first_box_is_raw_first_entry_witness :
    ∃ (indices : List Nat) (rest_scores rest_boxes : List ℚ),
      rankedIndices (0.1 :: 0.9 :: ([] : List ℚ)) ((2 : Nat) : Int) ((1 : Nat) : Int)
        = some indices ∧
      SelectTopAndNMS (0.1 :: 0.9 :: ([] : List ℚ)) [0, 0, 1, 1, 0, 0, 0.5, 0.5]
          ((2 : Nat) : Int) [] [] ((1 : Nat) : Int) 0.45 =
        some ([] ++ (0.1 :: 0.9 :: ([] : List ℚ)).getD (indices.getD 0 0) 0 :: rest_scores,
          [] ++ (List.take 4 ([0, 0, 1, 1, 0, 0, 0.5, 0.5] : List ℚ) ++ rest_boxes)) ∧
      (List.take 4 ([0, 0, 1, 1, 0, 0, 0.5, 0.5] : List ℚ)).length = 4 ∧
      indices.getD 0 0 < 2 ∧
      ∀ q, q < 2 → (0.1 :: 0.9 :: ([] : List ℚ)).getD q 0
        ≤ (0.1 :: 0.9 :: ([] : List ℚ)).getD (indices.getD 0 0) 0 :=
  SelectTopAndNMS_first_box_is_raw_first_entry (0.1 :: 0.9 :: [])
    [0, 0, 1, 1, 0, 0, 0.5, 0.5] 2 1 [] [] 0.45 rfl rfl (by decide) (by decide)

/-- C18. The argument `nms_threshold` has no effect: two calls that differ in
it only give the same result, for every input.  For instance two boxes of
overlap `1/2` (scores `[0.9, 0.8]`, boxes `[0,0,1,1]` and `[0,0,1,0.5]`) with
`nms_threshold = 0.9`: the second box is suppressed, because `1/2 > 0.45`. -/
theorem SelectTopAndNMS_ignores_nms_threshold :
    (∀ (α : Type) [LinearOrderedField α] (scores localization : List α)
        (anchor_count : Int) (output_scores output_localization : List α) (top_k : Int)
        (t1 t2 : α),
        SelectTopAndNMS scores localization anchor_count output_scores
            output_localization top_k t1 =
          SelectTopAndNMS scores localization anchor_count output_scores
            output_localization top_k t2) ∧
    CalJaccard ([0, 0, 1, 1] : List ℚ) [0, 0, 1, 0.5] = some (1 / 2) ∧
    SelectTopAndNMS (0.9 :: 0.8 :: ([] : List ℚ)) [0, 0, 1, 1, 0, 0, 1, 0.5] 2 [] [] 2 0.9
      = some ([0.9], [0, 0, 1, 1]) := by
  refine ⟨fun α _ scores loc n os ol k t1 t2 => rfl, by decide!, by decide!⟩

/-! ## Comparison with canonical greedy NMS -/

theorem canonicalKept_succ (loc : List α) (idx : List Nat) (n : Nat) :
    canonicalKept loc idx (n + 1) =
      if (canonicalKept loc idx n).all (fun j => decide
          (¬ ∃ iou ∈ CalJaccard (loc.drop (idx.getD n 0 * (4 : Nat)))
            (loc.drop (idx.getD j 0 * (4 : Nat))), iou > 45 / 100))
      then canonicalKept loc idx n ++ [n] else canonicalKept loc idx n := rfl

theorem canonicalKept_sublist (loc : List α) (idx : List Nat) (n : Nat) :
    (canonicalKept loc idx n).Sublist (List.range n) := by
  induction n with
  | zero => exact List.Sublist.refl _
  | succ n ih =>
    rw [List.range_succ, canonicalKept_succ]
    split
    · exact List.Sublist.append ih (List.Sublist.refl _)
    · exact ih.trans (List.sublist_append_left _ _)

/-- A rank that passes the test of the code against all earlier ranks passes
the test of canonical greedy NMS against the kept earlier ranks. -/
theorem canonicalKept_succ_of_retained (loc : List α) (idx : List Nat) (n : Nat)
    (h : retained loc idx n = true) :
    canonicalKept loc idx (n + 1) = canonicalKept loc idx n ++ [n] := by
  have hall : (canonicalKept loc idx n).all (fun j => decide
      (¬ ∃ iou ∈ CalJaccard (loc.drop (idx.getD n 0 * (4 : Nat)))
        (loc.drop (idx.getD j 0 * (4 : Nat))), iou > 45 / 100)) = true := by
    rw [List.all_eq_true]
    intro j hj
    rw [decide_eq_true_iff]
    exact (retained_iff loc idx n).1 h j
      (List.mem_range.1 ((canonicalKept_sublist loc idx n).subset hj))
  rw [canonicalKept_succ, if_pos hall]

/-- The ranks the code keeps are a selection of the ranks canonical greedy NMS
keeps. -/
theorem retained_sublist_canonical (loc : List α) (idx : List Nat) (n : Nat) :
    ((List.range n).filter (retained loc idx)).Sublist (canonicalKept loc idx n) := by
  induction n with
  | zero => exact List.Sublist.refl _
  | succ n ih =>
    rw [List.range_succ, List.filter_append]
    cases hr : retained loc idx n with
    | true =>
      rw [canonicalKept_succ_of_retained loc idx n hr]
      have : List.filter (retained loc idx) [n] = [n] := by simp [hr]
      rw [this]
      exact List.Sublist.append ih (List.Sublist.refl _)
    | false =>
      have : List.filter (retained loc idx) [n] = [] := by simp [hr]
      rw [this, List.append_nil]
      refine ih.trans ?_
      rw [canonicalKept_succ]
      split
      · exact List.sublist_append_left _ _
      · exact List.Sublist.refl _

theorem retained_zero (loc : List α) (idx : List Nat) : retained loc idx 0 = true := by
  rw [retained_iff]
  intro j hj
  exact absurd hj (Nat.not_lt_zero j)

/-- The ranks kept by the code, as one filter of `0 .. k-1`. -/
theorem keptRanks_eq_filter (loc : List α) (idx : List Nat) (k : Nat) (h1 : 1 ≤ k) :
    0 :: (List.range' 1 (k - 1)).filter (retained loc idx) =
      (List.range k).filter (retained loc idx) := by
  obtain ⟨m, rfl⟩ : ∃ m, k = m + 1 := ⟨k - 1, by omega⟩
  have hr : List.range (m + 1) = 0 :: List.range' 1 m := by
    simp [List.range_eq_range', List.range'_succ]
  rw [hr, Nat.add_sub_cancel, List.filter_cons_of_pos (retained_zero loc idx)]

/-- C19. For scores of length `anchor_count`, boxes of length
`4 * anchor_count` and `1 ≤ top_k ≤ anchor_count`: every rank `i < top_k` that
`SelectTopAndNMS` keeps (`i = 0`, or no earlier rank `j < i` overlaps it by
more than 0.45) is kept by canonical greedy NMS on the same ranked list, and
the returned score list is a sub-list of the canonical one.  For the scores
`[0.9, 0.8, 0.7]` with boxes `[0,0,1,1]`, `[0,0.3,1,1.3]`, `[0,0.6,1,1.6]` the
code returns `[0.9]` and canonical greedy NMS returns `[0.9, 0.7]`. -/
theorem SelectTopAndNMS_sublist_of_canonical :
    (∀ (α : Type) [LinearOrderedField α] (scores localization : List α)
        (anchor_count top_k : Nat) (output_scores output_localization : List α)
        (nms_threshold : α),
        scores.length = anchor_count → localization.length = 4 * anchor_count →
        1 ≤ top_k → top_k ≤ anchor_count →
        ∃ (indices : List Nat) (new_scores boxes : List α),
          rankedIndices scores anchor_count top_k = some indices ∧
          SelectTopAndNMS scores localization anchor_count output_scores
              output_localization top_k nms_threshold =
            some (output_scores ++ new_scores, boxes) ∧
          (∀ i, i < top_k →
            (i = 0 ∨ ∀ j, j < i →
              ¬ ∃ iou ∈ CalJaccard (localization.drop (indices.getD i 0 * 4))
                  (localization.drop (indices.getD j 0 * 4)), iou > 45 / 100) →
            i ∈ canonicalKept localization indices top_k) ∧
          new_scores.Sublist (canonicalGreedyNMS scores localization indices top_k)) ∧
    (rankedIndices (0.9 :: 0.8 :: 0.7 :: ([] : List ℚ)) 3 3 = some [0, 1, 2] ∧
      SelectTopAndNMS (0.9 :: 0.8 :: 0.7 :: ([] : List ℚ))
          [0, 0, 1, 1, 0, 0.3, 1, 1.3, 0, 0.6, 1, 1.6] 3 [] [] 3 0.45
        = some ([0.9], [0, 0, 1, 1]) ∧
      canonicalGreedyNMS (0.9 :: 0.8 :: 0.7 :: ([] : List ℚ))
          [0, 0, 1, 1, 0, 0.3, 1, 1.3, 0, 0.6, 1, 1.6] [0, 1, 2] 3
        = [0.9, 0.7]) := by
  refine ⟨?_, by decide!⟩
  intro α _ scores loc n k os ol thr hs hl h1 hk
  obtain ⟨idx, hidx, hval⟩ := SelectTopAndNMS_eq scores loc n k os ol thr
    (le_of_eq hs.symm) (le_of_eq hl.symm) h1 hk
  have hsub := retained_sublist_canonical loc idx k
  refine ⟨idx, _, _, hidx, hval, ?_, ?_⟩
  · intro i hi hkeep
    have hret : retained loc idx i = true := by
      rcases hkeep with rfl | h
      · exact retained_zero loc idx
      · exact (retained_iff loc idx i).2 h
    exact hsub.subset (List.mem_filter.2 ⟨List.mem_range.2 hi, hret⟩)
  · rw [← List.map_cons (rankScore scores idx), keptRanks_eq_filter loc idx k h1]
    exact hsub.map _

/-- C19, at the three candidates of its example. -/
theorem SelectTopAndNMS_sublist_of_canonical_witness :
    ∃ (indices : List Nat) (new_scores boxes : List ℚ),
      rankedIndices (0.9 :: 0.8 :: 0.7 :: ([] : List ℚ)) ((3 : Nat) : Int) ((3 : Nat) : Int)
        = some indices ∧
      SelectTopAndNMS (0.9 :: 0.8 :: 0.7 :: ([] : List ℚ))
          [0, 0, 1, 1, 0, 0.3, 1, 1.3, 0, 0.6, 1, 1.6] ((3 : Nat) : Int) [] []
          ((3 : Nat) : Int) 0.45 =
        some ([] ++ new_scores, boxes) ∧
      (∀ i, i < 3 →
        (i = 0 ∨ ∀ j, j < i →
          ¬ ∃ iou ∈ CalJaccard (List.drop (indices.getD i 0 * 4)
                ([0, 0, 1, 1, 0, 0.3, 1, 1.3, 0, 0.6, 1, 1.6] : List ℚ))
              (List.drop (indices.getD j 0 * 4)
                [0, 0, 1, 1, 0, 0.3, 1, 1.3, 0, 0.6, 1, 1.6]), iou > 45 / 100) →
        i ∈ canonicalKept ([0, 0, 1, 1, 0, 0.3, 1, 1.3, 0, 0.6, 1, 1.6] : List ℚ)
          indices 3) ∧
      new_scores.Sublist (canonicalGreedyNMS (0.9 :: 0.8 :: 0.7 :: ([] : List ℚ))
        [0, 0, 1, 1, 0, 0.3, 1, 1.3, 0, 0.6, 1, 1.6] indices 3) :=
  SelectTopAndNMS_sublist_of_canonical.1 ℚ (0.9 :: 0.8 :: 0.7 :: [])
    [0, 0, 1, 1, 0, 0.3, 1, 1.3, 0, 0.6, 1, 1.6] 3 3 [] [] 0.45
    rfl rfl (by decide) (by decide)

/-! ## Precondition handling of `SelectTopAndNMS` -/

/-- C17, counterexample.  For one candidate and `top_k = 2 > anchor_count = 1`,
sizes that both vector constructors grant (here up to the `max_size()` of
libstdc++ on a 64-bit target, `2^60 - 1` pairs and `2^61 - 1` ints), the call
does not fail: both constructors return, the loop of lines 124-126 reads
`scores_with_indices[1]` outside the one-element vector, and the behaviour of
the call is undefined. -/
theorem SelectTopAndNMS_top_k_above_count_undefined :
    pairScores ([0.9] : List ℚ) 1 = some [(0.9, 0)] ∧
    (std_sort scoreCmp ([(0.9, 0)] : List (ℚ × Nat)))[1]? = none ∧
    SelectTopAndNMS_outcome (2 ^ 60 - 1) (2 ^ 61 - 1) ([0.9] : List ℚ) [0, 0, 1, 1] 1 [] [] 2
      0.45 = Outcome.undefined ∧
    (Outcome.undefined : Outcome (List ℚ × List ℚ)) ≠ Outcome.thrown := by
  have h1 : pairScores ([0.9] : List ℚ) 1 = some [(0.9, 0)] := by decide!
  have h2 : SelectTopAndNMS ([0.9] : List ℚ) [0, 0, 1, 1] 1 [] [] 2 0.45 = none := by
    decide!
  refine ⟨h1, by decide!, ?_, fun h => Outcome.noConfusion h⟩
  have hp : pairScores ([0.9] : List ℚ) (1 : Int).toNat = some [(0.9, 0)] := h1
  have c1 : ¬ ((1 : Int) < 0 ∨ ((2 ^ 60 - 1 : Nat) : Int) < 1) := by norm_num
  have c2 : ¬ ((2 : Int) < 0 ∨ ((2 ^ 61 - 1 : Nat) : Int) < 2) := by norm_num
  simp only [SelectTopAndNMS_outcome, if_neg c1, if_neg c2, hp, h2]

/-- C17, as amended.  For scores of length `anchor_count`, boxes of length
`4 * anchor_count` and an `anchor_count` the constructor of line 112 grants:
whenever `1 ≤ top_k ≤ anchor_count` (so the constructor of line 123 grants
`top_k` as well, up to its limit) the call returns with every buffer and vector
index in range; whenever `top_k > anchor_count` and the constructor of line 123
grants `top_k` elements the call neither fails nor returns: no statement checks
`top_k` against `anchor_count`, and the loop of lines 124-126 reads
`scores_with_indices[anchor_count]` outside the vector, which is undefined
behaviour; and a `top_k` the constructor of line 123 refuses (above its
`max_size()` or above what the allocator provides) makes that constructor
throw, which is the one way the call fails. -/
theorem SelectTopAndNMS_precondition_handling :
    (∀ (α : Type) [LinearOrderedField α] (pair_limit int_limit : Nat)
        (scores localization : List α)
        (anchor_count top_k : Nat) (output_scores output_localization : List α)
        (nms_threshold : α),
        scores.length = anchor_count → localization.length = 4 * anchor_count →
        1 ≤ top_k → top_k ≤ anchor_count →
        anchor_count ≤ pair_limit → top_k ≤ int_limit →
        ∃ out, SelectTopAndNMS scores localization anchor_count output_scores
              output_localization top_k nms_threshold = some out ∧
          SelectTopAndNMS_outcome pair_limit int_limit scores localization anchor_count
              output_scores output_localization top_k nms_threshold
            = Outcome.returned out) ∧
    (∀ (α : Type) [LinearOrderedField α] (pair_limit int_limit : Nat)
        (scores localization : List α)
        (anchor_count top_k : Nat) (output_scores output_localization : List α)
        (nms_threshold : α),
        scores.length = anchor_count → localization.length = 4 * anchor_count →
        anchor_count < top_k →
        anchor_count ≤ pair_limit → top_k ≤ int_limit →
        SelectTopAndNMS_outcome pair_limit int_limit scores localization anchor_count
            output_scores output_localization top_k nms_threshold = Outcome.undefined ∧
        ∃ scores_with_indices : List (α × Nat),
          pairScores scores anchor_count = some scores_with_indices ∧
          (std_sort scoreCmp scores_with_indices).length = anchor_count ∧
          (std_sort scoreCmp scores_with_indices)[anchor_count]? = none ∧
          fillIndices (std_sort scoreCmp scores_with_indices) top_k = none) ∧
    (∀ (α : Type) [LinearOrderedField α] (pair_limit int_limit : Nat)
        (scores localization : List α)
        (anchor_count top_k : Nat) (output_scores output_localization : List α)
        (nms_threshold : α),
        scores.length = anchor_count →
        anchor_count ≤ pair_limit → int_limit < top_k →
        SelectTopAndNMS_outcome pair_limit int_limit scores localization anchor_count
            output_scores output_localization top_k nms_threshold = Outcome.thrown) := by
  refine ⟨?_, ?_, ?_⟩
  · intro α _ pl il scores loc n k os ol thr hs hl h1 hk hpl hil
    obtain ⟨idx, -, hval⟩ := SelectTopAndNMS_eq scores loc n k os ol thr
      (le_of_eq hs.symm) (le_of_eq hl.symm) h1 hk
    refine ⟨_, hval, ?_⟩
    have hn : ¬ ((n : Int) < 0 ∨ (pl : Int) < (n : Int)) := by omega
    have hk0 : ¬ ((k : Int) < 0 ∨ (il : Int) < (k : Int)) := by omega
    simp only [SelectTopAndNMS_outcome, if_neg hn, if_neg hk0, Int.toNat_ofNat,
      pairScores_eq scores n (le_of_eq hs.symm), hval]
  · intro α _ pl il scores loc n k os ol thr hs hl hk hpl hil
    have hps := pairScores_eq scores n (le_of_eq hs.symm)
    have hlen : (std_sort scoreCmp
        ((List.range n).map (fun i => (scores.getD i 0, i)))).length = n := by
      rw [(std_sort_perm _ _).length_eq]; simp
    have hfill : fillIndices (std_sort scoreCmp
        ((List.range n).map (fun i => (scores.getD i 0, i)))) k = none := by
      cases hf : fillIndices (std_sort scoreCmp
          ((List.range n).map (fun i => (scores.getD i 0, i)))) k with
      | none => rfl
      | some idx =>
        have := (fillIndices_length _ _ _ hf).2
        omega
    refine ⟨?_, _, hps, hlen, List.getElem?_eq_none (by omega), hfill⟩
    have hn : ¬ ((n : Int) < 0 ∨ (pl : Int) < (n : Int)) := by omega
    have hk0 : ¬ ((k : Int) < 0 ∨ (il : Int) < (k : Int)) := by omega
    have hn1 : ¬ ((n : Int) < 0) := by omega
    have hk1 : ¬ ((k : Int) < 0) := by omega
    have hnone : SelectTopAndNMS scores loc n os ol k thr = none := by
      simp only [SelectTopAndNMS, rankedIndices, hn1, hk1, if_false, Int.toNat_ofNat, hps,
        hfill, Option.bind_eq_bind, Option.some_bind, Option.none_bind, Option.pure_def]
    simp only [SelectTopAndNMS_outcome, if_neg hn, if_neg hk0, Int.toNat_ofNat, hps, hnone]
  · intro α _ pl il scores loc n k os ol thr hs hpl hil
    have hps := pairScores_eq scores n (le_of_eq hs.symm)
    have hn : ¬ ((n : Int) < 0 ∨ (pl : Int) < (n : Int)) := by omega
    have hk0 : (k : Int) < 0 ∨ (il : Int) < (k : Int) := by omega
    simp only [SelectTopAndNMS_outcome, if_neg hn, if_pos hk0, Int.toNat_ofNat, hps]

/-- C17 as amended, at one candidate with `top_k = 2`, for the limits
`2^60 - 1` and `2^61 - 1`. -/
theorem SelectTopAndNMS_precondition_handling_witness :
    SelectTopAndNMS_outcome (2 ^ 60 - 1) (2 ^ 61 - 1) ([0.9] : List ℚ) [0, 0, 1, 1]
        ((1 : Nat) : Int) [] [] ((2 : Nat) : Int) 0.45 = Outcome.undefined ∧
    ∃ scores_with_indices : List (ℚ × Nat),
      pairScores ([0.9] : List ℚ) 1 = some scores_with_indices ∧
      (std_sort scoreCmp scores_with_indices).length = 1 ∧
      (std_sort scoreCmp scores_with_indices)[1]? = none ∧
      fillIndices (std_sort scoreCmp scores_with_indices) 2 = none :=
  SelectTopAndNMS_precondition_handling.2.1 ℚ (2 ^ 60 - 1) (2 ^ 61 - 1) [0.9] [0, 0, 1, 1] 1 2
    [] [] 0.45 rfl rfl (by decide) (by norm_num) (by norm_num)

/-! ## Rounding lemmas -/

theorem log2Fuel_spec (fuel : Nat) : ∀ n : Nat, n ≤ fuel → n ≠ 0 →
    2 ^ log2Fuel fuel n ≤ n ∧ n < 2 ^ (log2Fuel fuel n + 1) := by
  induction fuel with
  | zero => intro n h h0; omega
  | succ fuel ih =>
    intro n h h0
    rw [log2Fuel]
    split_ifs with h2
    · have : n = 1 := by omega
      subst this; simp
    · obtain ⟨a, b⟩ := ih (n / 2) (by omega) (by omega)
      simp only [pow_succ] at b ⊢
      constructor <;> omega

theorem natLog2_spec (n : Nat) (h0 : n ≠ 0) :
    2 ^ natLog2 n ≤ n ∧ n < 2 ^ (natLog2 n + 1) :=
  log2Fuel_spec n n le_rfl h0

theorem ilog2_spec (q : ℚ) (hq : 0 < q) :
    (2 : ℚ) ^ ilog2 q ≤ q ∧ q < (2 : ℚ) ^ (ilog2 q + 1) := by
  have hnum : 0 < q.num := Rat.num_pos.mpr hq
  have ha0 : q.num.natAbs ≠ 0 := Int.natAbs_ne_zero.mpr hnum.ne'
  obtain ⟨a1, a2⟩ := natLog2_spec q.num.natAbs ha0
  obtain ⟨b1, b2⟩ := natLog2_spec q.den q.den_nz
  have hmul : q * (q.den : ℚ) = (q.num.natAbs : ℚ) := by
    have h1 : ((q.num.natAbs : Int) : ℚ) = (q.num : ℚ) := by
      rw [Int.natAbs_of_nonneg hnum.le]
    rw [Rat.mul_den_eq_num, ← h1, Int.cast_natCast]
  have A1 : (2 : ℚ) ^ natLog2 q.num.natAbs ≤ (q.num.natAbs : ℚ) := by exact_mod_cast a1
  have A2 : (q.num.natAbs : ℚ) < (2 : ℚ) ^ (natLog2 q.num.natAbs + 1) := by exact_mod_cast a2
  have B1 : (2 : ℚ) ^ natLog2 q.den ≤ (q.den : ℚ) := by exact_mod_cast b1
  have B2 : (q.den : ℚ) < (2 : ℚ) ^ (natLog2 q.den + 1) := by exact_mod_cast b2
  have hb : (0 : ℚ) < (q.den : ℚ) := by exact_mod_cast q.den_pos
  have hk : (2 : ℚ) ^ ((natLog2 q.num.natAbs : Int) - (natLog2 q.den : Int)) =
      (2 : ℚ) ^ natLog2 q.num.natAbs / (2 : ℚ) ^ natLog2 q.den := by
    rw [zpow_sub₀ (two_ne_zero), zpow_natCast, zpow_natCast]
  have hp1 : (0 : ℚ) < (2 : ℚ) ^ natLog2 q.den := by positivity
  have hp2 : (0 : ℚ) < (2 : ℚ) ^ natLog2 q.num.natAbs := by positivity
  rw [ilog2, abs_of_pos hq]
  split_ifs with h
  · refine ⟨h, ?_⟩
    rw [zpow_add_one₀ two_ne_zero, hk]
    have h3 : q < (2 : ℚ) ^ (natLog2 q.num.natAbs + 1) / (2 : ℚ) ^ natLog2 q.den := by
      rw [lt_div_iff₀ hp1]
      calc q * (2 : ℚ) ^ natLog2 q.den ≤ q * (q.den : ℚ) :=
            mul_le_mul_of_nonneg_left B1 hq.le
        _ = (q.num.natAbs : ℚ) := hmul
        _ < _ := A2
    rw [pow_succ] at h3
    calc q < _ := h3
      _ = _ := by ring
  · push_neg at h
    refine ⟨?_, by rw [sub_add_cancel]; exact h⟩
    rw [zpow_sub_one₀ two_ne_zero, hk]
    have h3 : (2 : ℚ) ^ natLog2 q.num.natAbs / (2 : ℚ) ^ (natLog2 q.den + 1) ≤ q := by
      rw [div_le_iff₀ (by positivity)]
      calc (2 : ℚ) ^ natLog2 q.num.natAbs ≤ (q.num.natAbs : ℚ) := A1
        _ = q * (q.den : ℚ) := hmul.symm
        _ ≤ q * (2 : ℚ) ^ (natLog2 q.den + 1) :=
            mul_le_mul_of_nonneg_left B2.le hq.le
    rw [pow_succ] at h3
    calc _ = (2 : ℚ) ^ natLog2 q.num.natAbs / ((2 : ℚ) ^ natLog2 q.den * 2) := by
          field_simp
      _ ≤ q := h3

theorem ilog2_unique (q : ℚ) (hq : 0 < q) (e : Int) (h1 : (2 : ℚ) ^ e ≤ q)
    (h2 : q < (2 : ℚ) ^ (e + 1)) : ilog2 q = e := by
  obtain ⟨s1, s2⟩ := ilog2_spec q hq
  have two : (1 : ℚ) < 2 := by norm_num
  have c1 : e < ilog2 q + 1 := (zpow_lt_zpow_iff_right₀ two).mp (lt_of_le_of_lt h1 s2)
  have c2 : ilog2 q < e + 1 := (zpow_lt_zpow_iff_right₀ two).mp (lt_of_le_of_lt s1 h2)
  omega

theorem ilog2_mono (x y : ℚ) (hx : 0 < x) (hxy : x ≤ y) : ilog2 x ≤ ilog2 y := by
  obtain ⟨s1, -⟩ := ilog2_spec x hx
  obtain ⟨-, t2⟩ := ilog2_spec y (lt_of_lt_of_le hx hxy)
  have two : (1 : ℚ) < 2 := by norm_num
  have c : ilog2 x < ilog2 y + 1 :=
    (zpow_lt_zpow_iff_right₀ two).mp (lt_of_le_of_lt (s1.trans hxy) t2)
  omega

theorem roundEven_intCast (n : Int) : roundEven (n : ℚ) = n := by
  simp [roundEven]

theorem roundEven_bounds (x : ℚ) : ⌊x⌋ ≤ roundEven x ∧ roundEven x ≤ ⌊x⌋ + 1 := by
  unfold roundEven
  split_ifs <;> constructor <;> omega

theorem roundEven_mono {s t : ℚ} (h : s ≤ t) : roundEven s ≤ roundEven t := by
  have hf : ⌊s⌋ ≤ ⌊t⌋ := Int.floor_mono h
  rcases hf.lt_or_eq with hlt | heq
  · have h1 := (roundEven_bounds s).2
    have h2 := (roundEven_bounds t).1
    omega
  · have hs : s - (⌊t⌋ : ℚ) ≤ t - (⌊t⌋ : ℚ) := by linarith
    simp only [roundEven, heq]
    split_ifs <;> first | omega | (exfalso; linarith)

theorem ulp_pos (q : ℚ) : 0 < ulp q := by
  unfold ulp; positivity

theorem rnd_zero : rnd 0 = 0 := by
  simp [rnd, roundEven]

theorem rnd_one : rnd 1 = 1 := by decide!

theorem rnd_nonneg {x : ℚ} (hx : 0 ≤ x) : 0 ≤ rnd x := by
  have h : roundEven ((0 : Int) : ℚ) ≤ roundEven (x / ulp x) :=
    roundEven_mono (by simpa using div_nonneg hx (ulp_pos x).le)
  rw [roundEven_intCast] at h
  exact mul_nonneg (by exact_mod_cast h) (ulp_pos x).le

theorem rnd_nonpos {x : ℚ} (hx : x ≤ 0) : rnd x ≤ 0 := by
  have h : roundEven (x / ulp x) ≤ roundEven ((0 : Int) : ℚ) :=
    roundEven_mono (by simpa using div_nonpos_of_nonpos_of_nonneg hx (ulp_pos x).le)
  rw [roundEven_intCast] at h
  exact mul_nonpos_of_nonpos_of_nonneg (by exact_mod_cast h) (ulp_pos x).le

theorem rnd_of_multiple (x : ℚ) (m : Int) (h : x = m * ulp x) : rnd x = x := by
  have hu := (ulp_pos x).ne'
  have : x / ulp x = (m : ℚ) := (div_eq_iff hu).mpr h
  rw [rnd, this, roundEven_intCast]
  exact h.symm

theorem binade_of_le {x : ℚ} (h : -126 ≤ ilog2 x) : binade x = ilog2 x :=
  max_eq_left h

theorem binade_of_ge {x : ℚ} (h : ilog2 x ≤ -126) : binade x = -126 :=
  max_eq_right h

theorem lt_pow_binade {x : ℚ} (hx : 0 < x) : x < (2 : ℚ) ^ (binade x + 1) := by
  have two : (1 : ℚ) ≤ 2 := by norm_num
  calc x < (2 : ℚ) ^ (ilog2 x + 1) := (ilog2_spec x hx).2
    _ ≤ (2 : ℚ) ^ (binade x + 1) :=
        zpow_le_zpow_right₀ two (by unfold binade; have := le_max_left (ilog2 x) (-126); omega)

theorem binade_mono {x y : ℚ} (hx : 0 < x) (hxy : x ≤ y) : binade x ≤ binade y := by
  unfold binade
  exact max_le_max (ilog2_mono x y hx hxy) le_rfl

theorem rnd_le_pow {x : ℚ} (hx : 0 < x) : rnd x ≤ (2 : ℚ) ^ (binade x + 1) := by
  have hu : (0 : ℚ) < (2 : ℚ) ^ (binade x - 23) := by positivity
  have h1 : x / (2 : ℚ) ^ (binade x - 23) ≤ (((2 : Int) ^ 24 : Int) : ℚ) := by
    rw [div_le_iff₀ hu]
    have : (((2 : Int) ^ 24 : Int) : ℚ) * (2 : ℚ) ^ (binade x - 23)
        = (2 : ℚ) ^ (binade x + 1) := by
      have e : binade x + 1 = 24 + (binade x - 23) := by ring
      rw [e, zpow_add₀ two_ne_zero]
      norm_num
    rw [this]
    exact (lt_pow_binade hx).le
  have h2 := roundEven_mono h1
  rw [roundEven_intCast] at h2
  have h3 : ((roundEven (x / (2 : ℚ) ^ (binade x - 23)) : Int) : ℚ) ≤ (((2 : Int) ^ 24 : Int) : ℚ) := by
    exact_mod_cast h2
  calc rnd x = (roundEven (x / (2 : ℚ) ^ (binade x - 23)) : ℚ) * (2 : ℚ) ^ (binade x - 23) := rfl
    _ ≤ (((2 : Int) ^ 24 : Int) : ℚ) * (2 : ℚ) ^ (binade x - 23) :=
        mul_le_mul_of_nonneg_right h3 hu.le
    _ = (2 : ℚ) ^ (binade x + 1) := by
      have e : binade x + 1 = 24 + (binade x - 23) := by ring
      rw [e, zpow_add₀ two_ne_zero]
      norm_num

theorem pow_le_rnd {x : ℚ} (hx : 0 < x) (hn : -126 ≤ ilog2 x) :
    (2 : ℚ) ^ (binade x) ≤ rnd x := by
  have hb : binade x = ilog2 x := by unfold binade; exact max_eq_left hn
  have hu : (0 : ℚ) < (2 : ℚ) ^ (binade x - 23) := by positivity
  have e23 : (((2 : Int) ^ 23 : Int) : ℚ) * (2 : ℚ) ^ (binade x - 23)
      = (2 : ℚ) ^ (binade x) := by
    have e : binade x = 23 + (binade x - 23) := by ring
    conv_rhs => rw [e, zpow_add₀ two_ne_zero]
    norm_num
  have h1 : (((2 : Int) ^ 23 : Int) : ℚ) ≤ x / (2 : ℚ) ^ (binade x - 23) := by
    rw [le_div_iff₀ hu, e23, hb]
    exact (ilog2_spec x hx).1
  have h2 := roundEven_mono h1
  rw [roundEven_intCast] at h2
  have h3 : (((2 : Int) ^ 23 : Int) : ℚ) ≤ ((roundEven (x / (2 : ℚ) ^ (binade x - 23)) : Int) : ℚ) := by
    exact_mod_cast h2
  calc (2 : ℚ) ^ (binade x) = (((2 : Int) ^ 23 : Int) : ℚ) * (2 : ℚ) ^ (binade x - 23) := e23.symm
    _ ≤ (roundEven (x / (2 : ℚ) ^ (binade x - 23)) : ℚ) * (2 : ℚ) ^ (binade x - 23) :=
        mul_le_mul_of_nonneg_right h3 hu.le
    _ = rnd x := rfl

theorem rnd_mono_pos {x y : ℚ} (hx : 0 < x) (hxy : x ≤ y) : rnd x ≤ rnd y := by
  have hy : 0 < y := lt_of_lt_of_le hx hxy
  rcases (binade_mono hx hxy).lt_or_eq with hlt | heq
  · have hn : -126 ≤ ilog2 y := by
      by_contra hc
      have : binade y = -126 := by unfold binade; exact max_eq_right (by omega)
      have : -126 ≤ binade x := by unfold binade; exact le_max_right _ _
      omega
    have two : (1 : ℚ) ≤ 2 := by norm_num
    calc rnd x ≤ (2 : ℚ) ^ (binade x + 1) := rnd_le_pow hx
      _ ≤ (2 : ℚ) ^ (binade y) := zpow_le_zpow_right₀ two (by omega)
      _ ≤ rnd y := pow_le_rnd hy hn
  · have hu : ulp x = ulp y := by unfold ulp; rw [heq]
    have h1 : x / ulp x ≤ y / ulp y := by
      rw [hu]; exact div_le_div_of_nonneg_right hxy (ulp_pos y).le
    have h2 : ((roundEven (x / ulp x) : Int) : ℚ) ≤ ((roundEven (y / ulp y) : Int) : ℚ) := by
      exact_mod_cast roundEven_mono h1
    unfold rnd
    rw [hu] at h2 ⊢
    exact mul_le_mul_of_nonneg_right h2 (ulp_pos y).le

/-- Rounding is monotone (stated for a non-negative upper argument). -/
theorem rnd_mono {x y : ℚ} (hy : 0 ≤ y) (hxy : x ≤ y) : rnd x ≤ rnd y := by
  rcases le_or_lt x 0 with h | h
  · exact (rnd_nonpos h).trans (rnd_nonneg hy)
  · exact rnd_mono_pos h hxy

/-- A rounded value is a binary32 number: rounding it again changes nothing. -/
theorem rnd_rnd {x : ℚ} (hx : 0 ≤ x) : rnd (rnd x) = rnd x := by
  rcases hx.lt_or_eq with hpos | h0
  swap
  · rw [← h0, rnd_zero, rnd_zero]
  have hr0 : 0 ≤ rnd x := rnd_nonneg hx
  rcases hr0.lt_or_eq with hrpos | hr0
  swap
  · rw [← hr0, rnd_zero]
  have hdef : rnd x = (roundEven (x / (2 : ℚ) ^ (binade x - 23)) : ℚ)
      * (2 : ℚ) ^ (binade x - 23) := rfl
  have two : (1 : ℚ) < 2 := by norm_num
  have hle := rnd_le_pow hpos
  have hb126 : -126 ≤ binade x := by unfold binade; exact le_max_right _ _
  rcases hle.lt_or_eq with hlt | heq
  · -- the rounded value stays in the binade of `x`
    have hbr : binade (rnd x) = binade x := by
      have s := ilog2_spec (rnd x) hrpos
      have c1 : ilog2 (rnd x) < binade x + 1 :=
        (zpow_lt_zpow_iff_right₀ two).mp (lt_of_le_of_lt s.1 hlt)
      by_cases hn : -126 ≤ ilog2 x
      · have hbx : binade x = ilog2 x := binade_of_le hn
        have c2 : binade x < ilog2 (rnd x) + 1 :=
          (zpow_lt_zpow_iff_right₀ two).mp (lt_of_le_of_lt (pow_le_rnd hpos hn) s.2)
        rw [binade_of_le (by omega)]
        omega
      · have hbx : binade x = -126 := binade_of_ge (by omega)
        rw [binade_of_ge (by omega), hbx]
    apply rnd_of_multiple (rnd x) (roundEven (x / (2 : ℚ) ^ (binade x - 23)))
    rw [ulp, hbr]
    rfl
  · -- the rounded value is the power of two that opens the next binade
    have hlog : ilog2 (rnd x) = binade x + 1 := by
      apply ilog2_unique (rnd x) hrpos
      · rw [heq]
      · rw [heq]; exact (zpow_lt_zpow_iff_right₀ two).mpr (by omega)
    have hbr : binade (rnd x) = binade x + 1 := by
      rw [binade_of_le (by omega), hlog]
    apply rnd_of_multiple (rnd x) ((2 : Int) ^ 23)
    rw [ulp, hbr, heq]
    have e : binade x + 1 = 23 + (binade x + 1 - 23) := by ring
    conv_lhs => rw [e, zpow_add₀ two_ne_zero]
    norm_num

/-- Doubling a binary32 number is exact (before the range check). -/
theorem rnd_two_mul {x : ℚ} (hx : 0 ≤ x) (h : rnd x = x) : rnd (2 * x) = 2 * x := by
  rcases hx.lt_or_eq with hpos | h0
  swap
  · rw [← h0, mul_zero, rnd_zero]
  have h2pos : 0 < 2 * x := by linarith
  have s := ilog2_spec x hpos
  have hlog : ilog2 (2 * x) = ilog2 x + 1 := by
    apply ilog2_unique (2 * x) h2pos
    · rw [zpow_add_one₀ two_ne_zero]; linarith [s.1]
    · rw [zpow_add_one₀ two_ne_zero (ilog2 x + 1)]; linarith [s.2]
  have hm : x = (roundEven (x / ulp x) : ℚ) * ulp x := h.symm
  by_cases hn : -126 ≤ ilog2 x
  · have hb2 : binade (2 * x) = binade x + 1 := by
      rw [binade_of_le (by omega), binade_of_le hn, hlog]
    apply rnd_of_multiple (2 * x) (roundEven (x / ulp x))
    have hu : ulp (2 * x) = 2 * ulp x := by
      unfold ulp; rw [hb2]
      have e : binade x + 1 - 23 = (binade x - 23) + 1 := by ring
      rw [e, zpow_add_one₀ two_ne_zero]; ring
    rw [hu]
    calc 2 * x = 2 * ((roundEven (x / ulp x) : ℚ) * ulp x) := by rw [← hm]
      _ = _ := by ring
  · have hb2 : binade (2 * x) = binade x := by
      rw [binade_of_ge (by omega), binade_of_ge (by omega)]
    apply rnd_of_multiple (2 * x) (2 * roundEven (x / ulp x))
    have hu : ulp (2 * x) = ulp x := by unfold ulp; rw [hb2]
    rw [hu]
    push_cast
    calc 2 * x = 2 * ((roundEven (x / ulp x) : ℚ) * ulp x) := by rw [← hm]
      _ = _ := by ring

theorem roundEven_neg (t : ℚ) : roundEven (-t) = -roundEven t := by
  by_cases hint : (⌊t⌋ : ℚ) = t
  · rw [← hint, ← Int.cast_neg, roundEven_intCast, roundEven_intCast]
  · have hlt : (⌊t⌋ : ℚ) < t := lt_of_le_of_ne (Int.floor_le t) hint
    have hfl : ⌊-t⌋ = -⌊t⌋ - 1 := by
      rw [Int.floor_eq_iff]
      push_cast
      constructor
      · have := Int.lt_floor_add_one t; linarith
      · linarith
    have hq : ((-⌊t⌋ - 1 : Int) : ℚ) = -(⌊t⌋ : ℚ) - 1 := by push_cast; ring
    simp only [roundEven, hfl, hq]
    split_ifs <;> first | omega | (exfalso; linarith)

theorem ilog2_neg (q : ℚ) : ilog2 (-q) = ilog2 q := by
  simp only [ilog2, Rat.neg_num, Rat.neg_den, Int.natAbs_neg, abs_neg]

theorem ulp_neg (q : ℚ) : ulp (-q) = ulp q := by
  simp only [ulp, binade, ilog2_neg]

theorem rnd_neg (q : ℚ) : rnd (-q) = -rnd q := by
  simp only [rnd, ulp_neg, neg_div, roundEven_neg]
  push_cast
  ring

/-- Rounding is monotone. -/
theorem rnd_le_rnd {x y : ℚ} (hxy : x ≤ y) : rnd x ≤ rnd y := by
  rcases le_or_lt 0 y with hy | hy
  · exact rnd_mono hy hxy
  · have h := @rnd_mono (-y) (-x) (by linarith) (by linarith)
    rw [rnd_neg, rnd_neg] at h
    linarith

/-- A rounded value is a binary32 number: rounding it again changes nothing. -/
theorem rnd_idem (x : ℚ) : rnd (rnd x) = rnd x := by
  rcases le_or_lt 0 x with hx | hx
  · exact rnd_rnd hx
  · have h := @rnd_rnd (-x) (by linarith)
    rw [rnd_neg, rnd_neg] at h
    linarith

/-! ## Binary32 operations on finite values -/

theorem round32_eq_fin {q u : ℚ} (h : round32 q = Binary32.fin u) :
    u = rnd q ∧ rnd q < (2 : ℚ) ^ 128 ∧ -(2 : ℚ) ^ 128 < rnd q := by
  unfold round32 at h
  split_ifs at h with h1 h2
  push_neg at h1 h2
  exact ⟨(Binary32.fin.inj h).symm, h1, h2⟩

theorem round32_of_bounds {q : ℚ} (h1 : -1 ≤ rnd q) (h2 : rnd q ≤ 1) :
    round32 q = Binary32.fin (rnd q) := by
  have p : (1 : ℚ) < (2 : ℚ) ^ 128 := by norm_num
  unfold round32
  rw [if_neg (by linarith), if_neg (by linarith)]

theorem sub_fin_fin (a b : ℚ) :
    Binary32.sub (Binary32.fin a) (Binary32.fin b) = round32 (a - b) := by
  simp only [Binary32.sub, Binary32.neg, Binary32.add, sub_eq_add_neg]

theorem std_min_fin_fin (a b : ℚ) :
    Binary32.std_min (Binary32.fin a) (Binary32.fin b) = Binary32.fin (min a b) := by
  simp only [Binary32.std_min, Binary32.lt, decide_eq_true_eq]
  rcases lt_or_le b a with h | h
  · rw [if_pos h, min_eq_right h.le]
  · rw [if_neg (not_lt.mpr h), min_eq_left h]

theorem std_max_fin_fin (a b : ℚ) :
    Binary32.std_max (Binary32.fin a) (Binary32.fin b) = Binary32.fin (max a b) := by
  simp only [Binary32.std_max, Binary32.lt, decide_eq_true_eq]
  rcases lt_or_le a b with h | h
  · rw [if_pos h, max_eq_right h.le]
  · rw [if_neg (not_lt.mpr h), max_eq_left h]

theorem add_eq_fin {x y : Binary32} {u : ℚ} (h : Binary32.add x y = Binary32.fin u) :
    ∃ a b, x = Binary32.fin a ∧ y = Binary32.fin b ∧ round32 (a + b) = Binary32.fin u := by
  cases x <;> cases y <;>
    first
    | exact ⟨_, _, rfl, rfl, h⟩
    | exact absurd h (by simp [Binary32.add])

theorem sub_eq_fin {x y : Binary32} {u : ℚ} (h : Binary32.sub x y = Binary32.fin u) :
    ∃ a b, x = Binary32.fin a ∧ y = Binary32.fin b ∧ round32 (a - b) = Binary32.fin u := by
  cases x <;> cases y <;>
    first
    | exact ⟨_, _, rfl, rfl, by rw [← sub_fin_fin]; exact h⟩
    | exact absurd h (by simp [Binary32.sub, Binary32.neg, Binary32.add])

theorem mul_eq_fin {x y : Binary32} {u : ℚ} (h : Binary32.mul x y = Binary32.fin u) :
    ∃ a b, x = Binary32.fin a ∧ y = Binary32.fin b ∧ round32 (a * b) = Binary32.fin u := by
  cases x <;> cases y <;>
    first
    | exact ⟨_, _, rfl, rfl, h⟩
    | (exfalso; simp only [Binary32.mul] at h; split_ifs at h)
    | exact absurd h (by simp [Binary32.mul])

theorem std_max_zero_round32 {t u : ℚ}
    (h : Binary32.std_max (Binary32.fin 0) (round32 t) = Binary32.fin u) :
    u = max 0 (rnd t) := by
  have p : (0 : ℚ) < (2 : ℚ) ^ 128 := by norm_num
  unfold round32 at h
  split_ifs at h with h1 h2
  · simp [Binary32.std_max, Binary32.lt] at h
  · simp only [Binary32.std_max, Binary32.lt] at h
    rw [max_eq_left (by linarith)]
    exact (Binary32.fin.inj h).symm
  · rw [std_max_fin_fin] at h
    exact (Binary32.fin.inj h).symm

theorem CalJaccard_binary32_cons (l0 l1 l2 l3 r0 r1 r2 r3 : Binary32) :
    CalJaccard_binary32 [l0, l1, l2, l3] [r0, r1, r2, r3] =
      some (Binary32.div (intersection_binary32 l0 l1 l2 l3 r0 r1 r2 r3)
        (unionarea_binary32 l0 l1 l2 l3 r0 r1 r2 r3)) := by
  simp only [CalJaccard_binary32, List.getElem?_cons_zero, List.getElem?_cons_succ,
    Option.bind_eq_bind, Option.some_bind, Option.pure_def]

theorem area_binary32_eq_fin {b0 b1 b2 b3 a : ℚ}
    (h : area_binary32 (Binary32.fin b0) (Binary32.fin b1) (Binary32.fin b2) (Binary32.fin b3)
      = Binary32.fin a) :
    a = rnd (rnd (b2 - b0) * rnd (b3 - b1)) := by
  unfold area_binary32 at h
  obtain ⟨x, y, hx, hy, hr⟩ := mul_eq_fin h
  rw [sub_fin_fin] at hx hy
  rw [(round32_eq_fin hx).1, (round32_eq_fin hy).1] at hr
  exact (round32_eq_fin hr).1

theorem intersection_binary32_eq_fin {l0 l1 l2 l3 r0 r1 r2 r3 i : ℚ}
    (h : intersection_binary32 (Binary32.fin l0) (Binary32.fin l1) (Binary32.fin l2)
      (Binary32.fin l3) (Binary32.fin r0) (Binary32.fin r1) (Binary32.fin r2)
      (Binary32.fin r3) = Binary32.fin i) :
    i = rnd (max 0 (rnd (min l2 r2 - max l0 r0)) * max 0 (rnd (min l3 r3 - max l1 r1))) := by
  unfold intersection_binary32 at h
  obtain ⟨x, y, hx, hy, hr⟩ := mul_eq_fin h
  rw [std_min_fin_fin, std_max_fin_fin, sub_fin_fin] at hx hy
  rw [std_max_zero_round32 hx, std_max_zero_round32 hy] at hr
  exact (round32_eq_fin hr).1

/-- When the `unionarea` of `CalJaccard` is a finite number, so are the two
areas and the intersection, and each is the rounded value of its formula. -/
theorem unionarea_binary32_eq_fin {l0 l1 l2 l3 r0 r1 r2 r3 u : ℚ}
    (h : unionarea_binary32 (Binary32.fin l0) (Binary32.fin l1) (Binary32.fin l2)
      (Binary32.fin l3) (Binary32.fin r0) (Binary32.fin r1) (Binary32.fin r2)
      (Binary32.fin r3) = Binary32.fin u) :
    ∃ a1 a2 i : ℚ,
      area_binary32 (Binary32.fin l0) (Binary32.fin l1) (Binary32.fin l2) (Binary32.fin l3)
        = Binary32.fin a1 ∧
      area_binary32 (Binary32.fin r0) (Binary32.fin r1) (Binary32.fin r2) (Binary32.fin r3)
        = Binary32.fin a2 ∧
      intersection_binary32 (Binary32.fin l0) (Binary32.fin l1) (Binary32.fin l2)
        (Binary32.fin l3) (Binary32.fin r0) (Binary32.fin r1) (Binary32.fin r2)
        (Binary32.fin r3) = Binary32.fin i ∧
      a1 = rnd (rnd (l2 - l0) * rnd (l3 - l1)) ∧
      a2 = rnd (rnd (r2 - r0) * rnd (r3 - r1)) ∧
      i = rnd (max 0 (rnd (min l2 r2 - max l0 r0)) * max 0 (rnd (min l3 r3 - max l1 r1))) ∧
      u = rnd (rnd (a1 + a2) - i) := by
  unfold unionarea_binary32 at h
  obtain ⟨s, i, hs, hi, hr⟩ := sub_eq_fin h
  obtain ⟨a1, a2, h1, h2, hr2⟩ := add_eq_fin hs
  refine ⟨a1, a2, i, h1, h2, hi, area_binary32_eq_fin h1, area_binary32_eq_fin h2,
    intersection_binary32_eq_fin hi, ?_⟩
  rw [← (round32_eq_fin hr2).1]
  exact (round32_eq_fin hr).1

/-- The order of the terms of `CalJaccard` in binary32, for boxes with ordered
corners: the intersection is between `0` and either area and is at most the
union, and the union is positive as soon as one area is. -/
theorem jaccard_terms_order (l0 l1 l2 l3 r0 r1 r2 r3 a1 a2 i u : ℚ)
    (hl02 : l0 ≤ l2) (hl13 : l1 ≤ l3) (hr02 : r0 ≤ r2) (hr13 : r1 ≤ r3)
    (h1 : a1 = rnd (rnd (l2 - l0) * rnd (l3 - l1)))
    (h2 : a2 = rnd (rnd (r2 - r0) * rnd (r3 - r1)))
    (hi : i = rnd (max 0 (rnd (min l2 r2 - max l0 r0)) * max 0 (rnd (min l3 r3 - max l1 r1))))
    (hu : u = rnd (rnd (a1 + a2) - i)) :
    0 ≤ i ∧ i ≤ a1 ∧ i ≤ a2 ∧ i ≤ u ∧ (0 < a1 ∨ 0 < a2 → 0 < u) := by
  have hh1 : 0 ≤ rnd (l2 - l0) := rnd_nonneg (by linarith)
  have hw1 : 0 ≤ rnd (l3 - l1) := rnd_nonneg (by linarith)
  have hh2 : 0 ≤ rnd (r2 - r0) := rnd_nonneg (by linarith)
  have hw2 : 0 ≤ rnd (r3 - r1) := rnd_nonneg (by linarith)
  have hα0 : 0 ≤ max 0 (rnd (min l2 r2 - max l0 r0)) := le_max_left _ _
  have hβ0 : 0 ≤ max 0 (rnd (min l3 r3 - max l1 r1)) := le_max_left _ _
  have hα1 : max 0 (rnd (min l2 r2 - max l0 r0)) ≤ rnd (l2 - l0) :=
    max_le hh1 (rnd_le_rnd (by linarith [min_le_left l2 r2, le_max_left l0 r0]))
  have hα2 : max 0 (rnd (min l2 r2 - max l0 r0)) ≤ rnd (r2 - r0) :=
    max_le hh2 (rnd_le_rnd (by linarith [min_le_right l2 r2, le_max_right l0 r0]))
  have hβ1 : max 0 (rnd (min l3 r3 - max l1 r1)) ≤ rnd (l3 - l1) :=
    max_le hw1 (rnd_le_rnd (by linarith [min_le_left l3 r3, le_max_left l1 r1]))
  have hβ2 : max 0 (rnd (min l3 r3 - max l1 r1)) ≤ rnd (r3 - r1) :=
    max_le hw2 (rnd_le_rnd (by linarith [min_le_right l3 r3, le_max_right l1 r1]))
  have hi0 : 0 ≤ i := by rw [hi]; exact rnd_nonneg (mul_nonneg hα0 hβ0)
  have hi1 : i ≤ a1 := by
    rw [hi, h1]; exact rnd_le_rnd (mul_le_mul hα1 hβ1 hβ0 hh1)
  have hi2 : i ≤ a2 := by
    rw [hi, h2]; exact rnd_le_rnd (mul_le_mul hα2 hβ2 hβ0 hh2)
  have hii : rnd i = i := by rw [hi]; exact rnd_idem _
  have h2i : rnd (2 * i) = 2 * i := rnd_two_mul hi0 hii
  have hs : 2 * i ≤ rnd (a1 + a2) := by
    rw [← h2i]; exact rnd_le_rnd (by linarith)
  have hiu : i ≤ u := by
    rw [hu]
    calc i = rnd i := hii.symm
      _ ≤ rnd (rnd (a1 + a2) - i) := rnd_le_rnd (by linarith)
  refine ⟨hi0, hi1, hi2, hiu, ?_⟩
  intro hpos
  rcases hi0.lt_or_eq with hip | hi0
  · exact lt_of_lt_of_le hip hiu
  · have ha1 : rnd a1 = a1 := by rw [h1]; exact rnd_idem _
    have ha2 : rnd a2 = a2 := by rw [h2]; exact rnd_idem _
    have hs1 : a1 ≤ rnd (a1 + a2) := by
      calc a1 = rnd a1 := ha1.symm
        _ ≤ rnd (a1 + a2) := rnd_le_rnd (by linarith)
    have hs2 : a2 ≤ rnd (a1 + a2) := by
      calc a2 = rnd a2 := ha2.symm
        _ ≤ rnd (a1 + a2) := rnd_le_rnd (by linarith)
    rw [hu, ← hi0, sub_zero, rnd_idem]
    rcases hpos with h | h
    · exact lt_of_lt_of_le h hs1
    · exact lt_of_lt_of_le h hs2

/-- When the `unionarea` of `CalJaccard` is a finite number, the eight corners
read are finite numbers. -/
theorem corners_fin_of_unionarea_fin {l0 l1 l2 l3 r0 r1 r2 r3 : Binary32} {u : ℚ}
    (h : unionarea_binary32 l0 l1 l2 l3 r0 r1 r2 r3 = Binary32.fin u) :
    ∃ a0 a1 a2 a3 b0 b1 b2 b3 : ℚ,
      l0 = Binary32.fin a0 ∧ l1 = Binary32.fin a1 ∧ l2 = Binary32.fin a2 ∧
      l3 = Binary32.fin a3 ∧ r0 = Binary32.fin b0 ∧ r1 = Binary32.fin b1 ∧
      r2 = Binary32.fin b2 ∧ r3 = Binary32.fin b3 := by
  unfold unionarea_binary32 at h
  obtain ⟨s, i, hs, -, -⟩ := sub_eq_fin h
  obtain ⟨a1, a2, h1, h2, -⟩ := add_eq_fin hs
  unfold area_binary32 at h1 h2
  obtain ⟨x1, y1, hx1, hy1, -⟩ := mul_eq_fin h1
  obtain ⟨x2, y2, hx2, hy2, -⟩ := mul_eq_fin h2
  obtain ⟨p2, p0, e2, e0, -⟩ := sub_eq_fin hx1
  obtain ⟨p3, p1, e3, e1, -⟩ := sub_eq_fin hy1
  obtain ⟨q2, q0, f2, f0, -⟩ := sub_eq_fin hx2
  obtain ⟨q3, q1, f3, f1, -⟩ := sub_eq_fin hy2
  exact ⟨p0, p1, p2, p3, q0, q1, q2, q3, e0, e1, e2, e3, f0, f1, f2, f3⟩

/-! ## Statements about `CalJaccard` in binary32 -/

/-- C13, counterexample.  The two well-formed boxes `(0, 0, 2^-80, 2^-80)` have
a strictly positive area, and their corners are binary32 numbers; in binary32
the area `2^-160` underflows to `0`, so the union is `0` and `CalJaccard`
returns `0 / 0`, a NaN, which is not a value in `[0, 1]`. -/
theorem CalJaccard_binary32_underflow_nan :
    rnd (1 / 2 ^ 80) = 1 / 2 ^ 80 ∧
    (0 : ℚ) < (1 / 2 ^ 80 - 0) * (1 / 2 ^ 80 - 0) ∧
    area_binary32 (Binary32.fin 0) (Binary32.fin 0) (Binary32.fin (1 / 2 ^ 80))
      (Binary32.fin (1 / 2 ^ 80)) = Binary32.fin 0 ∧
    unionarea_binary32 (Binary32.fin 0) (Binary32.fin 0) (Binary32.fin (1 / 2 ^ 80))
      (Binary32.fin (1 / 2 ^ 80)) (Binary32.fin 0) (Binary32.fin 0)
      (Binary32.fin (1 / 2 ^ 80)) (Binary32.fin (1 / 2 ^ 80)) = Binary32.fin 0 ∧
    CalJaccard_binary32
      [Binary32.fin 0, Binary32.fin 0, Binary32.fin (1 / 2 ^ 80), Binary32.fin (1 / 2 ^ 80)]
      [Binary32.fin 0, Binary32.fin 0, Binary32.fin (1 / 2 ^ 80), Binary32.fin (1 / 2 ^ 80)]
      = some Binary32.nan := by
  refine ⟨by decide!, by norm_num, by decide!, by decide!, by decide!⟩

/-- C13, as amended.  In binary32, for every two boxes with `ymin ≤ ymax` and
`xmin ≤ xmax`, at least one of which has a strictly positive area as line 159
or 160 computes it, and whose computed union is a finite number (no overflow):
the union is strictly positive and `CalJaccard` returns a number in `[0, 1]`. -/
theorem CalJaccard_binary32_in_unit_interval (l0 l1 l2 l3 r0 r1 r2 r3 : Binary32) (u : ℚ)
    (hl02 : Binary32.le l0 l2 = true) (hl13 : Binary32.le l1 l3 = true)
    (hr02 : Binary32.le r0 r2 = true) (hr13 : Binary32.le r1 r3 = true)
    (harea :
      Binary32.lt (Binary32.fin 0) (area_binary32 l0 l1 l2 l3) = true ∨
      Binary32.lt (Binary32.fin 0) (area_binary32 r0 r1 r2 r3) = true)
    (hfin : unionarea_binary32 l0 l1 l2 l3 r0 r1 r2 r3 = Binary32.fin u) :
    0 < u ∧
    ∃ v : ℚ, CalJaccard_binary32 [l0, l1, l2, l3] [r0, r1, r2, r3] = some (Binary32.fin v) ∧
      0 ≤ v ∧ v ≤ 1 := by
  obtain ⟨p0, p1, p2, p3, q0, q1, q2, q3, rfl, rfl, rfl, rfl, rfl, rfl, rfl, rfl⟩ :=
    corners_fin_of_unionarea_fin hfin
  simp only [Binary32.le, decide_eq_true_eq] at hl02 hl13 hr02 hr13
  obtain ⟨a1, a2, i, e1, e2, ei, h1, h2, hi, hu⟩ := unionarea_binary32_eq_fin hfin
  obtain ⟨hi0, -, -, hiu, hpos⟩ :=
    jaccard_terms_order p0 p1 p2 p3 q0 q1 q2 q3 a1 a2 i u hl02 hl13 hr02 hr13 h1 h2 hi hu
  rw [e1, e2] at harea
  simp only [Binary32.lt, decide_eq_true_eq] at harea
  have hu0 : 0 < u := hpos harea
  have hq0 : 0 ≤ i / u := div_nonneg hi0 hu0.le
  have hq1 : i / u ≤ 1 := (div_le_one hu0).mpr hiu
  have hv0 : 0 ≤ rnd (i / u) := rnd_nonneg hq0
  have hv1 : rnd (i / u) ≤ 1 := by
    calc rnd (i / u) ≤ rnd 1 := rnd_le_rnd hq1
      _ = 1 := rnd_one
  refine ⟨hu0, rnd (i / u), ?_, hv0, hv1⟩
  rw [CalJaccard_binary32_cons, ei, hfin]
  simp only [Binary32.div, if_neg hu0.ne']
  rw [round32_of_bounds (by linarith) hv1]

/-- C13 as amended, at the boxes `(0, 0, 1, 1)` and `(0, 1/2, 1, 3/2)`, whose
computed union is `3/2`. -/
theorem CalJaccard_binary32_in_unit_interval_witness :
    (0 : ℚ) < 3 / 2 ∧
    ∃ v : ℚ, CalJaccard_binary32
        [Binary32.fin 0, Binary32.fin 0, Binary32.fin 1, Binary32.fin 1]
        [Binary32.fin 0, Binary32.fin (1 / 2), Binary32.fin 1, Binary32.fin (3 / 2)]
        = some (Binary32.fin v) ∧ 0 ≤ v ∧ v ≤ 1 :=
  CalJaccard_binary32_in_unit_interval (Binary32.fin 0) (Binary32.fin 0) (Binary32.fin 1)
    (Binary32.fin 1) (Binary32.fin 0) (Binary32.fin (1 / 2)) (Binary32.fin 1)
    (Binary32.fin (3 / 2)) (3 / 2) (by decide!) (by decide!) (by decide!) (by decide!)
    (Or.inl (by decide!)) (by decide!)

/-- C14, counterexample.  The box `(0, 0, 2^-80, 2^-80)` is non-degenerate and
its corners are binary32 numbers; in binary32 its area underflows to `0` and
`CalJaccard(b, b)` is `0 / 0`, a NaN, not `1`. -/
theorem CalJaccard_binary32_self_nan :
    rnd (1 / 2 ^ 80) = 1 / 2 ^ 80 ∧
    (0 : ℚ) < 1 / 2 ^ 80 ∧
    CalJaccard_binary32
      [Binary32.fin 0, Binary32.fin 0, Binary32.fin (1 / 2 ^ 80), Binary32.fin (1 / 2 ^ 80)]
      [Binary32.fin 0, Binary32.fin 0, Binary32.fin (1 / 2 ^ 80), Binary32.fin (1 / 2 ^ 80)]
      = some Binary32.nan ∧
    Binary32.nan ≠ Binary32.fin 1 := by
  refine ⟨by decide!, by norm_num, by decide!, by decide⟩

/-- C14, as amended.  In binary32, for every non-degenerate box `b` whose area
as line 159 computes it is strictly positive (it has not underflowed to `0`)
and whose computed union is a finite number (the doubled area has not
overflowed), `CalJaccard(b, b)` is exactly `1`. -/
theorem CalJaccard_binary32_self (b0 b1 b2 b3 : Binary32) (u : ℚ)
    (hy : Binary32.lt b0 b2 = true) (hx : Binary32.lt b1 b3 = true)
    (harea : Binary32.lt (Binary32.fin 0) (area_binary32 b0 b1 b2 b3) = true)
    (hfin : unionarea_binary32 b0 b1 b2 b3 b0 b1 b2 b3 = Binary32.fin u) :
    CalJaccard_binary32 [b0, b1, b2, b3] [b0, b1, b2, b3] = some (Binary32.fin 1) := by
  obtain ⟨p0, p1, p2, p3, q0, q1, q2, q3, rfl, rfl, rfl, rfl, -, -, -, -⟩ :=
    corners_fin_of_unionarea_fin hfin
  simp only [Binary32.lt, decide_eq_true_eq] at hy hx
  obtain ⟨a1, a2, i, e1, e2, ei, h1, h2, hi, hu⟩ := unionarea_binary32_eq_fin hfin
  rw [e1] at harea
  simp only [Binary32.lt, decide_eq_true_eq] at harea
  have hh : 0 ≤ rnd (p2 - p0) := rnd_nonneg (by linarith)
  have hw : 0 ≤ rnd (p3 - p1) := rnd_nonneg (by linarith)
  have hia : i = a1 := by
    rw [hi, h1, min_self, max_self, min_self, max_self, max_eq_right hh, max_eq_right hw]
  have h21 : a2 = a1 := by rw [h2, h1]
  have ha : rnd a1 = a1 := by rw [h1]; exact rnd_idem _
  have hua : u = a1 := by
    rw [hu, h21, hia, ← two_mul, rnd_two_mul harea.le ha]
    have : 2 * a1 - a1 = a1 := by ring
    rw [this, ha]
  rw [CalJaccard_binary32_cons, ei, hfin, hia, hua]
  simp only [Binary32.div, if_neg harea.ne', div_self harea.ne']
  rw [round32_of_bounds (by rw [rnd_one]; norm_num) (by rw [rnd_one]), rnd_one]

/-- C14 as amended, at the box `(0, 0, 1/2, 1/2)`, whose computed union is
`1/4`. -/
theorem CalJaccard_binary32_self_witness :
    CalJaccard_binary32
        [Binary32.fin 0, Binary32.fin 0, Binary32.fin (1 / 2), Binary32.fin (1 / 2)]
        [Binary32.fin 0, Binary32.fin 0, Binary32.fin (1 / 2), Binary32.fin (1 / 2)]
      = some (Binary32.fin 1) :=
  CalJaccard_binary32_self (Binary32.fin 0) (Binary32.fin 0) (Binary32.fin (1 / 2))
    (Binary32.fin (1 / 2)) (1 / 4) (by decide!) (by decide!) (by decide!) (by decide!)

/-- C15, counterexample.  The boxes `(0, 0, 2^-80, 2^-80)` and
`(2^-79, 2^-79, 2^-78, 2^-78)` are non-degenerate, separated along both axes,
and their corners are binary32 numbers; in binary32 both areas underflow to
`0` and `CalJaccard` returns `0 / 0`, a NaN, not `0`. -/
theorem CalJaccard_binary32_disjoint_nan :
    rnd (1 / 2 ^ 80) = 1 / 2 ^ 80 ∧ rnd (1 / 2 ^ 79) = 1 / 2 ^ 79 ∧
    rnd (1 / 2 ^ 78) = 1 / 2 ^ 78 ∧
    (0 : ℚ) < 1 / 2 ^ 80 ∧ (1 : ℚ) / 2 ^ 80 ≤ 1 / 2 ^ 79 ∧ (1 : ℚ) / 2 ^ 79 < 1 / 2 ^ 78 ∧
    CalJaccard_binary32
      [Binary32.fin 0, Binary32.fin 0, Binary32.fin (1 / 2 ^ 80), Binary32.fin (1 / 2 ^ 80)]
      [Binary32.fin (1 / 2 ^ 79), Binary32.fin (1 / 2 ^ 79), Binary32.fin (1 / 2 ^ 78),
        Binary32.fin (1 / 2 ^ 78)]
      = some Binary32.nan ∧
    Binary32.nan ≠ Binary32.fin 0 := by
  refine ⟨by decide!, by decide!, by decide!, by norm_num, by norm_num, by norm_num,
    by decide!, by decide⟩

/-- C15, as amended.  In binary32, for every two non-degenerate boxes that are
separated along at least one axis, at least one of which has a strictly
positive area as line 159 or 160 computes it, and whose computed union is a
finite number: the intersection is `0`, the union is strictly positive and
`CalJaccard` returns `0`. -/
theorem CalJaccard_binary32_disjoint (l0 l1 l2 l3 r0 r1 r2 r3 : Binary32) (u : ℚ)
    (hl02 : Binary32.lt l0 l2 = true) (hl13 : Binary32.lt l1 l3 = true)
    (hr02 : Binary32.lt r0 r2 = true) (hr13 : Binary32.lt r1 r3 = true)
    (hsep : Binary32.le l2 r0 = true ∨ Binary32.le r2 l0 = true ∨
      Binary32.le l3 r1 = true ∨ Binary32.le r3 l1 = true)
    (harea :
      Binary32.lt (Binary32.fin 0) (area_binary32 l0 l1 l2 l3) = true ∨
      Binary32.lt (Binary32.fin 0) (area_binary32 r0 r1 r2 r3) = true)
    (hfin : unionarea_binary32 l0 l1 l2 l3 r0 r1 r2 r3 = Binary32.fin u) :
    intersection_binary32 l0 l1 l2 l3 r0 r1 r2 r3 = Binary32.fin 0 ∧
    0 < u ∧
    CalJaccard_binary32 [l0, l1, l2, l3] [r0, r1, r2, r3] = some (Binary32.fin 0) := by
  obtain ⟨p0, p1, p2, p3, q0, q1, q2, q3, rfl, rfl, rfl, rfl, rfl, rfl, rfl, rfl⟩ :=
    corners_fin_of_unionarea_fin hfin
  simp only [Binary32.lt, Binary32.le, decide_eq_true_eq] at hl02 hl13 hr02 hr13 hsep
  obtain ⟨a1, a2, i, e1, e2, ei, h1, h2, hi, hu⟩ := unionarea_binary32_eq_fin hfin
  obtain ⟨-, -, -, -, hpos⟩ :=
    jaccard_terms_order p0 p1 p2 p3 q0 q1 q2 q3 a1 a2 i u hl02.le hl13.le hr02.le hr13.le
      h1 h2 hi hu
  rw [e1, e2] at harea
  simp only [Binary32.lt, decide_eq_true_eq] at harea
  have hu0 : 0 < u := hpos harea
  have hi0 : i = 0 := by
    have hzero : max 0 (rnd (min p2 q2 - max p0 q0)) * max 0 (rnd (min p3 q3 - max p1 q1))
        = 0 := by
      rcases hsep with h | h | h | h
      · have : rnd (min p2 q2 - max p0 q0) ≤ 0 :=
          rnd_nonpos (by linarith [min_le_left p2 q2, le_max_right p0 q0])
        rw [max_eq_left this, zero_mul]
      · have : rnd (min p2 q2 - max p0 q0) ≤ 0 :=
          rnd_nonpos (by linarith [min_le_right p2 q2, le_max_left p0 q0])
        rw [max_eq_left this, zero_mul]
      · have : rnd (min p3 q3 - max p1 q1) ≤ 0 :=
          rnd_nonpos (by linarith [min_le_left p3 q3, le_max_right p1 q1])
        rw [max_eq_left this, mul_zero]
      · have : rnd (min p3 q3 - max p1 q1) ≤ 0 :=
          rnd_nonpos (by linarith [min_le_right p3 q3, le_max_left p1 q1])
        rw [max_eq_left this, mul_zero]
    rw [hi, hzero, rnd_zero]
  rw [hi0] at ei
  refine ⟨ei, hu0, ?_⟩
  rw [CalJaccard_binary32_cons, ei, hfin]
  simp only [Binary32.div, if_neg hu0.ne', zero_div]
  rw [round32_of_bounds (by rw [rnd_zero]; norm_num) (by rw [rnd_zero]; norm_num), rnd_zero]

/-- C15 as amended, at the boxes `(0, 0, 1, 1)` and `(0, 1, 1, 2)`, which touch
along a side; the computed union is `2`. -/
theorem CalJaccard_binary32_disjoint_witness :
    intersection_binary32 (Binary32.fin 0) (Binary32.fin 0) (Binary32.fin 1)
      (Binary32.fin 1) (Binary32.fin 0) (Binary32.fin 1) (Binary32.fin 1)
      (Binary32.fin 2) = Binary32.fin 0 ∧
    (0 : ℚ) < 2 ∧
    CalJaccard_binary32
        [Binary32.fin 0, Binary32.fin 0, Binary32.fin 1, Binary32.fin 1]
        [Binary32.fin 0, Binary32.fin 1, Binary32.fin 1, Binary32.fin 2]
      = some (Binary32.fin 0) :=
  CalJaccard_binary32_disjoint (Binary32.fin 0) (Binary32.fin 0) (Binary32.fin 1)
    (Binary32.fin 1) (Binary32.fin 0) (Binary32.fin 1) (Binary32.fin 1) (Binary32.fin 2) 2
    (by decide!) (by decide!) (by decide!) (by decide!)
    (Or.inr (Or.inr (Or.inl (by decide!)))) (Or.inl (by decide!)) (by decide!)

/-! ## Statements about the slot values of `Decode` in binary32 -/

theorem decodeBox_binary32_cons (exp : Binary32 → Binary32)
    (ps0 ps1 ps2 ps3 dh dw dcy dcx f0 f1 f2 f3 : Binary32) :
    decodeBox_binary32 exp [ps0, ps1, ps2, ps3] dh dw dcy dcx f0 f1 f2 f3 =
      some
        (Binary32.std_max (Binary32.fin 0)
          (Binary32.sub (Binary32.add dcy (Binary32.mul (Binary32.mul f0 dh) ps0))
            (Binary32.div (exp (Binary32.mul (Binary32.mul f2 dh) ps2)) (Binary32.fin 2))),
         Binary32.std_max (Binary32.fin 0)
          (Binary32.sub (Binary32.add dcx (Binary32.mul (Binary32.mul f1 dw) ps1))
            (Binary32.div (exp (Binary32.mul (Binary32.mul f3 dw) ps3)) (Binary32.fin 2))),
         Binary32.std_min (Binary32.fin 1)
          (Binary32.add (Binary32.add dcy (Binary32.mul (Binary32.mul f0 dh) ps0))
            (Binary32.div (exp (Binary32.mul (Binary32.mul f2 dh) ps2)) (Binary32.fin 2))),
         Binary32.std_min (Binary32.fin 1)
          (Binary32.add (Binary32.add dcx (Binary32.mul (Binary32.mul f1 dw) ps1))
            (Binary32.div (exp (Binary32.mul (Binary32.mul f3 dw) ps3)) (Binary32.fin 2)))) := by
  simp only [decodeBox_binary32, List.getElem?_cons_zero, List.getElem?_cons_succ,
    Option.bind_eq_bind, Option.some_bind, Option.pure_def]

theorem std_max_zero_ge (x : Binary32) :
    Binary32.le (Binary32.fin 0) (Binary32.std_max (Binary32.fin 0) x) = true := by
  cases x with
  | fin a =>
    rw [std_max_fin_fin]
    simp only [Binary32.le, decide_eq_true_eq]
    exact le_max_left _ _
  | pinf => simp [Binary32.std_max, Binary32.lt, Binary32.le]
  | ninf => simp [Binary32.std_max, Binary32.lt, Binary32.le]
  | nan => simp [Binary32.std_max, Binary32.lt, Binary32.le]

theorem std_min_one_le (x : Binary32) :
    Binary32.le (Binary32.std_min (Binary32.fin 1) x) (Binary32.fin 1) = true := by
  cases x with
  | fin a =>
    rw [std_min_fin_fin]
    simp only [Binary32.le, decide_eq_true_eq]
    exact min_le_left _ _
  | pinf => simp [Binary32.std_min, Binary32.lt, Binary32.le]
  | ninf => simp [Binary32.std_min, Binary32.lt, Binary32.le]
  | nan => simp [Binary32.std_min, Binary32.lt, Binary32.le]

/-- Half of a value that is not negative is a finite number that is not
negative, `+∞` or a NaN. -/
theorem half_of_not_neg (g : Binary32) (hg : Binary32.lt g (Binary32.fin 0) = false) :
    (∃ t : ℚ, Binary32.div g (Binary32.fin 2) = Binary32.fin t ∧ 0 ≤ t) ∨
    Binary32.div g (Binary32.fin 2) = Binary32.pinf ∨
    Binary32.div g (Binary32.fin 2) = Binary32.nan := by
  cases g with
  | fin q =>
    simp only [Binary32.lt, decide_eq_false_iff_not, not_lt] at hg
    have ht : 0 ≤ rnd (q / 2) := rnd_nonneg (by linarith)
    have p : (0 : ℚ) < (2 : ℚ) ^ 128 := by norm_num
    simp only [Binary32.div, if_neg (two_ne_zero : (2 : ℚ) ≠ 0)]
    unfold round32
    split_ifs with h1 h2
    · exact Or.inr (Or.inl rfl)
    · exact absurd h2 (by linarith)
    · exact Or.inl ⟨_, rfl, ht⟩
  | pinf => exact Or.inr (Or.inl (by simp [Binary32.div]))
  | ninf => simp [Binary32.lt] at hg
  | nan => exact Or.inr (Or.inr rfl)

/-- Lines 70 and 72 for a centre `c` in `[0, 1]` that is a binary32 number and
a half extent that is not negative: the two stored values are numbers with
`0 ≤ ymin ≤ ymax ≤ 1`. -/
theorem clamp_of_centre_inside (c : ℚ) (hc : rnd c = c) (h0 : 0 ≤ c) (h1 : c ≤ 1)
    (half : Binary32)
    (hhalf : (∃ t : ℚ, half = Binary32.fin t ∧ 0 ≤ t) ∨ half = Binary32.pinf ∨
      half = Binary32.nan) :
    ∃ y0 y1 : ℚ,
      Binary32.std_max (Binary32.fin 0) (Binary32.sub (Binary32.fin c) half)
        = Binary32.fin y0 ∧
      Binary32.std_min (Binary32.fin 1) (Binary32.add (Binary32.fin c) half)
        = Binary32.fin y1 ∧
      0 ≤ y0 ∧ y0 ≤ y1 ∧ y1 ≤ 1 := by
  have p : (1 : ℚ) < (2 : ℚ) ^ 128 := by norm_num
  rcases hhalf with ⟨t, rfl, ht⟩ | rfl | rfl
  · have hlo : rnd (c - t) ≤ c := by
      calc rnd (c - t) ≤ rnd c := rnd_le_rnd (by linarith)
        _ = c := hc
    have hhi : c ≤ rnd (c + t) := by
      calc c = rnd c := hc.symm
        _ ≤ rnd (c + t) := rnd_le_rnd (by linarith)
    have e0 : ∃ y0 : ℚ, Binary32.std_max (Binary32.fin 0)
        (Binary32.sub (Binary32.fin c) (Binary32.fin t)) = Binary32.fin y0 ∧
        0 ≤ y0 ∧ y0 ≤ c := by
      rw [sub_fin_fin]
      unfold round32
      split_ifs with k1 k2
      · exact absurd k1 (by linarith)
      · exact ⟨0, by simp [Binary32.std_max, Binary32.lt], le_rfl, h0⟩
      · exact ⟨max 0 (rnd (c - t)), std_max_fin_fin _ _, le_max_left _ _, max_le h0 hlo⟩
    have e1 : ∃ y1 : ℚ, Binary32.std_min (Binary32.fin 1)
        (Binary32.add (Binary32.fin c) (Binary32.fin t)) = Binary32.fin y1 ∧
        c ≤ y1 ∧ y1 ≤ 1 := by
      simp only [Binary32.add]
      unfold round32
      split_ifs with k1 k2
      · exact ⟨1, by simp [Binary32.std_min, Binary32.lt], h1, le_rfl⟩
      · exact absurd k2 (by linarith)
      · exact ⟨min 1 (rnd (c + t)), std_min_fin_fin _ _, le_min h1 hhi, min_le_left _ _⟩
    obtain ⟨y0, a0, b0, c0⟩ := e0
    obtain ⟨y1, a1, b1, c1⟩ := e1
    exact ⟨y0, y1, a0, a1, b0, c0.trans b1, c1⟩
  · exact ⟨0, 1, by simp [Binary32.std_max, Binary32.sub, Binary32.neg, Binary32.add,
      Binary32.lt], by simp [Binary32.std_min, Binary32.add, Binary32.lt], le_rfl,
      zero_le_one, le_rfl⟩
  · exact ⟨0, 1, by simp [Binary32.std_max, Binary32.sub, Binary32.neg, Binary32.add,
      Binary32.lt], by simp [Binary32.std_min, Binary32.add, Binary32.lt], le_rfl,
      zero_le_one, le_rfl⟩

/-- A finite sum of two floats is a binary32 number. -/
theorem rnd_of_add_eq_fin {x y : Binary32} {c : ℚ}
    (h : Binary32.add x y = Binary32.fin c) : rnd c = c := by
  obtain ⟨a, b, -, -, hr⟩ := add_eq_fin h
  rw [(round32_eq_fin hr).1]
  exact rnd_idem _

/-- C20, counterexample.  Cell `(0, 0)` of an image `1 x 1` with `step = 1` and
offset `1/2` has the prior centre `(1/2, 1/2)`.  With the anchor `(1, 1)`, the
scaling `[1, 1, 1, 1]` and the regression values `[0, 0, -20, -20]` the decoded
centre is `(1/2, 1/2)`, inside the image, and the decoded extent is
`exp(-20) > 0`; for every exponential whose value at `-20` is a number between
`0` and `2^-25` (the real `e^-20` is about `2.06e-9`, below
`2^-25 ≈ 2.98e-8`) half the extent is absorbed by the rounding of
`1/2 - g_h / 2` and `1/2 + g_h / 2`, and the four values written are
`ymin = xmin = ymax = xmax = 1/2`: `ymin < ymax` fails. -/
theorem decodeBox_binary32_extent_absorbed :
    priorCentre_binary32 [1, 1] (Binary32.fin 1) (Binary32.fin (1 / 2)) 0 0
      = some (Binary32.fin (1 / 2), Binary32.fin (1 / 2)) ∧
    Binary32.add (Binary32.fin (1 / 2))
        (Binary32.mul (Binary32.mul (Binary32.fin 0) (Binary32.fin 1)) (Binary32.fin 1))
      = Binary32.fin (1 / 2) ∧
    (0 < Real.exp (-20) ∧ Real.exp (-20) ≤ 1 / 2 ^ 25) ∧
    ∀ (exp : Binary32 → Binary32) (g : ℚ),
      exp (Binary32.fin (-20)) = Binary32.fin g → 0 ≤ g → g ≤ 1 / 2 ^ 25 →
      decodeBox_binary32 exp [Binary32.fin 1, Binary32.fin 1, Binary32.fin 1, Binary32.fin 1]
          (Binary32.fin 1) (Binary32.fin 1) (Binary32.fin (1 / 2)) (Binary32.fin (1 / 2))
          (Binary32.fin 0) (Binary32.fin 0) (Binary32.fin (-20)) (Binary32.fin (-20))
        = some (Binary32.fin (1 / 2), Binary32.fin (1 / 2), Binary32.fin (1 / 2),
            Binary32.fin (1 / 2)) := by
  refine ⟨by decide!, by decide!, ⟨Real.exp_pos _, ?_⟩, ?_⟩
  · have h1 : (2.7 : ℝ) < Real.exp 1 := by
      have := Real.exp_one_gt_d9
      linarith
    have h20 : Real.exp 20 = Real.exp 1 ^ 20 := by
      rw [← Real.exp_nat_mul]; norm_num
    have h2 : (2 : ℝ) ^ 25 ≤ Real.exp 20 := by
      rw [h20]
      calc (2 : ℝ) ^ 25 ≤ (2.7 : ℝ) ^ 20 := by norm_num
        _ ≤ Real.exp 1 ^ 20 := pow_le_pow_left₀ (by norm_num) h1.le 20
    rw [Real.exp_neg, one_div]
    exact inv_anti₀ (by positivity) h2
  · intro exp g hg g0 g1
    have e0 : Binary32.add (Binary32.fin (1 / 2))
        (Binary32.mul (Binary32.mul (Binary32.fin 0) (Binary32.fin 1)) (Binary32.fin 1))
        = Binary32.fin (1 / 2) := by decide!
    have e1 : Binary32.mul (Binary32.mul (Binary32.fin (-20)) (Binary32.fin 1)) (Binary32.fin 1)
        = Binary32.fin (-20) := by decide!
    have t0 : 0 ≤ rnd (g / 2) := rnd_nonneg (by linarith)
    have t1 : rnd (g / 2) ≤ 1 / 2 ^ 26 := by
      calc rnd (g / 2) ≤ rnd (1 / 2 ^ 26) := rnd_le_rnd (by linarith)
        _ = 1 / 2 ^ 26 := by decide!
    have ehalf : Binary32.div (Binary32.fin g) (Binary32.fin 2) = Binary32.fin (rnd (g / 2)) := by
      simp only [Binary32.div, if_neg (two_ne_zero : (2 : ℚ) ≠ 0)]
      exact round32_of_bounds (by linarith) (by linarith)
    have lo : rnd (1 / 2 - rnd (g / 2)) = 1 / 2 := by
      apply le_antisymm
      · calc rnd (1 / 2 - rnd (g / 2)) ≤ rnd (1 / 2) := rnd_le_rnd (by linarith)
          _ = 1 / 2 := by decide!
      · calc (1 / 2 : ℚ) = rnd (1 / 2 - 1 / 2 ^ 26) := by decide!
          _ ≤ rnd (1 / 2 - rnd (g / 2)) := rnd_le_rnd (by linarith)
    have hi : rnd (1 / 2 + rnd (g / 2)) = 1 / 2 := by
      apply le_antisymm
      · calc rnd (1 / 2 + rnd (g / 2)) ≤ rnd (1 / 2 + 1 / 2 ^ 26) := rnd_le_rnd (by linarith)
          _ = 1 / 2 := by decide!
      · calc (1 / 2 : ℚ) = rnd (1 / 2) := by decide!
          _ ≤ rnd (1 / 2 + rnd (g / 2)) := rnd_le_rnd (by linarith)
    have elo : Binary32.std_max (Binary32.fin 0)
        (Binary32.sub (Binary32.fin (1 / 2)) (Binary32.fin (rnd (g / 2))))
        = Binary32.fin (1 / 2) := by
      rw [sub_fin_fin, round32_of_bounds (by rw [lo]; norm_num) (by rw [lo]; norm_num), lo,
        std_max_fin_fin, max_eq_right (by norm_num)]
    have ehi : Binary32.std_min (Binary32.fin 1)
        (Binary32.add (Binary32.fin (1 / 2)) (Binary32.fin (rnd (g / 2))))
        = Binary32.fin (1 / 2) := by
      simp only [Binary32.add]
      rw [round32_of_bounds (by rw [hi]; norm_num) (by rw [hi]; norm_num), hi,
        std_min_fin_fin, min_eq_right (by norm_num)]
    rw [decodeBox_binary32_cons, e0, e1, hg, ehalf, elo, ehi]

/-- C20, as amended.  In binary32, for every value the body of the anchor loop
can see (NaN and infinities included) and every exponential, the four values
lines 70-73 store satisfy `ymin ≥ 0`, `xmin ≥ 0`, `ymax ≤ 1` and `xmax ≤ 1`.
If moreover the exponential never returns a negative value and the decoded
centre `g_cy` is a number with `0 ≤ g_cy ≤ 1`, then `ymin` and `ymax` are
numbers with `0 ≤ ymin ≤ ymax ≤ 1`; likewise `0 ≤ xmin ≤ xmax ≤ 1` when
`0 ≤ g_cx ≤ 1`.  The order is not strict. -/
theorem decodeBox_binary32_valid (exp : Binary32 → Binary32)
    (ps0 ps1 ps2 ps3 dh dw dcy dcx f0 f1 f2 f3 : Binary32) :
    ∃ ymin xmin ymax xmax : Binary32,
      decodeBox_binary32 exp [ps0, ps1, ps2, ps3] dh dw dcy dcx f0 f1 f2 f3
        = some (ymin, xmin, ymax, xmax) ∧
      Binary32.le (Binary32.fin 0) ymin = true ∧ Binary32.le (Binary32.fin 0) xmin = true ∧
      Binary32.le ymax (Binary32.fin 1) = true ∧ Binary32.le xmax (Binary32.fin 1) = true ∧
      ((∀ x, Binary32.lt (exp x) (Binary32.fin 0) = false) →
        (∀ g_cy : ℚ,
          Binary32.add dcy (Binary32.mul (Binary32.mul f0 dh) ps0) = Binary32.fin g_cy →
          0 ≤ g_cy → g_cy ≤ 1 →
          ∃ y0 y1 : ℚ, ymin = Binary32.fin y0 ∧ ymax = Binary32.fin y1 ∧
            0 ≤ y0 ∧ y0 ≤ y1 ∧ y1 ≤ 1) ∧
        (∀ g_cx : ℚ,
          Binary32.add dcx (Binary32.mul (Binary32.mul f1 dw) ps1) = Binary32.fin g_cx →
          0 ≤ g_cx → g_cx ≤ 1 →
          ∃ x0 x1 : ℚ, xmin = Binary32.fin x0 ∧ xmax = Binary32.fin x1 ∧
            0 ≤ x0 ∧ x0 ≤ x1 ∧ x1 ≤ 1)) := by
  refine ⟨_, _, _, _, decodeBox_binary32_cons exp ps0 ps1 ps2 ps3 dh dw dcy dcx f0 f1 f2 f3,
    std_max_zero_ge _, std_max_zero_ge _, std_min_one_le _, std_min_one_le _, ?_⟩
  intro hexp
  constructor
  · intro c hc h0 h1
    rw [hc]
    exact clamp_of_centre_inside c (rnd_of_add_eq_fin hc) h0 h1 _ (half_of_not_neg _ (hexp _))
  · intro c hc h0 h1
    rw [hc]
    exact clamp_of_centre_inside c (rnd_of_add_eq_fin hc) h0 h1 _ (half_of_not_neg _ (hexp _))

/-- C20 as amended, at cell `(0, 0)` of an image `1 x 1` (prior centre
`(1/2, 1/2)`), the anchor `(1, 1)`, the scaling `[1, 1, 1, 1]` and the
regression values `[0, 0, 0, 0]`, with an exponential that is `1` at the
argument `0` the slot gives it. -/
theorem decodeBox_binary32_valid_witness :
    ∃ y0 x0 y1 x1 : ℚ,
      decodeBox_binary32 (fun _ => Binary32.fin 1)
          [Binary32.fin 1, Binary32.fin 1, Binary32.fin 1, Binary32.fin 1]
          (Binary32.fin 1) (Binary32.fin 1) (Binary32.fin (1 / 2)) (Binary32.fin (1 / 2))
          (Binary32.fin 0) (Binary32.fin 0) (Binary32.fin 0) (Binary32.fin 0)
        = some (Binary32.fin y0, Binary32.fin x0, Binary32.fin y1, Binary32.fin x1) ∧
      (0 ≤ y0 ∧ y0 ≤ y1 ∧ y1 ≤ 1) ∧ (0 ≤ x0 ∧ x0 ≤ x1 ∧ x1 ≤ 1) := by
  obtain ⟨ymin, xmin, ymax, xmax, h, -, -, -, -, hc⟩ :=
    decodeBox_binary32_valid (fun _ => Binary32.fin 1) (Binary32.fin 1) (Binary32.fin 1)
      (Binary32.fin 1) (Binary32.fin 1) (Binary32.fin 1) (Binary32.fin 1)
      (Binary32.fin (1 / 2)) (Binary32.fin (1 / 2))
      (Binary32.fin 0) (Binary32.fin 0) (Binary32.fin 0) (Binary32.fin 0)
  obtain ⟨hy, hx⟩ := hc (fun _ => by decide!)
  obtain ⟨y0, y1, e0, e1, by0⟩ := hy (1 / 2) (by decide!) (by norm_num) (by norm_num)
  obtain ⟨x0, x1, f0, f1, bx0⟩ := hx (1 / 2) (by decide!) (by norm_num) (by norm_num)
  rw [e0, e1, f0, f1] at h
  exact ⟨y0, x0, y1, x1, h, by0, bx0⟩

/-- C6, counterexample.  Cell `(0, 0)` of an image `1 x 1` with `step = 1` and
the offset `-(1/2 + 2^-11 + 2^-24)`, the anchor `(1 + 2^-12, 1 + 2^-12)` and
the scaling `[1, 1, 1, 1]`; all of these are binary32 numbers.  The prior
centre is the offset, and the slot `[1 + 2^-12, 1 + 2^-12, 0, 0]` holds exactly
the encoding of the box `(0, 0, 1, 1)`.  In binary32 the product
`(1 + 2^-12) * (1 + 2^-12)` rounds to `1 + 2^-11`, the decoded centre is
`1/2 - 2^-24`, and for every exponential with `exp(0) = 1` the values written
are `(0, 0, 1 - 2^-24, 1 - 2^-24)`, not `(0, 0, 1, 1)`. -/
theorem decodeBox_binary32_round_trip_inexact :
    rnd (1 + 1 / 2 ^ 12) = 1 + 1 / 2 ^ 12 ∧
    rnd (-(1 / 2 + 1 / 2 ^ 11 + 1 / 2 ^ 24)) = -(1 / 2 + 1 / 2 ^ 11 + 1 / 2 ^ 24) ∧
    priorCentre_binary32 [1, 1] (Binary32.fin 1)
        (Binary32.fin (-(1 / 2 + 1 / 2 ^ 11 + 1 / 2 ^ 24))) 0 0
      = some (Binary32.fin (-(1 / 2 + 1 / 2 ^ 11 + 1 / 2 ^ 24)),
          Binary32.fin (-(1 / 2 + 1 / 2 ^ 11 + 1 / 2 ^ 24))) ∧
    (((0 : ℚ) + 1) / 2 - -(1 / 2 + 1 / 2 ^ 11 + 1 / 2 ^ 24)) / ((1 + 1 / 2 ^ 12) * 1)
      = 1 + 1 / 2 ^ 12 ∧
    Real.log (1 - 0) / ((1 + 1 / 2 ^ 12) * 1) = 0 ∧
    (1 - 1 / 2 ^ 24 : ℚ) ≠ 1 ∧
    ∀ exp : Binary32 → Binary32, exp (Binary32.fin 0) = Binary32.fin 1 →
      decodeBox_binary32 exp [Binary32.fin 1, Binary32.fin 1, Binary32.fin 1, Binary32.fin 1]
          (Binary32.fin (1 + 1 / 2 ^ 12)) (Binary32.fin (1 + 1 / 2 ^ 12))
          (Binary32.fin (-(1 / 2 + 1 / 2 ^ 11 + 1 / 2 ^ 24)))
          (Binary32.fin (-(1 / 2 + 1 / 2 ^ 11 + 1 / 2 ^ 24)))
          (Binary32.fin (1 + 1 / 2 ^ 12)) (Binary32.fin (1 + 1 / 2 ^ 12))
          (Binary32.fin 0) (Binary32.fin 0)
        = some (Binary32.fin 0, Binary32.fin 0, Binary32.fin (1 - 1 / 2 ^ 24),
            Binary32.fin (1 - 1 / 2 ^ 24)) := by
  refine ⟨by decide!, by decide!, by decide!, by norm_num, by simp, by norm_num, ?_⟩
  intro exp h
  have e1 : Binary32.mul (Binary32.mul (Binary32.fin 0) (Binary32.fin (1 + 1 / 2 ^ 12)))
      (Binary32.fin 1) = Binary32.fin 0 := by decide!
  rw [decodeBox_binary32_cons, e1, h]
  decide!

end SSDBbox
end util
end mace_kit
